import Mathlib

/-!
Verification development for the Chipmunk-ts physics engine core: the
sequential-impulse constraint solver (pin, gear, groove, ratchet and
rotary-limit joints) and the dynamic AABB tree (`BBTree`) used for broad
phase collision detection.

The definitions below are shallow embeddings of the TypeScript sources.
IEEE doubles are modelled by exact rationals (`ℚ`) wherever the code uses
only field operations, comparisons and `Math.floor`, and by real numbers
(`ℝ`) for the two joints whose step functions take square roots
(`PinJoint`, `GrooveJoint`).  Helpers that live in repository files that
were not provided (`util.ts`, `vect.ts`, `constraints/util.ts`,
`constraints/constraint.ts`) are modelled from the spec and are marked as
such in their doc comments.
-/

namespace Chipmunk

/-- Modelled from the spec: the scalar clamp `clamp(f, lo, hi)` used by every
joint (`bias = clamp(-errorBiasCoefficient(errorBias, dt) * error / dt,
-maxBias, maxBias)`); the helper lives in `src/util.ts`, which is not among
the provided sources.  `clamp f lo hi = min (max f lo) hi`. -/
def clamp {α : Type} [LinearOrder α] (f lo hi : α) : α :=
  min (max f lo) hi

theorem clamp_le {α : Type} [LinearOrder α] (f lo hi : α) : clamp f lo hi ≤ hi :=
  min_le_right _ _

theorem le_clamp {α : Type} [LinearOrder α] (f lo hi : α) (h : lo ≤ hi) :
    lo ≤ clamp f lo hi :=
  le_min (le_max_right _ _) h

theorem abs_clamp_le {α : Type} [LinearOrderedAddCommGroup α]
    (f m : α) (h : 0 ≤ m) : |clamp f (-m) m| ≤ m := by
  rw [abs_le]
  exact ⟨le_clamp f (-m) m (neg_le_self h), clamp_le f (-m) m⟩

theorem clamp_mem_Icc {α : Type} [LinearOrder α] (f lo hi : α) (h : lo ≤ hi) :
    lo ≤ clamp f lo hi ∧ clamp f lo hi ≤ hi :=
  ⟨le_clamp f lo hi h, clamp_le f lo hi⟩

/-- Rigid body state as read and written by the purely angular joints
(`GearJoint`, `RatchetJoint`, `RotaryLimitJoint`): `a` is the body's angle,
`w` its angular velocity, `i` its moment of inertia and `i_inv` the cached
inverse moment (the source stores both; `RatchetJoint` reads the inverse
under the name `inertiaInv`, identical to `i_inv`). -/
structure Body where
  a : ℚ
  w : ℚ
  i : ℚ
  i_inv : ℚ
deriving DecidableEq

/-! ### GearJoint (src/src/constraints/gear-joint.ts)
The source field spelled r-a-t-i-o is named `ratioVal` here to avoid a
clash with identifier conventions; `ratio_inv` keeps its source name. -/

/-- State of a `GearJoint` together with its two bodies and the `Constraint`
base-class parameters (`maxForce`, `maxBias`, `errorBias` — the base class
lives in `constraints/constraint.ts`, not among the provided sources, and is
modelled from the spec's data model). -/
structure GearSt where
  a : Body
  b : Body
  phase : ℚ
  ratioVal : ℚ
  ratio_inv : ℚ
  jAcc : ℚ
  iSum : ℚ
  bias : ℚ
  jMax : ℚ
  maxForce : ℚ
  maxBias : ℚ
  errorBias : ℚ
deriving DecidableEq

/-- `GearJoint.preStep(dt)`.  `bcoef` stands for the error-decay coefficient
helper `bias_coef(errorBias, dt)` from `constraints/util.ts` (not among the
provided sources); it is kept abstract because no claim depends on its
formula, and the spec describes it only as a per-step decay coefficient. -/
def gearPreStep (bcoef : ℚ → ℚ → ℚ) (s : GearSt) (dt : ℚ) : GearSt :=
  { s with
    iSum := 1 / (s.a.i_inv * s.ratio_inv + s.ratioVal * s.b.i_inv),
    bias := clamp (-(bcoef s.errorBias dt) * (s.b.a * s.ratioVal - s.a.a - s.phase) / dt)
      (-s.maxBias) s.maxBias,
    jMax := s.maxForce * dt }

/-- `GearJoint.applyImpulse()`: one sequential-impulse iteration. -/
def gearApplyImpulse (s : GearSt) : GearSt :=
  let wr := s.b.w * s.ratioVal - s.a.w
  let j := (s.bias - wr) * s.iSum
  let jOld := s.jAcc
  let jAcc' := clamp (jOld + j) (-s.jMax) s.jMax
  let jd := jAcc' - jOld
  { s with
    jAcc := jAcc',
    a := { s.a with w := s.a.w - jd * s.a.i_inv * s.ratio_inv },
    b := { s.b with w := s.b.w + jd * s.b.i_inv } }

/-! ### RatchetJoint (src/src/constraints/ratchet-joint.ts, lines 29-127) -/

/-- State of a `RatchetJoint` (angle, phase, ratchet increment, solver
scratch) together with its two bodies and base-class parameters. -/
structure RatchetSt where
  a : Body
  b : Body
  angle : ℚ
  phase : ℚ
  ratchet : ℚ
  iSum : ℚ
  bias : ℚ
  jAcc : ℚ
  jMax : ℚ
  maxForce : ℚ
  maxBias : ℚ
  errorBias : ℚ
deriving DecidableEq

/-- `RatchetJoint.preStep(dt)`: updates the catch angle when slipping in the
ratchet direction, recomputes `iSum`, `bias`, `jMax`, and resets `jAcc` to
zero when the recomputed bias is zero (the source tests JavaScript falsiness
`!this.bias`, which for a number means `bias === 0`). -/
def ratchetPreStep (bcoef : ℚ → ℚ → ℚ) (s : RatchetSt) (dt : ℚ) : RatchetSt :=
  let delta := s.b.a - s.a.a
  let diff := s.angle - delta
  let pdist := if diff * s.ratchet > 0 then diff else 0
  let angle' := if diff * s.ratchet > 0 then s.angle
    else (⌊(delta - s.phase) / s.ratchet⌋ : ℚ) * s.ratchet + s.phase
  let bias' := clamp (-(bcoef s.errorBias dt) * pdist / dt) (-s.maxBias) s.maxBias
  { s with
    angle := angle',
    iSum := 1 / (s.a.i_inv + s.b.i_inv),
    bias := bias',
    jMax := s.maxForce * dt,
    jAcc := if bias' = 0 then 0 else s.jAcc }

/-- `RatchetJoint.applyImpulse()`: early exit when `bias` is zero, otherwise
one impulse iteration whose accumulated total is clamped one-sidedly in the
ratchet direction (`clamp((jOld + j) * ratchet, 0, jMax * |ratchet|) /
ratchet`). -/
def ratchetApplyImpulse (s : RatchetSt) : RatchetSt :=
  if s.bias = 0 then s
  else
    let wr := s.b.w - s.a.w
    let j := -(s.bias + wr) * s.iSum
    let jOld := s.jAcc
    let jAcc' := clamp ((jOld + j) * s.ratchet) 0 (s.jMax * |s.ratchet|) / s.ratchet
    let jd := jAcc' - jOld
    { s with
      jAcc := jAcc',
      a := { s.a with w := s.a.w - jd * s.a.i_inv },
      b := { s.b with w := s.b.w + jd * s.b.i_inv } }

/-! ### RotaryLimitJoint (src/unnamed/part_001) -/

/-- State of a `RotaryLimitJoint` (the `min`/`max` angular limits are named
`minA`/`maxA` to avoid clashing with `Min`/`Max` projections). -/
structure RotaryLimitSt where
  a : Body
  b : Body
  minA : ℚ
  maxA : ℚ
  jAcc : ℚ
  iSum : ℚ
  bias : ℚ
  jMax : ℚ
  maxForce : ℚ
  maxBias : ℚ
  errorBias : ℚ
deriving DecidableEq

/-- `RotaryLimitJoint.preStep(dt)`: positional error `pdist` is nonzero only
outside `[min, max]`; `iSum` is `1/(1/a.i + 1/b.i)` in this joint (the
others use the cached inverses); `jAcc` is reset when the bias is zero. -/
def rotaryLimitPreStep (bcoef : ℚ → ℚ → ℚ) (s : RotaryLimitSt) (dt : ℚ) : RotaryLimitSt :=
  let dist := s.b.a - s.a.a
  let pdist := if dist > s.maxA then s.maxA - dist
    else if dist < s.minA then s.minA - dist else 0
  let bias' := clamp (-(bcoef s.errorBias dt) * pdist / dt) (-s.maxBias) s.maxBias
  { s with
    iSum := 1 / (1 / s.a.i + 1 / s.b.i),
    bias := bias',
    jMax := s.maxForce * dt,
    jAcc := if bias' = 0 then 0 else s.jAcc }

/-- `RotaryLimitJoint.applyImpulse()`: early exit when `bias` is zero;
otherwise the new accumulated total is clamped to `[0, jMax]` when
`bias < 0` and to `[-jMax, 0]` otherwise, and only the difference from the
old total is applied to the two angular velocities. -/
def rotaryLimitApplyImpulse (s : RotaryLimitSt) : RotaryLimitSt :=
  if s.bias = 0 then s
  else
    let wr := s.b.w - s.a.w
    let j := -(s.bias + wr) * s.iSum
    let jOld := s.jAcc
    let jAcc' := if s.bias < 0 then clamp (jOld + j) 0 s.jMax
      else clamp (jOld + j) (-s.jMax) 0
    let jd := jAcc' - jOld
    { s with
      jAcc := jAcc',
      a := { s.a with w := s.a.w - jd * s.a.i_inv },
      b := { s.b with w := s.b.w + jd * s.b.i_inv } }

/-! ### Real-valued 2D vectors (`vect.ts`, not among the provided sources)
`PinJoint` and `GrooveJoint` take square roots in their step functions, so
they are embedded over `ℝ`.  The vector helpers are modelled from the spec's
description of the vector/BB primitive collaborator and carry the standard
Chipmunk meanings. -/

/-- Modelled from the spec: a 2D vector over the reals (`Vect` of
`vect.ts`). -/
structure RVec where
  x : ℝ
  y : ℝ

theorem RVec.ext_xy {v w : RVec} (hx : v.x = w.x) (hy : v.y = w.y) : v = w := by
  cases v; cases w; simp_all

/-- Modelled from the spec: vector addition `vadd`. -/
def vadd (v w : RVec) : RVec := ⟨v.x + w.x, v.y + w.y⟩

/-- Modelled from the spec: vector subtraction `vsub`. -/
def vsub (v w : RVec) : RVec := ⟨v.x - w.x, v.y - w.y⟩

/-- Modelled from the spec: scalar multiple `vmult(v, s)`. -/
def vmult (v : RVec) (s : ℝ) : RVec := ⟨v.x * s, v.y * s⟩

/-- Modelled from the spec: dot product `vdot`. -/
def vdot (v w : RVec) : ℝ := v.x * w.x + v.y * w.y

/-- Modelled from the spec: 2D cross product `vcross(v, w) = v.x*w.y - v.y*w.x`. -/
def vcross (v w : RVec) : ℝ := v.x * w.y - v.y * w.x

/-- Modelled from the spec: counterclockwise perpendicular `vperp`. -/
def vperp (v : RVec) : RVec := ⟨-v.y, v.x⟩

/-- Modelled from the spec: rotation of `v` by the unit rotation vector `r`
(complex multiplication), `vrotate`. -/
def vrotate (v r : RVec) : RVec := ⟨v.x * r.x - v.y * r.y, v.x * r.y + v.y * r.x⟩

/-- Modelled from the spec: squared length `vlengthsq`. -/
def vlengthsq (v : RVec) : ℝ := v.x * v.x + v.y * v.y

/-- Modelled from the spec: Euclidean length `vlength` (the engine's only
use of a square root). -/
noncomputable def vlength (v : RVec) : ℝ := Real.sqrt (v.x * v.x + v.y * v.y)

/-- Modelled from the spec: `vnormalize(v) = vmult(v, 1/vlength(v))`. -/
noncomputable def vnormalize (v : RVec) : RVec := vmult v (1 / vlength v)

/-- Modelled from the spec: clamp a 2-vector to the disc of radius `len`
(`vclamp`), used for the 2-D impulse clamp ("clamped to a disc"). -/
noncomputable def vclamp (v : RVec) (len : ℝ) : RVec :=
  if vdot v v > len * len then vmult (vnormalize v) len else v

/-- Modelled from the spec: projection of `v1` onto `v2` (`vproject`). -/
noncomputable def vproject (v1 v2 : RVec) : RVec :=
  vmult v2 (vdot v1 v2 / vlengthsq v2)

/-- Rigid body state as read and written by the planar joints: position `p`,
unit rotation vector `rot`, linear velocity `v`, angular velocity `w`,
inverse mass `m_inv` and inverse moment `i_inv` (the spec's Body data
model). -/
structure RBody where
  p : RVec
  rot : RVec
  v : RVec
  w : ℝ
  m_inv : ℝ
  i_inv : ℝ

/-- Modelled from the spec: `Body.local2World(v) = p + vrotate(v, rot)`. -/
def local2World (b : RBody) (v : RVec) : RVec := vadd b.p (vrotate v b.rot)

/-- Modelled from the spec: one body's contribution to the effective mass
along `n` — inverse mass plus inverse moment times the squared torque arm
(`k_scalar_body` of `constraints/util.ts`). -/
def k_scalar_body (b : RBody) (r n : RVec) : ℝ :=
  b.m_inv + b.i_inv * vcross r n * vcross r n

/-- Modelled from the spec: combined angular/linear inertia of the two
bodies projected along the constraint axis `n` (`k_scalar`). -/
def k_scalar (a b : RBody) (r1 r2 n : RVec) : ℝ :=
  k_scalar_body a r1 n + k_scalar_body b r2 n

/-- Modelled from the spec: relative velocity of the two anchor points
(`relative_velocity` of `constraints/util.ts`). -/
def relativeVelocity (a b : RBody) (r1 r2 : RVec) : RVec :=
  ⟨(b.v.x - r2.y * b.w) - (a.v.x - r1.y * a.w),
   (b.v.y + r2.x * b.w) - (a.v.y + r1.x * a.w)⟩

/-- Modelled from the spec: relative velocity along `n`
(`normal_relative_velocity`). -/
def normal_relative_velocity (a b : RBody) (r1 r2 n : RVec) : ℝ :=
  vdot (relativeVelocity a b r1 r2) n

/-- Modelled from the spec: additive application of the impulse `(jx, jy)` at
offset `r` to one body (`apply_impulse`): velocities only, never position. -/
def apply_impulse (b : RBody) (jx jy : ℝ) (r : RVec) : RBody :=
  { b with
    v := ⟨b.v.x + jx * b.m_inv, b.v.y + jy * b.m_inv⟩,
    w := b.w + b.i_inv * (r.x * jy - r.y * jx) }

/-- Modelled from the spec: equal-and-opposite impulses on the two bodies
(`apply_impulses`). -/
def apply_impulses (a b : RBody) (r1 r2 : RVec) (jx jy : ℝ) : RBody × RBody :=
  (apply_impulse a (-jx) (-jy) r1, apply_impulse b jx jy r2)

/-! ### PinJoint (src/src/constraints/pin-joint.ts) -/

/-- State of a `PinJoint`: the two local anchors, the rest distance `dist`
fixed at construction, solver scratch (`r1`, `r2`, `n`, `nMass`, `bias`,
`jnMax`), the accumulated impulse `jnAcc`, the two bodies and the base-class
parameters. -/
structure PinSt where
  a : RBody
  b : RBody
  anchr1 : RVec
  anchr2 : RVec
  dist : ℝ
  r1 : RVec
  r2 : RVec
  n : RVec
  nMass : ℝ
  jnAcc : ℝ
  jnMax : ℝ
  bias : ℝ
  maxForce : ℝ
  maxBias : ℝ
  errorBias : ℝ

/-- `PinJoint` constructor: computes the two world anchors, fixes the rest
distance, and flags (without failing) the degenerate zero-length case.  The
source's `assertSoft(this.dist > 0, "...")` logs a warning and continues; it
is modelled as a returned warning flag (`true` = the soft warning fired).
All other fields start at zero exactly as in the source. -/
noncomputable def pinConstruct (a b : RBody) (anchr1 anchr2 : RVec)
    (maxForce maxBias errorBias : ℝ) : PinSt × Bool :=
  let p1 := vadd a.p (vrotate anchr1 a.rot)
  let p2 := vadd b.p (vrotate anchr2 b.rot)
  let d := vlength (vsub p2 p1)
  (⟨a, b, anchr1, anchr2, d, ⟨0, 0⟩, ⟨0, 0⟩, ⟨0, 0⟩, 0, 0, 0, 0,
    maxForce, maxBias, errorBias⟩,
   !decide (d > 0))

/-- `PinJoint.preStep(dt)`: recomputes the anchor offsets, the separation
axis `n`, the effective mass `nMass`, the bias velocity and the impulse
clamp `jnMax`.  The source guards the zero-length separation with
`1 / (dist ? dist : Infinity)`, i.e. the multiplier is `0` when `dist = 0`;
in Lean `1 / 0 = 0` yields the same value, so the branch needs no special
case here. -/
noncomputable def pinPreStep (bcoef : ℝ → ℝ → ℝ) (s : PinSt) (dt : ℝ) : PinSt :=
  let r1 := vrotate s.anchr1 s.a.rot
  let r2 := vrotate s.anchr2 s.b.rot
  let delta := vsub (vadd s.b.p r2) (vadd s.a.p r1)
  let d := vlength delta
  let n := vmult delta (1 / d)
  { s with
    r1 := r1,
    r2 := r2,
    n := n,
    nMass := 1 / k_scalar s.a s.b r1 r2 n,
    bias := clamp (-(bcoef s.errorBias dt) * (d - s.dist) / dt) (-s.maxBias) s.maxBias,
    jnMax := s.maxForce * dt }

/-- `PinJoint.applyImpulse()`: the new accumulated impulse is the old one
plus `(bias - vrn) * nMass` clamped to `[-jnMax, jnMax]`; only the
difference is applied along `n` to the two bodies. -/
noncomputable def pinApplyImpulse (s : PinSt) : PinSt :=
  let vrn := normal_relative_velocity s.a s.b s.r1 s.r2 s.n
  let jn := (s.bias - vrn) * s.nMass
  let jnOld := s.jnAcc
  let jnAcc' := clamp (jnOld + jn) (-s.jnMax) s.jnMax
  let jd := jnAcc' - jnOld
  let ab := apply_impulses s.a s.b s.r1 s.r2 (s.n.x * jd) (s.n.y * jd)
  { s with jnAcc := jnAcc', a := ab.1, b := ab.2 }

/-! ### GrooveJoint (src/src/constraints/groove-joint.ts) -/

/-- State of a `GrooveJoint`: groove endpoints and normal in body-a local
space, the world groove normal `grooveTN`, the endpoint clamping sign
`clampSign` (source field `clamp`), the 2x2 effective-mass rows `k1`, `k2`,
the 2-vector accumulated impulse `jAcc`, the impulse clamp `jMaxLen` and the
2-vector bias. -/
structure GrooveSt where
  a : RBody
  b : RBody
  grooveA : RVec
  grooveB : RVec
  grooveN : RVec
  grooveTN : RVec
  anchr2 : RVec
  clampSign : ℝ
  r1 : RVec
  r2 : RVec
  k1 : RVec
  k2 : RVec
  jAcc : RVec
  jMaxLen : ℝ
  bias : RVec
  maxForce : ℝ
  maxBias : ℝ
  errorBias : ℝ

/-- Modelled from the spec: the 2x2 effective-mass tensor of a 2-D
constraint, returned as its two rows (`k_tensor` of `constraints/util.ts`):
the combined inverse inertia matrix of the two bodies at offsets `r1`, `r2`
is assembled and inverted. -/
noncomputable def kTensor (a b : RBody) (r1 r2 : RVec) : RVec × RVec :=
  let m_sum := a.m_inv + b.m_inv
  let k11 := m_sum + a.i_inv * r1.y * r1.y + b.i_inv * r2.y * r2.y
  let k12 := 0 - a.i_inv * r1.x * r1.y - b.i_inv * r2.x * r2.y
  let k21 := 0 - a.i_inv * r1.x * r1.y - b.i_inv * r2.x * r2.y
  let k22 := m_sum + a.i_inv * r1.x * r1.x + b.i_inv * r2.x * r2.x
  let det := k11 * k22 - k12 * k21
  (⟨k22 / det, -k12 / det⟩, ⟨-k21 / det, k11 / det⟩)

/-- Modelled from the spec: multiply a vector by the two mass-tensor rows
(`mult_k(vr, k1, k2) = (vr·k1, vr·k2)`). -/
def multK (vr k1 k2 : RVec) : RVec := ⟨vdot vr k1, vdot vr k2⟩

/-- `GrooveJoint.preStep(dt)`: world groove endpoints and axis, tangential
clamping of the anchor to the groove segment (`clampSign` is 1, -1 or 0),
the mass tensor, the impulse clamp and the 2-vector bias. -/
noncomputable def groovePreStep (bcoef : ℝ → ℝ → ℝ) (s : GrooveSt) (dt : ℝ) : GrooveSt :=
  let ta := local2World s.a s.grooveA
  let tb := local2World s.a s.grooveB
  let n := vrotate s.grooveN s.a.rot
  let d := vdot ta n
  let r2 := vrotate s.anchr2 s.b.rot
  let td := vcross (vadd s.b.p r2) n
  let cs : ℝ := if td ≤ vcross ta n then 1 else if td ≥ vcross tb n then -1 else 0
  let r1 : RVec :=
    if td ≤ vcross ta n then vsub ta s.a.p
    else if td ≥ vcross tb n then vsub tb s.a.p
    else vsub (vadd (vmult (vperp n) (-td)) (vmult n d)) s.a.p
  let ks := kTensor s.a s.b r1 r2
  let delta := vsub (vadd s.b.p r2) (vadd s.a.p r1)
  { s with
    grooveTN := n,
    r2 := r2,
    clampSign := cs,
    r1 := r1,
    k1 := ks.1,
    k2 := ks.2,
    jMaxLen := s.maxForce * dt,
    bias := vclamp (vmult delta (-(bcoef s.errorBias dt) / dt)) s.maxBias }

/-- `GrooveJoint.grooveConstrain(j)`: projects the impulse onto the groove
tangent unless it pushes against the clamped endpoint, then clamps it to the
disc of radius `jMaxLen`. -/
noncomputable def grooveConstrain (s : GrooveSt) (j : RVec) : RVec :=
  let n := s.grooveTN
  let jClamp := if s.clampSign * vcross j n > 0 then j else vproject j n
  vclamp jClamp s.jMaxLen

/-- `GrooveJoint.applyImpulse()`: 2-vector sequential-impulse iteration with
the constrained-and-clamped new total, applying only the difference. -/
noncomputable def grooveApplyImpulse (s : GrooveSt) : GrooveSt :=
  let vr := relativeVelocity s.a s.b s.r1 s.r2
  let j := multK (vsub s.bias vr) s.k1 s.k2
  let jOld := s.jAcc
  let jAcc' := grooveConstrain s (vadd jOld j)
  let ab := apply_impulses s.a s.b s.r1 s.r2 (jAcc'.x - jOld.x) (jAcc'.y - jOld.y)
  { s with jAcc := jAcc', a := ab.1, b := ab.2 }

/-! ### Concrete states used by witnesses and counterexamples -/

/-- A unit test body for the angular joints. -/
def bodyW : Body := ⟨0, 0, 1, 1⟩

/-- A gear joint state with unit coefficients and `jMax = 1`. -/
def gearW : GearSt :=
  { a := bodyW, b := bodyW, phase := 0, ratioVal := 1, ratio_inv := 1,
    jAcc := 0, iSum := 1, bias := 1, jMax := 1,
    maxForce := 1, maxBias := 1, errorBias := 1 }

/-- A ratchet joint state at a limit (`bias = 1`). -/
def ratchetW : RatchetSt :=
  { a := bodyW, b := bodyW, angle := 0, phase := 0, ratchet := 1,
    iSum := 1, bias := 1, jAcc := 0, jMax := 1,
    maxForce := 1, maxBias := 1, errorBias := 1 }

/-- A ratchet joint state with zero bias (inactive). -/
def ratchetW0 : RatchetSt := { ratchetW with bias := 0, jAcc := 0 }

/-- A rotary limit joint state pressed past its upper limit (`bias = 1`). -/
def rotaryW : RotaryLimitSt :=
  { a := bodyW, b := bodyW, minA := -1, maxA := 1,
    jAcc := 0, iSum := 1, bias := 1, jMax := 10,
    maxForce := 1, maxBias := 1, errorBias := 1 }

/-- A rotary limit joint state with zero bias (inside its limits). -/
def rotaryW0 : RotaryLimitSt := { rotaryW with bias := 0, jAcc := 0 }

/-- A unit test body for the planar joints. -/
def bodyR : RBody := ⟨⟨0, 0⟩, ⟨1, 0⟩, ⟨0, 0⟩, 0, 1, 1⟩

/-- A pin joint state with `jnMax = 1` and all scratch fields zeroed. -/
def pinW : PinSt :=
  { a := bodyR, b := bodyR, anchr1 := ⟨0, 0⟩, anchr2 := ⟨0, 0⟩, dist := 0,
    r1 := ⟨0, 0⟩, r2 := ⟨0, 0⟩, n := ⟨0, 0⟩, nMass := 1,
    jnAcc := 0, jnMax := 1, bias := 0,
    maxForce := 1, maxBias := 1, errorBias := 1 }

/-- A groove joint state with `jMaxLen = 1` and all scratch fields zeroed. -/
def grooveW : GrooveSt :=
  { a := bodyR, b := bodyR, grooveA := ⟨0, 0⟩, grooveB := ⟨1, 0⟩,
    grooveN := ⟨0, 1⟩, grooveTN := ⟨0, 1⟩, anchr2 := ⟨0, 0⟩,
    clampSign := 0, r1 := ⟨0, 0⟩, r2 := ⟨0, 0⟩,
    k1 := ⟨1, 0⟩, k2 := ⟨0, 1⟩, jAcc := ⟨0, 0⟩, jMaxLen := 1,
    bias := ⟨0, 0⟩, maxForce := 1, maxBias := 1, errorBias := 1 }

/-- Modelled from the spec's words, for comparison with the source (claim
C2): the claim's reading of `RotaryLimitJoint.applyImpulse` — unclamped
delta `(bias - relativeVelocity) * effectiveMass` added to the previous
accumulated impulse and the new total clamped to the joint's
direction-dependent range (`[-jMax, 0]` when the bias is positive). -/
def specC2RotaryNewTotal (s : RotaryLimitSt) : ℚ :=
  if s.bias < 0 then clamp (s.jAcc + (s.bias - (s.b.w - s.a.w)) * s.iSum) 0 s.jMax
  else clamp (s.jAcc + (s.bias - (s.b.w - s.a.w)) * s.iSum) (-s.jMax) 0

/-! ### The dynamic AABB tree (src/src/constraints/ratchet-joint.ts, lines 149-853)

The tree file stores mutable `Node`/`Leaf` objects with parent pointers and
threads `Pair` records through two doubly-linked lists.  The embedding uses
an inductive tree (parent pointers become the recursion structure; the
upward walks become explicit ancestor contexts) and a single global list of
ordered pairs `(leafA.i, leafB.i)` (`pairInsert(a, b)` appends `(a.i,
b.i)`; both thread lists of a leaf are recovered by filtering, and
`unlinkThread` becomes list removal).  Shapes are identified by their
stable `hashid : ℕ`, and `getBB` with no velocity estimator stores the
shape's box unchanged. -/

/-- An axis-aligned box: fields `l`, `b`, `r`, `t` as in `bb.ts` (tree nodes
store the same four numbers as `bb_l`, `bb_b`, `bb_r`, `bb_t`). -/
structure Box where
  l : ℚ
  b : ℚ
  r : ℚ
  t : ℚ
deriving DecidableEq

/-- The data of one tree `Leaf`: the shape's identifier (`obj.hashid`), the
stored (fattened) box and the last-updated `stamp`. -/
structure LeafR where
  i : ℕ
  bb : Box
  s : ℕ
deriving DecidableEq

/-- The binary tree of internal `Node`s (with their cached bounding box and
children `A`, `B`) and `Leaf`s. -/
inductive BTree where
  | leaf (L : LeafR)
  | node (bb : Box) (A B : BTree)
deriving DecidableEq

/-- The bounding box of a subtree (`.bb_l` … of either a `Node` or a
`Leaf`). -/
def BTree.bb : BTree → Box
  | .leaf L => L.bb
  | .node bb _ _ => bb

/-- Componentwise min/max union of two boxes: the `Node` constructor, the
recompute loop of `replaceChild` and the box enlargement of
`subtreeInsert`. -/
def mergeBox (x y : Box) : Box :=
  ⟨min x.l y.l, min x.b y.b, max x.r y.r, max x.t y.t⟩

/-- `bbArea`. -/
def boxArea (x : Box) : ℚ := (x.r - x.l) * (x.t - x.b)

/-- `bbTreeMergedArea`. -/
def mergedArea (x y : Box) : ℚ :=
  (max x.r y.r - min x.l y.l) * (max x.t y.t - min x.b y.b)

/-- `bbProximity`. -/
def proximity (x y : Box) : ℚ :=
  |x.l + x.r - y.l - y.r| + |x.b + x.t - y.b - y.t|

/-- `bbTreeIntersectsNode` / `intersectsBB`: closed-interval box overlap. -/
def inters (x y : Box) : Bool :=
  decide (x.l ≤ y.r) && decide (y.l ≤ x.r) && decide (x.b ≤ y.t) && decide (y.b ≤ x.t)

/-- `Leaf.containsObj`: the stored box contains the shape's current box. -/
def containsObjB (bigB small : Box) : Bool :=
  decide (bigB.l ≤ small.l) && decide (bigB.r ≥ small.r) &&
    decide (bigB.b ≤ small.b) && decide (bigB.t ≥ small.t)

/-- The descent choice of `subtreeInsert` (`cost_b < cost_a` after the
exact-tie proximity tie-break): `true` sends the new leaf into the `B`
child. -/
def descendB (A B : BTree) (L : LeafR) : Bool :=
  let costA := boxArea B.bb + mergedArea A.bb L.bb
  let costB := boxArea A.bb + mergedArea B.bb L.bb
  if costA = costB then decide (proximity B.bb L.bb < proximity A.bb L.bb)
  else decide (costB < costA)

/-- `subtreeInsert`: at a leaf, `makeNode(leaf, subtree)` puts the new leaf
in the `A` slot; at a node, descend into the child chosen by the insertion
cost comparison and enlarge the node's box by the leaf's. -/
def insT (t : BTree) (L : LeafR) : BTree :=
  match t with
  | .leaf L0 => .node (mergeBox L.bb L0.bb) (.leaf L) (.leaf L0)
  | .node bb A B =>
    if descendB A B L then .node (mergeBox bb L.bb) A (insT B L)
    else .node (mergeBox bb L.bb) (insT A L) B

/-- Whether the subtree holds a leaf with identifier `i` (the functional
stand-in for following `leaves[hashid]`'s parent pointers). -/
def hasId : BTree → ℕ → Bool
  | .leaf L0, i => decide (L0.i = i)
  | .node _ A B, i => hasId A i || hasId B i

/-- `subtreeRemove`: `none` when the subtree was exactly the removed leaf;
when a node's child is the leaf, the other child takes its slot (the parent
node is dropped, i.e. recycled); above the replacement point every
ancestor's box is recomputed as the exact union of its children — the
upward loop of `replaceChild`. -/
def remT : BTree → ℕ → Option BTree
  | .leaf L0, i => if L0.i = i then none else some (.leaf L0)
  | .node bb A B, i =>
    if hasId A i then
      match remT A i with
      | none => some B
      | some A' => some (.node (mergeBox A'.bb B.bb) A' B)
    else if hasId B i then
      match remT B i with
      | none => some A
      | some B' => some (.node (mergeBox A.bb B'.bb) A B')
    else some (.node bb A B)

/-- `subtreeQuery`: prune subtrees whose box misses the query box, report
the identifiers of intersecting leaves in visit order. -/
def queryT : BTree → Box → List ℕ
  | .leaf L0, q => if inters L0.bb q then [L0.i] else []
  | .node bb A B, q => if inters bb q then queryT A q ++ queryT B q else []

/-- The leaves of a subtree, in-order (`A` before `B`). -/
def leafList : BTree → List LeafR
  | .leaf L => [L]
  | .node _ A B => leafList A ++ leafList B

/-- The leaf identifiers of a subtree, in-order. -/
def leafIds (t : BTree) : List ℕ := (leafList t).map LeafR.i

/-- Lookup of the leaf with identifier `i` (`leaves[hashid]`). -/
def findLeaf : BTree → ℕ → Option LeafR
  | .leaf L, i => if L.i = i then some L else none
  | .node _ A B, i =>
    match findLeaf A i with
    | some L => some L
    | none => findLeaf B i

/-- The C4 box invariant: every internal node's stored box is exactly the
union of its two children's boxes. -/
def bbOkB : BTree → Bool
  | .leaf _ => true
  | .node bb A B => decide (bb = mergeBox A.bb B.bb) && bbOkB A && bbOkB B

/-- `Leaf.markLeafQuery`: descend the subtree `S` against the walking leaf
(`Li`, `Lbb`, `Ls`), pruning by box overlap.  At a reached leaf: with
`left = true` insert the pair `(L, M)` (no callback); with `left = false`
insert `(M, L)` only when `M.stamp < L.stamp`, and invoke the callback
`func(leaf.obj, this.obj)`.  Returns the updated global pair list and the
emissions in order (`A` child before `B`). -/
def mlq (S : BTree) (Li : ℕ) (Lbb : Box) (Ls : ℕ) (left : Bool)
    (P : List (ℕ × ℕ)) : List (ℕ × ℕ) × List (ℕ × ℕ) :=
  match S with
  | .leaf M =>
    if inters Lbb M.bb then
      if left then (P ++ [(Li, M.i)], [])
      else ((if M.s < Ls then P ++ [(M.i, Li)] else P), [(Li, M.i)])
    else (P, [])
  | .node bb A B =>
    if inters Lbb bb then
      let qA := mlq A Li Lbb Ls left P
      let qB := mlq B Li Lbb Ls left qA.1
      (qB.1, qA.2 ++ qB.2)
    else (P, [])

/-- The ancestor loop of `Leaf.markSubtree`: `ctx` lists, nearest ancestor
first, each ancestor's other child together with the `left` flag (`true`
exactly when the walking leaf descends from that ancestor's `A` child). -/
def leafWalk (Li : ℕ) (Lbb : Box) (Ls : ℕ) (ctx : List (BTree × Bool))
    (P : List (ℕ × ℕ)) : List (ℕ × ℕ) × List (ℕ × ℕ) :=
  match ctx with
  | [] => (P, [])
  | (S, left) :: rest =>
    let q := mlq S Li Lbb Ls left P
    let w := leafWalk Li Lbb Ls rest q.1
    (w.1, q.2 ++ w.2)

/-- `markSubtree` (with no static tree): internal nodes recurse into both
children in order; a leaf whose stamp equals the index's current stamp
walks its ancestors, and a stale leaf serves its cached pairs — it emits
`func(pair.leafA.obj, this.obj)` for exactly the pairs in which it is
`leafB`. -/
def markSub (t : BTree) (ctx : List (BTree × Bool)) (P : List (ℕ × ℕ))
    (cur : ℕ) : List (ℕ × ℕ) × List (ℕ × ℕ) :=
  match t with
  | .node _ A B =>
    let qA := markSub A ((B, true) :: ctx) P cur
    let qB := markSub B ((A, false) :: ctx) qA.1 cur
    (qB.1, qA.2 ++ qB.2)
  | .leaf L =>
    if L.s = cur then leafWalk L.i L.bb L.s ctx P
    else (P, (P.filter (fun p => decide (p.2 = L.i))).map (fun p => (p.1, L.i)))

/-- The `BBTree` state: root, the identifier set of the `leaves` hash (the
leaf data itself lives in the tree; the well-formedness predicate ties the
two together), the global pair list, and the current stamp. -/
structure TreeSt where
  root : Option BTree
  ids : List ℕ
  pairs : List (ℕ × ℕ)
  stamp : ℕ
deriving DecidableEq

/-- The ancestor context of the leaf `i` inside `t`, nearest ancestor
first: the functional counterpart of walking the leaf's parent pointers
upward. -/
def ctxOf : BTree → ℕ → List (BTree × Bool)
  | .leaf _, _ => []
  | .node _ A B, i =>
    if hasId A i then ctxOf A i ++ [(B, true)]
    else if hasId B i then ctxOf B i ++ [(A, false)]
    else []

/-- `BBTree.insert(obj)`: wrap the shape's current box in a leaf stamped
with the current stamp, insert it with the cost-minimising descent, run
`Leaf.addPairs` (the fresh leaf's own ancestor walk, callback `null`) and
increment the stamp. -/
def treeInsert (st : TreeSt) (i : ℕ) (bb : Box) : TreeSt :=
  let root' := match st.root with
    | none => BTree.leaf ⟨i, bb, st.stamp⟩
    | some t => insT t ⟨i, bb, st.stamp⟩
  { root := some root',
    ids := st.ids ++ [i],
    pairs := (leafWalk i bb st.stamp (ctxOf root' i) st.pairs).1,
    stamp := st.stamp + 1 }

/-- `BBTree.remove(obj)`: drop the hash entry, take the leaf out of the
tree, clear every pair involving it (`Leaf.clearPairs` unlinks each from
both thread lists) and recycle the leaf (a no-op in the source). -/
def treeRemove (st : TreeSt) (i : ℕ) : TreeSt :=
  { root := match st.root with
      | none => none
      | some t => remT t i,
    ids := st.ids.erase i,
    pairs := st.pairs.filter (fun p => !(decide (p.1 = i) || decide (p.2 = i))),
    stamp := st.stamp }

/-- `BBTree.contains(obj)`: `leaves[obj.hashid] != null`. -/
def treeContains (st : TreeSt) (i : ℕ) : Bool := st.ids.contains i

/-- `Leaf.update`: when the stored box no longer contains the shape's
current box, store the new box, remove and re-insert the leaf, clear its
stale pairs and stamp it with the index's current stamp; otherwise leave
everything untouched. -/
def updateLeaf (st : TreeSt) (objBB : ℕ → Box) (i : ℕ) : TreeSt :=
  match st.root with
  | none => st
  | some t =>
    match findLeaf t i with
    | none => st
    | some L =>
      if containsObjB L.bb (objBB i) then st
      else
        let nl : LeafR := ⟨i, objBB i, st.stamp⟩
        { st with
          root := some (match remT t i with
            | none => BTree.leaf nl
            | some t1 => insT t1 nl),
          pairs := st.pairs.filter (fun p => !(decide (p.1 = i) || decide (p.2 = i))) }

/-- `BBTree.reindexQuery(func)`: if the root is null return immediately;
otherwise update every leaf (hash iteration order = the `ids` list), run
`markSubtree` from the root with the callback, and increment the stamp.
Returns the new state and the callback invocations in order. -/
def reindexQueryM (st : TreeSt) (objBB : ℕ → Box) : TreeSt × List (ℕ × ℕ) :=
  match st.root with
  | none => (st, [])
  | some _ =>
    let st1 := st.ids.foldl (fun acc i => updateLeaf acc objBB i) st
    match st1.root with
    | none => ({ st1 with stamp := st1.stamp + 1 }, [])
    | some t =>
      let q := markSub t [] st1.pairs st1.stamp
      ({ st1 with pairs := q.1, stamp := st1.stamp + 1 }, q.2)

/-! ### State-level invariants of the tree -/

/-- The leaves reachable from the (optional) root. -/
def rootLeafList : Option BTree → List LeafR
  | none => []
  | some t => leafList t

/-- The C4 box invariant over the optional root. -/
def rootBbOk : Option BTree → Bool
  | none => true
  | some t => bbOkB t

/-- `BBTree.query(bb, func)` from the root: the reported identifiers in
order. -/
def rootQuery (st : TreeSt) (q : Box) : List ℕ :=
  match st.root with
  | none => []
  | some t => queryT t q

/-- C4's position invariant: the reachable leaves carry pairwise distinct
identifiers (each `leaves[id]` entry has exactly one tree position) and
the reachable identifiers agree exactly with the `leaves` hash. -/
def posOkB (st : TreeSt) : Bool :=
  decide (((rootLeafList st.root).map LeafR.i).Nodup) &&
  decide (st.ids.Nodup) &&
  decide (∀ i ∈ st.ids, i ∈ (rootLeafList st.root).map LeafR.i) &&
  decide (∀ i ∈ (rootLeafList st.root).map LeafR.i, i ∈ st.ids)

/-- The C4 invariant: exact union boxes plus unique positions. -/
def wfB (st : TreeSt) : Bool := rootBbOk st.root && posOkB st

/-- Whether two ordered pairs name the same unordered pair. -/
def unordEq (p q : ℕ × ℕ) : Bool :=
  (decide (p = q)) || (decide (p.1 = q.2) && decide (p.2 = q.1))

/-- No unordered pair is cached twice. -/
def pairNodupB (P : List (ℕ × ℕ)) : Bool :=
  decide (P.Pairwise (fun p q => unordEq p q = false))

/-- Every cached pair joins two distinct reachable leaves. -/
def pairWfB (st : TreeSt) : Bool :=
  decide (∀ p ∈ st.pairs, p.1 ≠ p.2 ∧
    p.1 ∈ (rootLeafList st.root).map LeafR.i ∧
    p.2 ∈ (rootLeafList st.root).map LeafR.i)

/-- Every pair of distinct overlapping leaves is cached (in one of the two
orientations).  Between reindex passes every leaf is stale, so this is the
pair-cache completeness the next pass relies on. -/
def pairCompleteB (st : TreeSt) : Bool :=
  decide (∀ X ∈ rootLeafList st.root, ∀ Y ∈ rootLeafList st.root,
    X.i ≠ Y.i → inters X.bb Y.bb = true →
    (X.i, Y.i) ∈ st.pairs ∨ (Y.i, X.i) ∈ st.pairs)

/-- Every reachable leaf is stale (its stamp predates the index's current
stamp) — true between passes, since both `insert` and `reindexQuery` end
with `incrementStamp`. -/
def stampsOkB (st : TreeSt) : Bool :=
  decide (∀ L ∈ rootLeafList st.root, L.s < st.stamp)

/-- The C3 between-passes invariant. -/
def wfStB (st : TreeSt) : Bool :=
  wfB st && stampsOkB st && pairWfB st && pairNodupB st.pairs && pairCompleteB st

/-! ### Segment queries (src/src/constraints/ratchet-joint.ts, lines 744-802) -/

/-- A ray fraction extended with the two IEEE infinities that
`nodeSegmentQuery` produces (`1/0 = Infinity` on an axis-parallel ray, and
the explicit `±Infinity` substitutions for slab edges through the ray
origin). -/
inductive XQ where
  | negInf
  | fin (q : ℚ)
  | posInf
deriving DecidableEq

/-- Ordering on extended fractions (`<=` of IEEE doubles restricted to the
values that occur: no NaN). -/
def xle : XQ → XQ → Bool
  | .negInf, _ => true
  | .fin _, .negInf => false
  | .fin p, .fin q => decide (p ≤ q)
  | .fin _, .posInf => true
  | .posInf, .posInf => true
  | .posInf, .fin _ => false
  | .posInf, .negInf => false

/-- Strict ordering (`a < b` of IEEE doubles without NaN). -/
def xlt (a b : XQ) : Bool := !xle b a

/-- `Math.min` on extended fractions. -/
def xmin (a b : XQ) : XQ := if xle a b then a else b

/-- `Math.max` on extended fractions. -/
def xmax (a b : XQ) : XQ := if xle a b then b else a

/-- Product of a finite coordinate with a possibly infinite inverse slope —
the guarded products of `nodeSegmentQuery`.  (The `c = 0` cases against an
infinity would be NaN in JavaScript; they are unreachable because the
source substitutes `±Infinity` explicitly whenever the slab edge passes
through the ray origin.) -/
def xmulFin (c : ℚ) : XQ → XQ
  | .fin q => .fin (c * q)
  | .posInf => if 0 < c then .posInf else .negInf
  | .negInf => if 0 < c then .negInf else .posInf

/-- A rational point of the query ray. -/
structure QVec where
  x : ℚ
  y : ℚ
deriving DecidableEq

/-- `nodeSegmentQuery(node, a, b)`: the parametric slab test.  Returns the
fraction along `a → b` at which the ray enters the box, clamped below by
`0`, or `posInf` when the ray misses the box within `[0, 1]`.  JavaScript's
`idx = 1/(b.x - a.x)` is `+Infinity` for an axis-parallel ray (`x - x`
is `+0`), represented by `xmulFin` against `posInf`. -/
def nsq (nb : Box) (a b : QVec) : XQ :=
  let idx : XQ := if b.x = a.x then .posInf else .fin (1 / (b.x - a.x))
  let tx1 := if nb.l = a.x then XQ.negInf else xmulFin (nb.l - a.x) idx
  let tx2 := if nb.r = a.x then XQ.posInf else xmulFin (nb.r - a.x) idx
  let txmin := xmin tx1 tx2
  let txmax := xmax tx1 tx2
  let idy : XQ := if b.y = a.y then .posInf else .fin (1 / (b.y - a.y))
  let ty1 := if nb.b = a.y then XQ.negInf else xmulFin (nb.b - a.y) idy
  let ty2 := if nb.t = a.y then XQ.posInf else xmulFin (nb.t - a.y) idy
  let tymin := xmin ty1 ty2
  let tymax := xmax ty1 ty2
  if xle tymin txmax && xle txmin tymax then
    let mn := xmax txmin tymin
    let mx := xmin txmax tymax
    if xle (.fin 0) mx && xle mn (.fin 1) then xmax mn (.fin 0) else .posInf
  else .posInf

/-- `subtreeSegmentQuery(subtree, a, b, t_exit, func)`: a leaf reports
`func(obj)`; an internal node computes the entry fraction of each child,
visits the child with the smaller fraction first, enters a child only when
its entry fraction is below the current exit bound, and tightens the bound
with `Math.min` after each visit.  Instrumented with the trace of callback
invocations (leaf id and stored box, in order). -/
def ssq (t : BTree) (a b : QVec) (te : XQ) (f : ℕ → XQ) : XQ × List (ℕ × Box) :=
  match t with
  | .leaf L => (f L.i, [(L.i, L.bb)])
  | .node _ A B =>
    let ta := nsq A.bb a b
    let tb := nsq B.bb a b
    if xlt ta tb then
      let q1 := if xlt ta te then
          let r := ssq A a b te f
          (xmin te r.1, r.2)
        else (te, [])
      let q2 := if xlt tb q1.1 then
          let r := ssq B a b q1.1 f
          (xmin q1.1 r.1, r.2)
        else (q1.1, [])
      (q2.1, q1.2 ++ q2.2)
    else
      let q1 := if xlt tb te then
          let r := ssq B a b te f
          (xmin te r.1, r.2)
        else (te, [])
      let q2 := if xlt ta q1.1 then
          let r := ssq A a b q1.1 f
          (xmin q1.1 r.1, r.2)
        else (q1.1, [])
      (q2.1, q1.2 ++ q2.2)

/-- Running minimum of the exit bound over a callback trace: the value
`t_exit` holds after the traced invocations (each `t_exit =
Math.min(t_exit, ...)` tightening). -/
def foldMin (te : XQ) (f : ℕ → XQ) (tr : List (ℕ × Box)) : XQ :=
  tr.foldl (fun acc e => xmin acc (f e.1)) te

/-- One guarded child visit of `subtreeSegmentQuery` (`if (t_child < t_exit)
t_exit = Math.min(t_exit, subtreeSegmentQuery(child, ...))`), named for the
proofs; `ssq` on a node is definitionally two such steps. -/
def ssqStep (C : BTree) (a b : QVec) (te : XQ) (f : ℕ → XQ) : XQ × List (ℕ × Box) :=
  if xlt (nsq C.bb a b) te then
    let r := ssq C a b te f
    (xmin te r.1, r.2)
  else (te, [])

/-! ### Object pooling (src/src/constraints/ratchet-joint.ts: `makeNode`,
`makePair`, `Node.recycle`, `Leaf.recycle`, `Pair.recycle`)

The free lists `pooledNodes`/`pooledPairs` thread recycled objects through
a repurposed field; the observable state is their length together with the
allocation counters `numNodes`/`numPairs` (incremented only when a fresh
object is allocated). -/

/-- Pool state: free-list lengths and allocation counters. -/
structure PoolSt where
  pooledNodes : ℕ
  pooledPairs : ℕ
  numNodes : ℕ
  numPairs : ℕ
deriving DecidableEq

/-- `BBTree.makeNode`: pop the free list when it is nonempty (no
allocation), else allocate a fresh node (`numNodes++`).  The boolean
records whether a pooled instance was reused. -/
def makeNodeP (p : PoolSt) : PoolSt × Bool :=
  if 0 < p.pooledNodes then ({ p with pooledNodes := p.pooledNodes - 1 }, true)
  else ({ p with numNodes := p.numNodes + 1 }, false)

/-- `BBTree.makePair`: pop the free list when it is nonempty, else allocate
(`numPairs++`). -/
def makePairP (p : PoolSt) : PoolSt × Bool :=
  if 0 < p.pooledPairs then ({ p with pooledPairs := p.pooledPairs - 1 }, true)
  else ({ p with numPairs := p.numPairs + 1 }, false)

/-- `Node.recycle(tree)`: thread the node onto `pooledNodes`. -/
def nodeRecycleP (p : PoolSt) : PoolSt :=
  { p with pooledNodes := p.pooledNodes + 1 }

/-- `Pair.recycle(tree)`: thread the pair onto `pooledPairs`. -/
def pairRecycleP (p : PoolSt) : PoolSt :=
  { p with pooledPairs := p.pooledPairs + 1 }

/-- `Leaf.recycle(tree)`: the source body is only the comment "Its not
worth the overhead to recycle leaves." — leaves are not pooled. -/
def leafRecycleP (p : PoolSt) : PoolSt := p

/-- `Leaf.clearPairs` seen by the pools: every pair involving the leaf is
unlinked and recycled onto `pooledPairs`. -/
def clearPairsP (p : PoolSt) (P : List (ℕ × ℕ)) (i : ℕ) : PoolSt :=
  { p with
    pooledPairs := p.pooledPairs
      + (P.filter (fun q => decide (q.1 = i) || decide (q.2 = i))).length }

/-! ### Characterisations of the marking pass (C3)

`markLeafQuery`/`markSubtree` thread the global pair list through the
in-order leaf visits; the functions below name the per-visit insertions and
emissions so the exactly-once count can be stated and proved. -/

/-- The leaves of `S` whose stored boxes overlap the walking leaf's box —
with the exact-union box invariant these are precisely the leaves
`markLeafQuery` reaches. -/
def ovLeaves (S : BTree) (Lbb : Box) : List LeafR :=
  (leafList S).filter (fun M => inters Lbb M.bb)

/-- The pairs a `markLeafQuery` descent of `S` inserts, in order: with
`left = true` the pair `(walker, reached)` for every reached leaf, with
`left = false` the pair `(reached, walker)` for the reached leaves of lower
stamp. -/
def mlqIns (S : BTree) (Li : ℕ) (Lbb : Box) (Ls : ℕ) (left : Bool) :
    List (ℕ × ℕ) :=
  if left then (ovLeaves S Lbb).map (fun M => (Li, M.i))
  else ((ovLeaves S Lbb).filter (fun M => decide (M.s < Ls))).map
    (fun M => (M.i, Li))

/-- The callback invocations of a `markLeafQuery` descent of `S`: none with
`left = true`, `func(leaf.obj, this.obj)` per reached leaf with
`left = false`. -/
def mlqEm (S : BTree) (Li : ℕ) (Lbb : Box) (Ls : ℕ) (left : Bool) :
    List (ℕ × ℕ) :=
  if left then [] else (ovLeaves S Lbb).map (fun M => (Li, M.i))

/-- Insertions of a whole ancestor walk. -/
def walkIns (Li : ℕ) (Lbb : Box) (Ls : ℕ) :
    List (BTree × Bool) → List (ℕ × ℕ)
  | [] => []
  | (S, left) :: rest => mlqIns S Li Lbb Ls left ++ walkIns Li Lbb Ls rest

/-- Emissions of a whole ancestor walk. -/
def walkEm (Li : ℕ) (Lbb : Box) (Ls : ℕ) :
    List (BTree × Bool) → List (ℕ × ℕ)
  | [] => []
  | (S, left) :: rest => mlqEm S Li Lbb Ls left ++ walkEm Li Lbb Ls rest

/-- The in-order list of the leaves of `t` paired with their ancestor
contexts (each context continuing into `ctx`): the visit order of
`markSubtree`. -/
def leafCtx : BTree → List (BTree × Bool) → List (LeafR × List (BTree × Bool))
  | .leaf L, ctx => [(L, ctx)]
  | .node _ A B, ctx => leafCtx A ((B, true) :: ctx) ++ leafCtx B ((A, false) :: ctx)

/-- Pair-list effect of one `markSubtree` leaf visit: a fresh leaf appends
its walk's insertions, a stale leaf leaves the list alone. -/
def visitP (cur : ℕ) (P : List (ℕ × ℕ)) (e : LeafR × List (BTree × Bool)) :
    List (ℕ × ℕ) :=
  if e.1.s = cur then P ++ walkIns e.1.i e.1.bb e.1.s e.2 else P

/-- Emissions of one `markSubtree` leaf visit: a fresh leaf emits its walk's
callbacks, a stale leaf serves the cached pairs in which it is `leafB`. -/
def visitE (cur : ℕ) (P : List (ℕ × ℕ)) (e : LeafR × List (BTree × Bool)) :
    List (ℕ × ℕ) :=
  if e.1.s = cur then walkEm e.1.i e.1.bb e.1.s e.2
  else (P.filter (fun p => decide (p.2 = e.1.i))).map (fun p => (p.1, e.1.i))

/-- The pair list after a sequence of visits. -/
def seqP (cur : ℕ) (P : List (ℕ × ℕ))
    (V : List (LeafR × List (BTree × Bool))) : List (ℕ × ℕ) :=
  V.foldl (visitP cur) P

/-- The emissions of a sequence of visits, the pair list threaded through. -/
def seqE (cur : ℕ) (P : List (ℕ × ℕ)) :
    List (LeafR × List (BTree × Bool)) → List (ℕ × ℕ)
  | [] => []
  | e :: rest => visitE cur P e ++ seqE cur (visitP cur P e) rest

/-- Identifier `i` names no fresh leaf of `st` (every reachable leaf with
that identifier predates the current stamp). -/
def staleIn (st : TreeSt) (i : ℕ) : Prop :=
  ∀ L ∈ rootLeafList st.root, L.i = i → L.s < st.stamp

/-- What the update loop of `reindexQuery` guarantees, step by step: stamps
and hash unchanged, the tree invariant kept, every reachable leaf either
freshly restamped with its new box or a stale original, and the pair list a
sublist of the original holding exactly the original pairs that join two
still-stale leaves. -/
def phase1Inv (st0 st1 : TreeSt) (objBB : ℕ → Box) : Prop :=
  st1.stamp = st0.stamp ∧ st1.ids = st0.ids ∧ wfB st1 = true ∧
  (∀ t, st0.root = some t → ∃ t1, st1.root = some t1) ∧
  (∀ L ∈ rootLeafList st1.root,
    (L.s = st0.stamp ∧ L.bb = objBB L.i) ∨
    (L.s < st0.stamp ∧ L ∈ rootLeafList st0.root)) ∧
  st1.pairs.Sublist st0.pairs ∧
  (∀ p ∈ st1.pairs, staleIn st1 p.1 ∧ staleIn st1 p.2) ∧
  (∀ p ∈ st0.pairs, staleIn st1 p.1 → staleIn st1 p.2 → p ∈ st1.pairs)

/-- Witness boxes for the tree claims. -/
def boxW1 : Box := ⟨0, 0, 2, 2⟩

/-- A second, overlapping witness box. -/
def boxW2 : Box := ⟨1, 1, 3, 3⟩

/-- A third witness box, away from the others. -/
def boxW3 : Box := ⟨10, 10, 11, 11⟩

/-- A two-leaf witness tree state: both leaves stale (stamp 0 against
current stamp 1) with their overlap cached as the pair `(1, 2)`. -/
def stW : TreeSt :=
  ⟨some (.node (mergeBox boxW1 boxW2) (.leaf ⟨1, boxW1, 0⟩) (.leaf ⟨2, boxW2, 0⟩)),
   [1, 2], [(1, 2)], 1⟩

/-- The empty witness tree state. -/
def stEmpty : TreeSt := ⟨none, [], [], 0⟩

/-- Witness shape boxes for the reindex pass: nothing moves. -/
def objW : ℕ → Box := fun i => if i = 1 then boxW1 else boxW2

/-! ## Theorems -/

theorem vlength_nonneg (v : RVec) : 0 ≤ vlength v := Real.sqrt_nonneg _

theorem vlength_zero : vlength ⟨0, 0⟩ = 0 := by
  simp [vlength]

theorem vlength_mul_self (v : RVec) : vlength v * vlength v = vdot v v := by
  unfold vlength vdot
  exact Real.mul_self_sqrt (add_nonneg (mul_self_nonneg _) (mul_self_nonneg _))

theorem vlength_vmult (v : RVec) (s : ℝ) : vlength (vmult v s) = |s| * vlength v := by
  unfold vlength vmult
  rw [show (v.x * s) * (v.x * s) + (v.y * s) * (v.y * s)
      = s ^ 2 * (v.x * v.x + v.y * v.y) by ring]
  rw [Real.sqrt_mul (sq_nonneg s), Real.sqrt_sq_eq_abs]

theorem vlength_pos_of_dot {v : RVec} (h : 0 < vdot v v) : 0 < vlength v := by
  rcases lt_or_eq_of_le (vlength_nonneg v) with hp | hz
  · exact hp
  · exfalso
    have hm := vlength_mul_self v
    rw [← hz, mul_zero] at hm
    linarith

theorem vlength_vclamp_le (v : RVec) (len : ℝ) (h : 0 ≤ len) :
    vlength (vclamp v len) ≤ len := by
  unfold vclamp
  split
  · next hgt =>
    have hd : 0 < vdot v v := lt_of_le_of_lt (by positivity) hgt
    have hL : 0 < vlength v := vlength_pos_of_dot hd
    unfold vnormalize
    rw [vlength_vmult, vlength_vmult, abs_of_nonneg h, abs_of_nonneg (by positivity)]
    rw [one_div, inv_mul_cancel₀ (ne_of_gt hL), mul_one]
  · next hle =>
    push_neg at hle
    have h2 : vlength v * vlength v ≤ len * len := by
      rw [vlength_mul_self]; exact hle
    nlinarith [vlength_nonneg v]

theorem ratchet_div_bound (c r m : ℚ) (hr : r ≠ 0) (h0 : 0 ≤ c)
    (h1 : c ≤ m * |r|) : |c / r| ≤ m := by
  rw [abs_div]
  rw [div_le_iff₀ (abs_pos.mpr hr)]
  rw [abs_of_nonneg h0]
  exact h1

theorem gear_jAcc_bound (s : GearSt) (h : 0 ≤ s.jMax) :
    |(gearApplyImpulse s).jAcc| ≤ s.jMax := by
  simpa [gearApplyImpulse] using abs_clamp_le _ _ h

theorem pin_jnAcc_bound (s : PinSt) (h : 0 ≤ s.jnMax) :
    |(pinApplyImpulse s).jnAcc| ≤ s.jnMax := by
  simpa [pinApplyImpulse] using abs_clamp_le _ _ h

theorem ratchet_jAcc_bound (s : RatchetSt) (h : 0 ≤ s.jMax) (hr : s.ratchet ≠ 0)
    (h0 : s.bias = 0 → s.jAcc = 0) :
    |(ratchetApplyImpulse s).jAcc| ≤ s.jMax := by
  unfold ratchetApplyImpulse
  split
  · next hb => simpa [h0 hb] using h
  · next hb =>
    refine ratchet_div_bound _ _ _ hr ?_ ?_
    · exact le_clamp _ _ _ (by positivity)
    · exact clamp_le _ _ _

theorem rotary_jAcc_bound (s : RotaryLimitSt) (h : 0 ≤ s.jMax)
    (h0 : s.bias = 0 → s.jAcc = 0) :
    |(rotaryLimitApplyImpulse s).jAcc| ≤ s.jMax := by
  unfold rotaryLimitApplyImpulse
  split
  · next hb => simpa [h0 hb] using h
  · next hb =>
    split
    · next =>
      rw [abs_le]
      constructor
      · linarith [le_clamp (s.jAcc + -(s.bias + (s.b.w - s.a.w)) * s.iSum) 0 s.jMax h]
      · exact clamp_le _ _ _
    · next =>
      rw [abs_le]
      constructor
      · exact le_clamp _ _ _ (neg_nonpos_of_nonneg h)
      · linarith [clamp_le (s.jAcc + -(s.bias + (s.b.w - s.a.w)) * s.iSum) (-s.jMax) 0]

theorem groove_jAcc_bound (s : GrooveSt) (h : 0 ≤ s.jMaxLen) :
    vlength (grooveApplyImpulse s).jAcc ≤ s.jMaxLen := by
  show vlength (grooveConstrain s _) ≤ s.jMaxLen
  unfold grooveConstrain
  exact vlength_vclamp_le _ _ h

/-- C1: For every constraint variant, after any call to `applyImpulse` the
accumulated impulse lies within `[-jMax, jMax]` (disc-bounded for the
2-vector groove joint, and `0` for limit-style variants whose bias is zero,
for which `preStep` resets the accumulator — stated here as the hypothesis
`bias = 0 → jAcc = 0` that `preStep` establishes); `jMax` is recomputed by
every `preStep(dt)` as `maxForce * dt`, which is nonnegative whenever
`maxForce ≥ 0` and `dt > 0`.  The ratchet joint additionally needs its
increment to be nonzero (`ratchet = 0` divides by zero in the source). -/
theorem c1_jAcc_bounded_after_applyImpulse :
    (∀ s : PinSt, 0 ≤ s.jnMax → |(pinApplyImpulse s).jnAcc| ≤ s.jnMax) ∧
    (∀ (bcoef : ℝ → ℝ → ℝ) (s : PinSt) (dt : ℝ),
      (pinPreStep bcoef s dt).jnMax = s.maxForce * dt ∧
      (0 ≤ s.maxForce → 0 < dt → 0 ≤ (pinPreStep bcoef s dt).jnMax)) ∧
    (∀ s : GearSt, 0 ≤ s.jMax → |(gearApplyImpulse s).jAcc| ≤ s.jMax) ∧
    (∀ (bcoef : ℚ → ℚ → ℚ) (s : GearSt) (dt : ℚ),
      (gearPreStep bcoef s dt).jMax = s.maxForce * dt ∧
      (0 ≤ s.maxForce → 0 < dt → 0 ≤ (gearPreStep bcoef s dt).jMax)) ∧
    (∀ s : RatchetSt, 0 ≤ s.jMax → s.ratchet ≠ 0 → (s.bias = 0 → s.jAcc = 0) →
      |(ratchetApplyImpulse s).jAcc| ≤ s.jMax) ∧
    (∀ (bcoef : ℚ → ℚ → ℚ) (s : RatchetSt) (dt : ℚ),
      (ratchetPreStep bcoef s dt).jMax = s.maxForce * dt ∧
      (0 ≤ s.maxForce → 0 < dt → 0 ≤ (ratchetPreStep bcoef s dt).jMax)) ∧
    (∀ s : RotaryLimitSt, 0 ≤ s.jMax → (s.bias = 0 → s.jAcc = 0) →
      |(rotaryLimitApplyImpulse s).jAcc| ≤ s.jMax) ∧
    (∀ (bcoef : ℚ → ℚ → ℚ) (s : RotaryLimitSt) (dt : ℚ),
      (rotaryLimitPreStep bcoef s dt).jMax = s.maxForce * dt ∧
      (0 ≤ s.maxForce → 0 < dt → 0 ≤ (rotaryLimitPreStep bcoef s dt).jMax)) ∧
    (∀ s : GrooveSt, 0 ≤ s.jMaxLen → vlength (grooveApplyImpulse s).jAcc ≤ s.jMaxLen) ∧
    (∀ (bcoef : ℝ → ℝ → ℝ) (s : GrooveSt) (dt : ℝ),
      (groovePreStep bcoef s dt).jMaxLen = s.maxForce * dt ∧
      (0 ≤ s.maxForce → 0 < dt → 0 ≤ (groovePreStep bcoef s dt).jMaxLen)) := by
  refine ⟨pin_jnAcc_bound, ?_, gear_jAcc_bound, ?_, ratchet_jAcc_bound, ?_,
    rotary_jAcc_bound, ?_, groove_jAcc_bound, ?_⟩ <;>
    intro bcoef s dt <;>
    exact ⟨rfl, fun hf hdt => by
      show (0:_) ≤ s.maxForce * dt
      exact mul_nonneg hf (le_of_lt hdt)⟩

/-- Witness for C1 at concrete joint states. -/
theorem c1_witness :
    ((0:ℚ) ≤ gearW.jMax ∧ |(gearApplyImpulse gearW).jAcc| ≤ gearW.jMax) ∧
    ((0:ℚ) ≤ ratchetW.jMax ∧ |(ratchetApplyImpulse ratchetW).jAcc| ≤ ratchetW.jMax) ∧
    ((0:ℚ) ≤ rotaryW.jMax ∧ |(rotaryLimitApplyImpulse rotaryW).jAcc| ≤ rotaryW.jMax) ∧
    ((0:ℝ) ≤ pinW.jnMax ∧ |(pinApplyImpulse pinW).jnAcc| ≤ pinW.jnMax) ∧
    ((0:ℝ) ≤ grooveW.jMaxLen ∧ vlength (grooveApplyImpulse grooveW).jAcc ≤ grooveW.jMaxLen) :=
  ⟨⟨by decide, c1_jAcc_bounded_after_applyImpulse.2.2.1 gearW (by decide)⟩,
   ⟨by decide, c1_jAcc_bounded_after_applyImpulse.2.2.2.2.1 ratchetW (by decide)
      (by decide) (by decide)⟩,
   ⟨by decide, c1_jAcc_bounded_after_applyImpulse.2.2.2.2.2.2.1 rotaryW (by decide)
      (by decide)⟩,
   ⟨by norm_num [pinW], c1_jAcc_bounded_after_applyImpulse.1 pinW (by norm_num [pinW])⟩,
   ⟨by norm_num [grooveW], c1_jAcc_bounded_after_applyImpulse.2.2.2.2.2.2.2.2.1 grooveW
      (by norm_num [grooveW])⟩⟩

theorem vsub_self (v : RVec) : vsub v v = ⟨0, 0⟩ := by
  simp [vsub]

theorem vmult_zero_vec (c : ℝ) : vmult ⟨0, 0⟩ c = ⟨0, 0⟩ := by
  simp [vmult]

theorem vcross_zero_right (r : RVec) : vcross r ⟨0, 0⟩ = 0 := by
  simp [vcross]

theorem k_scalar_zero_n (a b : RBody) (r1 r2 : RVec) :
    k_scalar a b r1 r2 ⟨0, 0⟩ = a.m_inv + b.m_inv := by
  simp [k_scalar, k_scalar_body, vcross_zero_right]

theorem gear_applyImpulse_char (s : GearSt) :
    (gearApplyImpulse s).jAcc
      = clamp (s.jAcc + (s.bias - (s.b.w * s.ratioVal - s.a.w)) * s.iSum)
          (-s.jMax) s.jMax ∧
    (gearApplyImpulse s).a.w
      = s.a.w - ((gearApplyImpulse s).jAcc - s.jAcc) * s.a.i_inv * s.ratio_inv ∧
    (gearApplyImpulse s).b.w
      = s.b.w + ((gearApplyImpulse s).jAcc - s.jAcc) * s.b.i_inv :=
  ⟨rfl, rfl, rfl⟩

theorem pin_applyImpulse_char (s : PinSt) :
    (pinApplyImpulse s).jnAcc
      = clamp (s.jnAcc + (s.bias - normal_relative_velocity s.a s.b s.r1 s.r2 s.n) * s.nMass)
          (-s.jnMax) s.jnMax ∧
    (pinApplyImpulse s).a
      = (apply_impulses s.a s.b s.r1 s.r2
          (s.n.x * ((pinApplyImpulse s).jnAcc - s.jnAcc))
          (s.n.y * ((pinApplyImpulse s).jnAcc - s.jnAcc))).1 ∧
    (pinApplyImpulse s).b
      = (apply_impulses s.a s.b s.r1 s.r2
          (s.n.x * ((pinApplyImpulse s).jnAcc - s.jnAcc))
          (s.n.y * ((pinApplyImpulse s).jnAcc - s.jnAcc))).2 :=
  ⟨rfl, rfl, rfl⟩

theorem groove_applyImpulse_char (s : GrooveSt) :
    (grooveApplyImpulse s).jAcc
      = grooveConstrain s
          (vadd s.jAcc (multK (vsub s.bias (relativeVelocity s.a s.b s.r1 s.r2)) s.k1 s.k2)) ∧
    (grooveApplyImpulse s).a
      = (apply_impulses s.a s.b s.r1 s.r2
          ((grooveApplyImpulse s).jAcc.x - s.jAcc.x)
          ((grooveApplyImpulse s).jAcc.y - s.jAcc.y)).1 ∧
    (grooveApplyImpulse s).b
      = (apply_impulses s.a s.b s.r1 s.r2
          ((grooveApplyImpulse s).jAcc.x - s.jAcc.x)
          ((grooveApplyImpulse s).jAcc.y - s.jAcc.y)).2 :=
  ⟨rfl, rfl, rfl⟩

theorem ratchet_applyImpulse_char (s : RatchetSt) (h : s.bias ≠ 0) :
    (ratchetApplyImpulse s).jAcc
      = clamp ((s.jAcc + -(s.bias + (s.b.w - s.a.w)) * s.iSum) * s.ratchet)
          0 (s.jMax * |s.ratchet|) / s.ratchet ∧
    (ratchetApplyImpulse s).a.w
      = s.a.w - ((ratchetApplyImpulse s).jAcc - s.jAcc) * s.a.i_inv ∧
    (ratchetApplyImpulse s).b.w
      = s.b.w + ((ratchetApplyImpulse s).jAcc - s.jAcc) * s.b.i_inv := by
  unfold ratchetApplyImpulse
  rw [if_neg h]
  exact ⟨rfl, rfl, rfl⟩

theorem rotary_applyImpulse_char (s : RotaryLimitSt) (h : s.bias ≠ 0) :
    (rotaryLimitApplyImpulse s).jAcc
      = (if s.bias < 0
          then clamp (s.jAcc + -(s.bias + (s.b.w - s.a.w)) * s.iSum) 0 s.jMax
          else clamp (s.jAcc + -(s.bias + (s.b.w - s.a.w)) * s.iSum) (-s.jMax) 0) ∧
    (rotaryLimitApplyImpulse s).a.w
      = s.a.w - ((rotaryLimitApplyImpulse s).jAcc - s.jAcc) * s.a.i_inv ∧
    (rotaryLimitApplyImpulse s).b.w
      = s.b.w + ((rotaryLimitApplyImpulse s).jAcc - s.jAcc) * s.b.i_inv := by
  unfold rotaryLimitApplyImpulse
  rw [if_neg h]
  exact ⟨rfl, rfl, rfl⟩

/-- C2 (amended): every `applyImpulse` adds an unclamped delta to the
previously accumulated impulse, clamps the new total, and applies only the
difference between new and old totals to the bodies' velocities.  For the
pin, gear and groove joints the delta is `(bias - relativeVelocity) *
effectiveMass` as the claim states; for the ratchet and rotary-limit joints
the source forms it as `-(bias + relativeVelocity) * effectiveMass` (the
bias enters with the opposite sign), clamping to the direction-dependent
one-sided range. -/
theorem c2_applyImpulse_delta_form :
    (∀ s : GearSt,
      (gearApplyImpulse s).jAcc
        = clamp (s.jAcc + (s.bias - (s.b.w * s.ratioVal - s.a.w)) * s.iSum)
            (-s.jMax) s.jMax ∧
      (gearApplyImpulse s).a.w
        = s.a.w - ((gearApplyImpulse s).jAcc - s.jAcc) * s.a.i_inv * s.ratio_inv ∧
      (gearApplyImpulse s).b.w
        = s.b.w + ((gearApplyImpulse s).jAcc - s.jAcc) * s.b.i_inv) ∧
    (∀ s : PinSt,
      (pinApplyImpulse s).jnAcc
        = clamp (s.jnAcc + (s.bias - normal_relative_velocity s.a s.b s.r1 s.r2 s.n) * s.nMass)
            (-s.jnMax) s.jnMax ∧
      (pinApplyImpulse s).a
        = (apply_impulses s.a s.b s.r1 s.r2
            (s.n.x * ((pinApplyImpulse s).jnAcc - s.jnAcc))
            (s.n.y * ((pinApplyImpulse s).jnAcc - s.jnAcc))).1 ∧
      (pinApplyImpulse s).b
        = (apply_impulses s.a s.b s.r1 s.r2
            (s.n.x * ((pinApplyImpulse s).jnAcc - s.jnAcc))
            (s.n.y * ((pinApplyImpulse s).jnAcc - s.jnAcc))).2) ∧
    (∀ s : GrooveSt,
      (grooveApplyImpulse s).jAcc
        = grooveConstrain s
            (vadd s.jAcc (multK (vsub s.bias (relativeVelocity s.a s.b s.r1 s.r2)) s.k1 s.k2)) ∧
      (grooveApplyImpulse s).a
        = (apply_impulses s.a s.b s.r1 s.r2
            ((grooveApplyImpulse s).jAcc.x - s.jAcc.x)
            ((grooveApplyImpulse s).jAcc.y - s.jAcc.y)).1 ∧
      (grooveApplyImpulse s).b
        = (apply_impulses s.a s.b s.r1 s.r2
            ((grooveApplyImpulse s).jAcc.x - s.jAcc.x)
            ((grooveApplyImpulse s).jAcc.y - s.jAcc.y)).2) ∧
    (∀ s : RatchetSt, s.bias ≠ 0 →
      (ratchetApplyImpulse s).jAcc
        = clamp ((s.jAcc + -(s.bias + (s.b.w - s.a.w)) * s.iSum) * s.ratchet)
            0 (s.jMax * |s.ratchet|) / s.ratchet ∧
      (ratchetApplyImpulse s).a.w
        = s.a.w - ((ratchetApplyImpulse s).jAcc - s.jAcc) * s.a.i_inv ∧
      (ratchetApplyImpulse s).b.w
        = s.b.w + ((ratchetApplyImpulse s).jAcc - s.jAcc) * s.b.i_inv) ∧
    (∀ s : RotaryLimitSt, s.bias ≠ 0 →
      (rotaryLimitApplyImpulse s).jAcc
        = (if s.bias < 0
            then clamp (s.jAcc + -(s.bias + (s.b.w - s.a.w)) * s.iSum) 0 s.jMax
            else clamp (s.jAcc + -(s.bias + (s.b.w - s.a.w)) * s.iSum) (-s.jMax) 0) ∧
      (rotaryLimitApplyImpulse s).a.w
        = s.a.w - ((rotaryLimitApplyImpulse s).jAcc - s.jAcc) * s.a.i_inv ∧
      (rotaryLimitApplyImpulse s).b.w
        = s.b.w + ((rotaryLimitApplyImpulse s).jAcc - s.jAcc) * s.b.i_inv) :=
  ⟨gear_applyImpulse_char, pin_applyImpulse_char, groove_applyImpulse_char,
   ratchet_applyImpulse_char, rotary_applyImpulse_char⟩

/-- Counterexample to C2 as stated: at a rotary-limit state with `bias = 1`,
`wr = 0`, `iSum = 1`, `jAcc = 0`, the source computes the new accumulated
impulse `-1`, while the claim's formula — previous total plus
`(bias - relativeVelocity) * effectiveMass`, clamped to the joint's
direction-dependent range — yields `0`. -/
theorem c2_counterexample :
    (rotaryLimitApplyImpulse rotaryW).jAcc = -1 ∧
    specC2RotaryNewTotal rotaryW = 0 ∧
    (rotaryLimitApplyImpulse rotaryW).jAcc ≠ specC2RotaryNewTotal rotaryW := by
  refine ⟨by with_unfolding_all decide, by with_unfolding_all decide,
    by with_unfolding_all decide⟩

/-- Witness for C2 at a concrete rotary-limit state with nonzero bias. -/
theorem c2_witness :
    (rotaryLimitApplyImpulse rotaryW).jAcc
      = (if rotaryW.bias < 0
          then clamp (rotaryW.jAcc + -(rotaryW.bias + (rotaryW.b.w - rotaryW.a.w)) * rotaryW.iSum)
            0 rotaryW.jMax
          else clamp (rotaryW.jAcc + -(rotaryW.bias + (rotaryW.b.w - rotaryW.a.w)) * rotaryW.iSum)
            (-rotaryW.jMax) 0) :=
  (c2_applyImpulse_delta_form.2.2.2.2 rotaryW (by decide)).1

/-- C7: For the limit-style joints (`RotaryLimitJoint` and `RatchetJoint`),
whenever `preStep(dt)` computes a bias that is exactly zero it resets the
accumulated impulse `jAcc` to zero. -/
theorem c7_zero_bias_resets_jAcc :
    (∀ (bcoef : ℚ → ℚ → ℚ) (s : RatchetSt) (dt : ℚ),
      (ratchetPreStep bcoef s dt).bias = 0 → (ratchetPreStep bcoef s dt).jAcc = 0) ∧
    (∀ (bcoef : ℚ → ℚ → ℚ) (s : RotaryLimitSt) (dt : ℚ),
      (rotaryLimitPreStep bcoef s dt).bias = 0 → (rotaryLimitPreStep bcoef s dt).jAcc = 0) := by
  constructor
  · intro bcoef s dt h
    simp only [ratchetPreStep] at h ⊢
    rw [if_pos h]
  · intro bcoef s dt h
    simp only [rotaryLimitPreStep] at h ⊢
    rw [if_pos h]

/-- Witness for C7: a rotary-limit joint strictly inside its limits and a
ratchet joint not slipping against the catch produce zero bias and a reset
accumulator. -/
theorem c7_witness :
    ((ratchetPreStep (fun _ _ => 1) { ratchetW with jAcc := 5 } 1).bias = 0 ∧
      (ratchetPreStep (fun _ _ => 1) { ratchetW with jAcc := 5 } 1).jAcc = 0) ∧
    ((rotaryLimitPreStep (fun _ _ => 1) { rotaryW with jAcc := 5 } 1).bias = 0 ∧
      (rotaryLimitPreStep (fun _ _ => 1) { rotaryW with jAcc := 5 } 1).jAcc = 0) :=
  ⟨⟨by with_unfolding_all decide,
    c7_zero_bias_resets_jAcc.1 (fun _ _ => 1) { ratchetW with jAcc := 5 } 1
      (by with_unfolding_all decide)⟩,
   ⟨by with_unfolding_all decide,
    c7_zero_bias_resets_jAcc.2 (fun _ _ => 1) { rotaryW with jAcc := 5 } 1
      (by with_unfolding_all decide)⟩⟩

theorem pinConstruct_coincident (a b : RBody) (a1 a2 : RVec) (mf mb eb : ℝ)
    (h : vadd b.p (vrotate a2 b.rot) = vadd a.p (vrotate a1 a.rot)) :
    (pinConstruct a b a1 a2 mf mb eb).2 = true ∧
    (pinConstruct a b a1 a2 mf mb eb).1.dist = 0 := by
  unfold pinConstruct
  simp only [h, vsub_self, vlength_zero]
  refine ⟨?_, trivial⟩
  rw [decide_eq_false (lt_irrefl (0:ℝ))]
  rfl

theorem pinPreStep_zero_sep (bcoef : ℝ → ℝ → ℝ) (s : PinSt) (dt : ℝ)
    (h : vadd s.b.p (vrotate s.anchr2 s.b.rot) = vadd s.a.p (vrotate s.anchr1 s.a.rot)) :
    (pinPreStep bcoef s dt).n = ⟨0, 0⟩ ∧
    (pinPreStep bcoef s dt).nMass = 1 / (s.a.m_inv + s.b.m_inv) ∧
    (pinPreStep bcoef s dt).bias
      = clamp (-(bcoef s.errorBias dt) * (0 - s.dist) / dt) (-s.maxBias) s.maxBias ∧
    (pinPreStep bcoef s dt).a = s.a ∧ (pinPreStep bcoef s dt).b = s.b := by
  unfold pinPreStep
  simp only [h, vsub_self, vlength_zero, vmult_zero_vec, k_scalar_zero_n]
  exact ⟨trivial, trivial, trivial, trivial, trivial⟩

/-- C9: Constructing a `PinJoint` whose two anchors have coincident world
positions succeeds with only a soft warning (the warning flag is set, the
joint is returned, `dist` is fixed at 0), and `preStep` on a joint whose
current separation is zero substitutes the zero-length direction vector
(`1 / (dist ? dist : Infinity)` multiplies the delta by zero), after which
`nMass`, `bias` are the well-defined values shown and the bodies are
untouched — no division by zero reaches any field. -/
theorem c9_pin_zero_length_safe :
    (∀ (a b : RBody) (a1 a2 : RVec) (mf mb eb : ℝ),
      vadd b.p (vrotate a2 b.rot) = vadd a.p (vrotate a1 a.rot) →
      (pinConstruct a b a1 a2 mf mb eb).2 = true ∧
      (pinConstruct a b a1 a2 mf mb eb).1.dist = 0) ∧
    (∀ (bcoef : ℝ → ℝ → ℝ) (s : PinSt) (dt : ℝ),
      vadd s.b.p (vrotate s.anchr2 s.b.rot) = vadd s.a.p (vrotate s.anchr1 s.a.rot) →
      (pinPreStep bcoef s dt).n = ⟨0, 0⟩ ∧
      (pinPreStep bcoef s dt).nMass = 1 / (s.a.m_inv + s.b.m_inv) ∧
      (pinPreStep bcoef s dt).bias
        = clamp (-(bcoef s.errorBias dt) * (0 - s.dist) / dt) (-s.maxBias) s.maxBias ∧
      (pinPreStep bcoef s dt).a = s.a ∧ (pinPreStep bcoef s dt).b = s.b) :=
  ⟨fun a b a1 a2 mf mb eb h => pinConstruct_coincident a b a1 a2 mf mb eb h,
   fun bcoef s dt h => pinPreStep_zero_sep bcoef s dt h⟩

/-- Witness for C9: two coincident bodies joined by a zero-length pin joint. -/
theorem c9_witness :
    (pinConstruct bodyR bodyR ⟨0, 0⟩ ⟨0, 0⟩ 1 1 1).2 = true ∧
    (pinPreStep (fun _ _ => 0) pinW 1).n = ⟨0, 0⟩ :=
  ⟨(c9_pin_zero_length_safe.1 bodyR bodyR ⟨0, 0⟩ ⟨0, 0⟩ 1 1 1 rfl).1,
   (c9_pin_zero_length_safe.2 (fun _ _ => 0) pinW 1 rfl).1⟩

/-- C10: For `RatchetJoint` and `RotaryLimitJoint`, when the bias left by
`preStep` is zero, `applyImpulse` is a complete no-op: the whole state —
both bodies included — is returned unchanged. -/
theorem c10_zero_bias_noop :
    (∀ s : RatchetSt, s.bias = 0 → ratchetApplyImpulse s = s) ∧
    (∀ s : RotaryLimitSt, s.bias = 0 → rotaryLimitApplyImpulse s = s) := by
  constructor
  · intro s h
    unfold ratchetApplyImpulse
    rw [if_pos h]
  · intro s h
    unfold rotaryLimitApplyImpulse
    rw [if_pos h]

/-- Witness for C10 at concrete zero-bias joint states. -/
theorem c10_witness :
    ratchetApplyImpulse ratchetW0 = ratchetW0 ∧
    rotaryLimitApplyImpulse rotaryW0 = rotaryW0 :=
  ⟨c10_zero_bias_noop.1 ratchetW0 (by decide),
   c10_zero_bias_noop.2 rotaryW0 (by decide)⟩

/-! ### C8: object pooling -/

/-- Counterexample to C8 as stated: destroying (recycling) a `Leaf` does not
thread it onto any free list — `Leaf.recycle` is a deliberate no-op, so at
the empty pool state nothing is pooled afterwards. -/
theorem c8_counterexample :
    leafRecycleP ⟨0, 0, 0, 0⟩ = ⟨0, 0, 0, 0⟩ ∧
    ¬ 0 < (leafRecycleP ⟨0, 0, 0, 0⟩).pooledNodes + (leafRecycleP ⟨0, 0, 0, 0⟩).pooledPairs := by
  exact ⟨rfl, by decide⟩

/-- C8 (amended): recycled `Node`s and `Pair`s are threaded onto the owning
tree's free lists (`pooledNodes`/`pooledPairs`) — including one pair per
record cleared by `Leaf.clearPairs` — and `makeNode`/`makePair` reuse a
pooled instance whenever one is available, allocating a fresh one (and
bumping the allocation counter) only when the free list is empty.  `Leaf`s
are the exception: `Leaf.recycle` is a no-op and leaves are never pooled. -/
theorem c8_pooling :
    (∀ p : PoolSt, nodeRecycleP p = { p with pooledNodes := p.pooledNodes + 1 }) ∧
    (∀ p : PoolSt, pairRecycleP p = { p with pooledPairs := p.pooledPairs + 1 }) ∧
    (∀ p : PoolSt, leafRecycleP p = p) ∧
    (∀ p : PoolSt, 0 < p.pooledNodes →
      makeNodeP p = ({ p with pooledNodes := p.pooledNodes - 1 }, true)) ∧
    (∀ p : PoolSt, p.pooledNodes = 0 →
      makeNodeP p = ({ p with numNodes := p.numNodes + 1 }, false)) ∧
    (∀ p : PoolSt, 0 < p.pooledPairs →
      makePairP p = ({ p with pooledPairs := p.pooledPairs - 1 }, true)) ∧
    (∀ p : PoolSt, p.pooledPairs = 0 →
      makePairP p = ({ p with numPairs := p.numPairs + 1 }, false)) ∧
    (∀ (p : PoolSt) (P : List (ℕ × ℕ)) (i : ℕ),
      clearPairsP p P i = { p with pooledPairs := p.pooledPairs
        + (P.filter (fun q => decide (q.1 = i) || decide (q.2 = i))).length }) := by
  refine ⟨fun p => rfl, fun p => rfl, fun p => rfl, ?_, ?_, ?_, ?_, fun p P i => rfl⟩
  · intro p h
    simp only [makeNodeP, if_pos h]
  · intro p h
    simp only [makeNodeP, h, lt_irrefl, if_false]
  · intro p h
    simp only [makePairP, if_pos h]
  · intro p h
    simp only [makePairP, h, lt_irrefl, if_false]

/-- Witness for C8: a pool with one free node is consumed without
allocating; an empty pair pool allocates. -/
theorem c8_witness :
    makeNodeP ⟨1, 0, 5, 7⟩ = (⟨0, 0, 5, 7⟩, true) ∧
    makePairP ⟨1, 0, 5, 7⟩ = (⟨1, 0, 5, 8⟩, false) :=
  ⟨c8_pooling.2.2.2.1 ⟨1, 0, 5, 7⟩ (by decide),
   c8_pooling.2.2.2.2.2.2.1 ⟨1, 0, 5, 7⟩ (by decide)⟩

/-! ### Box and tree lemmas -/

theorem Box.ext_iff' {x y : Box} :
    x = y ↔ x.l = y.l ∧ x.b = y.b ∧ x.r = y.r ∧ x.t = y.t := by
  cases x; cases y; simp

theorem mergeBox_comm (x y : Box) : mergeBox x y = mergeBox y x := by
  simp [mergeBox, Box.ext_iff', min_comm, max_comm]

theorem mergeBox_assoc (x y z : Box) :
    mergeBox (mergeBox x y) z = mergeBox x (mergeBox y z) := by
  simp only [mergeBox, Box.ext_iff']
  exact ⟨min_assoc _ _ _, min_assoc _ _ _, max_assoc _ _ _, max_assoc _ _ _⟩

theorem mergeBox_right_comm (x y z : Box) :
    mergeBox (mergeBox x y) z = mergeBox (mergeBox x z) y := by
  have hmin : ∀ a b c : ℚ, min (min a b) c = min (min a c) b := fun a b c =>
    min_right_comm a b c
  have hmax : ∀ a b c : ℚ, max (max a b) c = max (max a c) b := fun a b c => by
    rw [max_assoc, max_comm b c, ← max_assoc]
  simp only [mergeBox, Box.ext_iff']
  exact ⟨hmin _ _ _, hmin _ _ _, hmax _ _ _, hmax _ _ _⟩

theorem insT_leaf (L0 L : LeafR) :
    insT (.leaf L0) L = .node (mergeBox L.bb L0.bb) (.leaf L) (.leaf L0) := rfl

theorem insT_node (bb : Box) (A B : BTree) (L : LeafR) :
    insT (.node bb A B) L =
      if descendB A B L then .node (mergeBox bb L.bb) A (insT B L)
      else .node (mergeBox bb L.bb) (insT A L) B := rfl

theorem insT_bb (t : BTree) (L : LeafR) : (insT t L).bb = mergeBox t.bb L.bb := by
  cases t with
  | leaf L0 =>
    rw [insT_leaf]
    exact mergeBox_comm _ _
  | node bb A B =>
    rw [insT_node]
    cases descendB A B L <;> simp [BTree.bb]

theorem bbOkB_node_iff {bb : Box} {A B : BTree} :
    bbOkB (.node bb A B) = true ↔
      bb = mergeBox A.bb B.bb ∧ bbOkB A = true ∧ bbOkB B = true := by
  simp [bbOkB, Bool.and_assoc]

theorem bbOkB_insT {t : BTree} (L : LeafR) (h : bbOkB t = true) :
    bbOkB (insT t L) = true := by
  induction t with
  | leaf L0 => simp [insT_leaf, bbOkB, BTree.bb]
  | node bb A B ihA ihB =>
    rw [bbOkB_node_iff] at h
    obtain ⟨hbb, hA, hB⟩ := h
    rw [insT_node]
    cases hd : descendB A B L with
    | true =>
      simp only [if_true]
      rw [bbOkB_node_iff]
      refine ⟨?_, hA, ihB hB⟩
      rw [insT_bb, hbb, mergeBox_assoc]
    | false =>
      simp only [Bool.false_eq_true, if_false]
      rw [bbOkB_node_iff]
      refine ⟨?_, ihA hA, hB⟩
      rw [insT_bb, hbb, mergeBox_right_comm]

theorem remT_none_iff {t : BTree} {i : ℕ} :
    remT t i = none ↔ ∃ L, t = .leaf L ∧ L.i = i := by
  cases t with
  | leaf L0 =>
    simp only [remT]
    split
    · next h => simp [h]
    · next h => simp [h]
  | node bb A B =>
    constructor
    · intro h
      simp only [remT] at h
      split at h
      · cases hr : remT A i <;> rw [hr] at h <;> cases h
      · split at h
        · cases hr : remT B i <;> rw [hr] at h <;> cases h
        · cases h
    · rintro ⟨L, hL, -⟩
      exact absurd hL (by simp)

theorem remT_not_hasId {t : BTree} {i : ℕ} (h : hasId t i = false) :
    remT t i = some t := by
  induction t with
  | leaf L0 =>
    simp only [hasId, decide_eq_false_iff_not] at h
    simp [remT, h]
  | node bb A B ihA ihB =>
    simp only [hasId, Bool.or_eq_false_iff] at h
    simp [remT, h.1, h.2]

theorem bbOkB_remT {t : BTree} {i : ℕ} {t' : BTree} (ht : bbOkB t = true)
    (h : remT t i = some t') : bbOkB t' = true := by
  induction t generalizing t' with
  | leaf L0 =>
    simp only [remT] at h
    split at h
    · cases h
    · cases h; exact ht
  | node bb A B ihA ihB =>
    rw [bbOkB_node_iff] at ht
    obtain ⟨hbb, hA, hB⟩ := ht
    simp only [remT] at h
    split at h
    · cases hr : remT A i with
      | none => rw [hr] at h; cases h; exact hB
      | some A' =>
        rw [hr] at h; cases h
        rw [bbOkB_node_iff]
        exact ⟨rfl, ihA hA hr, hB⟩
    · split at h
      · cases hr : remT B i with
        | none => rw [hr] at h; cases h; exact hA
        | some B' =>
          rw [hr] at h; cases h
          rw [bbOkB_node_iff]
          exact ⟨rfl, hA, ihB hB hr⟩
      · cases h
        rw [bbOkB_node_iff]
        exact ⟨hbb, hA, hB⟩

theorem leafList_node (bb : Box) (A B : BTree) :
    leafList (.node bb A B) = leafList A ++ leafList B := rfl

theorem leafList_insT (t : BTree) (L : LeafR) :
    (leafList (insT t L)).Perm (L :: leafList t) := by
  induction t with
  | leaf L0 => simp [insT_leaf, leafList]
  | node bb A B ihA ihB =>
    rw [insT_node]
    cases descendB A B L with
    | true =>
      simp only [if_true, leafList_node]
      exact (List.Perm.append_left (leafList A) ihB).trans List.perm_middle
    | false =>
      simp only [Bool.false_eq_true, if_false, leafList_node]
      exact List.Perm.append_right (leafList B) ihA

theorem hasId_iff_mem {t : BTree} {i : ℕ} : hasId t i = true ↔ i ∈ leafIds t := by
  induction t with
  | leaf L0 => simp [hasId, leafIds, leafList, eq_comm]
  | node bb A B ihA ihB =>
    simp only [hasId, Bool.or_eq_true, ihA, ihB, leafIds, leafList, List.map_append,
      List.mem_append]

theorem remT_perm {t : BTree} {i : ℕ} {t' : BTree} (h : remT t i = some t')
    (hh : hasId t i = true) :
    ∃ L0 : LeafR, L0.i = i ∧ (leafList t).Perm (L0 :: leafList t') := by
  induction t generalizing t' with
  | leaf L0 =>
    simp only [hasId, decide_eq_true_eq] at hh
    simp [remT, hh] at h
  | node bb A B ihA ihB =>
    simp only [remT] at h
    split at h
    · next hA =>
      cases hr : remT A i with
      | none =>
        rw [hr] at h; cases h
        rw [remT_none_iff] at hr
        obtain ⟨L0, rfl, hL0⟩ := hr
        exact ⟨L0, hL0, by simp [leafList]⟩
      | some A' =>
        rw [hr] at h; cases h
        obtain ⟨L0, hL0, hp⟩ := ihA hr hA
        refine ⟨L0, hL0, ?_⟩
        rw [leafList_node, leafList_node]
        exact List.Perm.append_right (leafList B) hp
    · next hA =>
      split at h
      · next hB =>
        cases hr : remT B i with
        | none =>
          rw [hr] at h; cases h
          rw [remT_none_iff] at hr
          obtain ⟨L0, rfl, hL0⟩ := hr
          refine ⟨L0, hL0, ?_⟩
          rw [leafList_node]
          exact List.perm_middle.trans (by simp)
        | some B' =>
          rw [hr] at h; cases h
          obtain ⟨L0, hL0, hp⟩ := ihB hr hB
          refine ⟨L0, hL0, ?_⟩
          rw [leafList_node, leafList_node]
          exact (List.Perm.append_left (leafList A) hp).trans List.perm_middle
      · next hB =>
        simp only [hasId, hA, hB, Bool.or_self] at hh
        cases hh

theorem hasId_insT_self (t : BTree) (L : LeafR) : hasId (insT t L) L.i = true := by
  induction t with
  | leaf L0 => simp [insT_leaf, hasId]
  | node bb A B ihA ihB =>
    rw [insT_node]
    cases descendB A B L with
    | true => simp [hasId, ihB]
    | false => simp [hasId, ihA]

/-- The C5 core: removing a freshly inserted leaf restores the tree exactly
(the box invariant makes `replaceChild`'s recomputed unions coincide with
the original boxes). -/
theorem remT_insT {t : BTree} {L : LeafR} (hbb : bbOkB t = true)
    (hfresh : hasId t L.i = false) : remT (insT t L) L.i = some t := by
  induction t with
  | leaf L0 =>
    simp only [hasId, decide_eq_false_iff_not] at hfresh
    simp [insT_leaf, remT, hasId, hfresh]
  | node bb A B ihA ihB =>
    rw [bbOkB_node_iff] at hbb
    obtain ⟨hbbe, hA, hB⟩ := hbb
    simp only [hasId, Bool.or_eq_false_iff] at hfresh
    obtain ⟨hfA, hfB⟩ := hfresh
    rw [insT_node]
    cases descendB A B L with
    | true =>
      simp only [if_true, remT, hfA, Bool.false_eq_true, if_false,
        hasId_insT_self, if_true, ihB hB hfB]
      rw [← hbbe]
    | false =>
      simp only [Bool.false_eq_true, if_false, remT, hasId_insT_self, if_true,
        ihA hA hfA]
      rw [← hbbe]

theorem posOk_iff {st : TreeSt} :
    posOkB st = true ↔
      ((rootLeafList st.root).map LeafR.i).Nodup ∧ st.ids.Nodup ∧
        (∀ i, i ∈ st.ids ↔ i ∈ (rootLeafList st.root).map LeafR.i) := by
  simp only [posOkB, Bool.and_eq_true, decide_eq_true_eq]
  constructor
  · rintro ⟨⟨⟨h1, h2⟩, h3⟩, h4⟩
    exact ⟨h1, h2, fun i => ⟨fun h => h3 i h, fun h => h4 i h⟩⟩
  · rintro ⟨h1, h2, h3⟩
    exact ⟨⟨⟨h1, h2⟩, fun i hi => (h3 i).1 hi⟩, fun i hi => (h3 i).2 hi⟩

theorem wfB_iff {st : TreeSt} :
    wfB st = true ↔ rootBbOk st.root = true ∧ posOkB st = true := by
  simp [wfB]

theorem findLeaf_sound {t : BTree} {i : ℕ} {L : LeafR}
    (h : findLeaf t i = some L) : L.i = i ∧ L ∈ leafList t := by
  induction t with
  | leaf L0 =>
    simp only [findLeaf] at h
    split at h
    · next he => cases h; exact ⟨he, by simp [leafList]⟩
    · cases h
  | node bb A B ihA ihB =>
    simp only [findLeaf] at h
    cases hA : findLeaf A i with
    | some L' =>
      rw [hA] at h; cases h
      obtain ⟨h1, h2⟩ := ihA hA
      exact ⟨h1, by simp [leafList, h2]⟩
    | none =>
      rw [hA] at h
      obtain ⟨h1, h2⟩ := ihB h
      exact ⟨h1, by simp [leafList, h2]⟩

theorem wfB_treeInsert {st : TreeSt} {i : ℕ} {bb : Box} (h : wfB st = true)
    (hfresh : i ∉ st.ids) : wfB (treeInsert st i bb) = true := by
  rw [wfB_iff] at h ⊢
  obtain ⟨hbb, hpos⟩ := h
  rw [posOk_iff] at hpos
  obtain ⟨hnd, hids, hmem⟩ := hpos
  have hfresh' : i ∉ (rootLeafList st.root).map LeafR.i :=
    fun hc => hfresh ((hmem i).2 hc)
  have hperm : (rootLeafList (treeInsert st i bb).root).Perm
      (⟨i, bb, st.stamp⟩ :: rootLeafList st.root) := by
    cases hr : st.root with
    | none => simp [treeInsert, hr, rootLeafList, leafList]
    | some t =>
      simpa [treeInsert, hr, rootLeafList] using leafList_insT t ⟨i, bb, st.stamp⟩
  have hmap := hperm.map LeafR.i
  constructor
  · cases hr : st.root with
    | none => simp [treeInsert, hr, rootBbOk, bbOkB]
    | some t =>
      rw [hr] at hbb
      have : bbOkB t = true := by simpa [rootBbOk] using hbb
      simpa [treeInsert, hr, rootBbOk] using bbOkB_insT ⟨i, bb, st.stamp⟩ this
  · rw [posOk_iff]
    refine ⟨?_, ?_, ?_⟩
    · exact hmap.nodup_iff.mpr (List.nodup_cons.mpr ⟨hfresh', hnd⟩)
    · have hcons : (i :: st.ids).Nodup := List.nodup_cons.mpr ⟨hfresh, hids⟩
      have : (treeInsert st i bb).ids = st.ids ++ [i] := rfl
      rw [this]
      exact (List.perm_append_singleton i st.ids).nodup_iff.mpr hcons
    · intro j
      have hl : (treeInsert st i bb).ids = st.ids ++ [i] := rfl
      rw [hl, List.mem_append, List.mem_singleton, hmap.mem_iff, List.map_cons,
        List.mem_cons]
      rw [hmem j]
      tauto

theorem wfB_treeRemove {st : TreeSt} {i : ℕ} (h : wfB st = true) :
    wfB (treeRemove st i) = true := by
  rw [wfB_iff] at h ⊢
  obtain ⟨hbb, hpos⟩ := h
  rw [posOk_iff] at hpos
  obtain ⟨hnd, hids, hmem⟩ := hpos
  have hidseq : (treeRemove st i).ids = st.ids.erase i := rfl
  by_cases hin : i ∈ st.ids
  case neg =>
    have hroot' : (treeRemove st i).root = st.root := by
      cases hr : st.root with
      | none => simp [treeRemove, hr]
      | some t =>
        have hno : hasId t i = false := by
          rw [← Bool.not_eq_true, hasId_iff_mem]
          intro hc
          exact hin ((hmem i).2 (by simpa [rootLeafList, hr, leafIds] using hc))
        simp [treeRemove, hr, remT_not_hasId hno]
    rw [hroot', posOk_iff, hidseq, List.erase_of_not_mem hin]
    exact ⟨hbb, hroot' ▸ ⟨hnd, hids, hmem⟩⟩
  case pos =>
    have hmemL : i ∈ (rootLeafList st.root).map LeafR.i := (hmem i).1 hin
    cases hr : st.root with
    | none =>
      rw [hr] at hmemL
      simp [rootLeafList] at hmemL
    | some t =>
      rw [hr] at hmemL hbb hnd hmem
      simp only [rootLeafList] at hmemL hnd hmem
      have hbbt : bbOkB t = true := by simpa [rootBbOk] using hbb
      have hhas : hasId t i = true := hasId_iff_mem.mpr hmemL
      cases hrem : remT t i with
      | none =>
        obtain ⟨L0, ht, hL0⟩ := remT_none_iff.mp hrem
        have hroot' : (treeRemove st i).root = none := by
          simp [treeRemove, hr, hrem]
        rw [hroot', posOk_iff, hroot', hidseq]
        refine ⟨rfl, by simp [rootLeafList], List.Nodup.erase i hids, ?_⟩
        intro j
        rw [List.Nodup.mem_erase_iff hids]
        simp only [rootLeafList, List.map_nil, List.not_mem_nil, iff_false]
        rintro ⟨hne, hj⟩
        have hji := (hmem j).1 hj
        rw [ht] at hji
        simp [leafList, hL0] at hji
        exact hne hji
      | some t' =>
        obtain ⟨L0, hL0, hperm⟩ := remT_perm hrem hhas
        have hmap := hperm.map LeafR.i
        rw [List.map_cons, hL0] at hmap
        have hndc : (i :: (leafList t').map LeafR.i).Nodup := hmap.nodup_iff.mp hnd
        obtain ⟨hnotin', hnd'⟩ := List.nodup_cons.mp hndc
        have hroot' : (treeRemove st i).root = some t' := by
          simp [treeRemove, hr, hrem]
        rw [hroot', posOk_iff, hroot', hidseq]
        refine ⟨by simpa [rootBbOk] using bbOkB_remT hbbt hrem, ?_, List.Nodup.erase i hids, ?_⟩
        · simpa [rootLeafList] using hnd'
        · intro j
          rw [List.Nodup.mem_erase_iff hids, hmem j, hmap.mem_iff, List.mem_cons]
          simp only [rootLeafList]
          constructor
          · rintro ⟨hne, hj | hj⟩
            · exact absurd hj hne
            · exact hj
          · intro hj
            refine ⟨?_, Or.inr hj⟩
            rintro rfl
            exact hnotin' hj

theorem wfB_updateLeaf {st : TreeSt} {objBB : ℕ → Box} {i : ℕ} (h : wfB st = true) :
    wfB (updateLeaf st objBB i) = true := by
  cases hr : st.root with
  | none => simpa [updateLeaf, hr] using h
  | some t =>
    cases hf : findLeaf t i with
    | none => simpa [updateLeaf, hr, hf] using h
    | some L =>
      by_cases hcont : containsObjB L.bb (objBB i) = true
      · simpa [updateLeaf, hr, hf, hcont] using h
      · obtain ⟨hLi, hLmem⟩ := findLeaf_sound hf
        rw [wfB_iff] at h ⊢
        obtain ⟨hbb, hpos⟩ := h
        rw [posOk_iff] at hpos
        obtain ⟨hnd, hids, hmem⟩ := hpos
        rw [hr] at hbb hnd hmem
        simp only [rootLeafList] at hnd hmem
        have hbbt : bbOkB t = true := by simpa [rootBbOk] using hbb
        have hhas : hasId t i = true := hasId_iff_mem.mpr (by
          rw [← hLi]
          exact List.mem_map_of_mem LeafR.i hLmem)
        have hroot' : (updateLeaf st objBB i).root = some (match remT t i with
            | none => BTree.leaf ⟨i, objBB i, st.stamp⟩
            | some t1 => insT t1 ⟨i, objBB i, st.stamp⟩) := by
          simp [updateLeaf, hr, hf, hcont]
        have hids' : (updateLeaf st objBB i).ids = st.ids := by
          simp [updateLeaf, hr, hf, hcont]
        cases hrem : remT t i with
        | none =>
          obtain ⟨L0, ht, hL0⟩ := remT_none_iff.mp hrem
          rw [hroot', hrem]
          refine ⟨by simp [rootBbOk, bbOkB], ?_⟩
          rw [posOk_iff, hroot', hrem, hids']
          refine ⟨by simp [rootLeafList, leafList], hids, ?_⟩
          intro j
          rw [hmem j, ht]
          simp [rootLeafList, leafList, hL0]
        | some t1 =>
          obtain ⟨L0, hL0, hperm⟩ := remT_perm hrem hhas
          have hb1 : bbOkB t1 = true := bbOkB_remT hbbt hrem
          have hbi : bbOkB (insT t1 ⟨i, objBB i, st.stamp⟩) = true :=
            bbOkB_insT _ hb1
          have hpi := leafList_insT t1 (⟨i, objBB i, st.stamp⟩ : LeafR)
          have hmap_old := hperm.map LeafR.i
          rw [List.map_cons, hL0] at hmap_old
          have hmap_new := hpi.map LeafR.i
          rw [List.map_cons] at hmap_new
          rw [hroot', hrem]
          refine ⟨by simpa [rootBbOk] using hbi, ?_⟩
          rw [posOk_iff, hroot', hrem, hids']
          refine ⟨?_, hids, ?_⟩
          · simp only [rootLeafList]
            exact hmap_new.nodup_iff.mpr (hmap_old.nodup_iff.mp hnd)
          · intro j
            rw [hmem j, hmap_old.mem_iff]
            simp only [rootLeafList]
            rw [hmap_new.mem_iff]

/-- C4: after `insert` (of a fresh shape), `remove`, or a leaf
`update`/reindex completes, every internal node's bounding box equals the
exact componentwise union of its children's boxes (`wfB`'s `rootBbOk`
component), and every identifier recorded in the `leaves` hash is reachable
from the root at exactly one tree position (`wfB`'s `posOkB` component; the
final conjunct makes the count explicit). -/
theorem c4_tree_invariants :
    (∀ (st : TreeSt) (i : ℕ) (bb : Box), wfB st = true → i ∉ st.ids →
      wfB (treeInsert st i bb) = true) ∧
    (∀ (st : TreeSt) (i : ℕ), wfB st = true → wfB (treeRemove st i) = true) ∧
    (∀ (st : TreeSt) (objBB : ℕ → Box) (i : ℕ), wfB st = true →
      wfB (updateLeaf st objBB i) = true) ∧
    (∀ st : TreeSt, wfB st = true → ∀ i ∈ st.ids,
      ((rootLeafList st.root).map LeafR.i).count i = 1) := by
  refine ⟨fun st i bb h hf => wfB_treeInsert h hf,
    fun st i h => wfB_treeRemove h,
    fun st objBB i h => wfB_updateLeaf h, ?_⟩
  intro st h i hi
  rw [wfB_iff] at h
  obtain ⟨-, hpos⟩ := h
  rw [posOk_iff] at hpos
  obtain ⟨hnd, -, hmem⟩ := hpos
  exact List.count_eq_one_of_mem hnd ((hmem i).1 hi)

/-- Witness for C4 at a concrete two-leaf tree. -/
theorem c4_witness :
    wfB (treeInsert stW 3 boxW3) = true ∧
    wfB (treeRemove stW 2) = true ∧
    ((rootLeafList stW.root).map LeafR.i).count 1 = 1 :=
  ⟨c4_tree_invariants.1 stW 3 boxW3 (by with_unfolding_all decide) (by decide),
   c4_tree_invariants.2.1 stW 2 (by with_unfolding_all decide),
   c4_tree_invariants.2.2.2 stW (by with_unfolding_all decide) 1 (by decide)⟩

/-- C5: inserting a fresh shape and then removing it leaves
`contains(shape)` false, restores the root (structure and boxes) exactly,
and therefore leaves the query results over any box — for every other
previously inserted shape — unchanged. -/
theorem c5_insert_remove_roundtrip :
    ∀ (st : TreeSt) (i : ℕ) (bb : Box), wfB st = true → i ∉ st.ids →
      treeContains (treeRemove (treeInsert st i bb) i) i = false ∧
      (treeRemove (treeInsert st i bb) i).root = st.root ∧
      (∀ q : Box, rootQuery (treeRemove (treeInsert st i bb) i) q = rootQuery st q) := by
  intro st i bb hwf hfresh
  rw [wfB_iff] at hwf
  obtain ⟨hbb, hpos⟩ := hwf
  rw [posOk_iff] at hpos
  obtain ⟨hnd, hids, hmem⟩ := hpos
  have hroot : (treeRemove (treeInsert st i bb) i).root = st.root := by
    cases hr : st.root with
    | none => simp [treeInsert, treeRemove, hr, remT]
    | some t =>
      have hfr : hasId t i = false := by
        rw [← Bool.not_eq_true, hasId_iff_mem]
        intro hc
        exact hfresh ((hmem i).2 (by simpa [rootLeafList, hr, leafIds] using hc))
      have hbbt : bbOkB t = true := by simpa [rootBbOk, hr] using hbb
      simp [treeInsert, treeRemove, hr, @remT_insT t ⟨i, bb, st.stamp⟩ hbbt hfr]
  have hidseq : (treeRemove (treeInsert st i bb) i).ids = st.ids := by
    show ((st.ids ++ [i]).erase i) = st.ids
    rw [List.erase_append_right _ hfresh]
    simp
  refine ⟨?_, hroot, fun q => by simp [rootQuery, hroot]⟩
  simp only [treeContains, hidseq]
  rw [Bool.eq_false_iff]
  intro hc
  exact hfresh (by simpa using hc)

/-- Witness for C5: inserting shape 3 into the two-leaf tree and removing
it again. -/
theorem c5_witness :
    treeContains (treeRemove (treeInsert stW 3 boxW3) 3) 3 = false ∧
    (treeRemove (treeInsert stW 3 boxW3) 3).root = stW.root :=
  ⟨(c5_insert_remove_roundtrip stW 3 boxW3 (by with_unfolding_all decide) (by decide)).1,
   (c5_insert_remove_roundtrip stW 3 boxW3 (by with_unfolding_all decide) (by decide)).2.1⟩

/-! ### C6: segment query lemmas -/

theorem xle_refl (a : XQ) : xle a a = true := by
  cases a <;> simp [xle]

theorem xle_total (a b : XQ) : xle a b = true ∨ xle b a = true := by
  cases a <;> cases b <;> simp [xle] <;> exact le_total _ _

theorem xle_trans {a b c : XQ} (h1 : xle a b = true) (h2 : xle b c = true) :
    xle a c = true := by
  cases a <;> cases b <;> cases c <;> simp [xle] at * <;> exact le_trans h1 h2

theorem xle_antisymm {a b : XQ} (h1 : xle a b = true) (h2 : xle b a = true) :
    a = b := by
  cases a <;> cases b <;> simp [xle] at * <;> exact le_antisymm h1 h2

theorem xlt_eq_not_xle (a b : XQ) : xlt a b = !xle b a := rfl

theorem xle_of_xlt {a b : XQ} (h : xlt a b = true) : xle a b = true := by
  have hba : xle b a = false := by simpa [xlt_eq_not_xle] using h
  rcases xle_total a b with h' | h'
  · exact h'
  · rw [h'] at hba; cases hba

theorem xmin_le_left (a b : XQ) : xle (xmin a b) a = true := by
  unfold xmin
  split
  · exact xle_refl a
  · next h =>
    rcases xle_total a b with h1 | h1
    · exact absurd h1 (by simpa using h)
    · exact h1

theorem xmin_eq_right {a b : XQ} (h : xle b a = true) : xmin a b = b := by
  unfold xmin
  split
  · next h' => exact xle_antisymm h' h
  · rfl

theorem foldMin_nil (te : XQ) (f : ℕ → XQ) : foldMin te f [] = te := rfl

theorem foldMin_cons (te : XQ) (f : ℕ → XQ) (e : ℕ × Box) (l : List (ℕ × Box)) :
    foldMin te f (e :: l) = foldMin (xmin te (f e.1)) f l := rfl

theorem foldMin_append (te : XQ) (f : ℕ → XQ) (l1 l2 : List (ℕ × Box)) :
    foldMin te f (l1 ++ l2) = foldMin (foldMin te f l1) f l2 := by
  simp [foldMin, List.foldl_append]

theorem foldMin_le (f : ℕ → XQ) :
    ∀ (l : List (ℕ × Box)) (te : XQ), xle (foldMin te f l) te = true := by
  intro l
  induction l with
  | nil => intro te; exact xle_refl te
  | cons e l ih =>
    intro te
    rw [foldMin_cons]
    exact xle_trans (ih (xmin te (f e.1))) (xmin_le_left te (f e.1))

theorem ssq_node_eq (bb0 : Box) (A B : BTree) (a b : QVec) (te : XQ) (f : ℕ → XQ) :
    ssq (.node bb0 A B) a b te f =
      if xlt (nsq A.bb a b) (nsq B.bb a b) then
        let q1 := ssqStep A a b te f
        let q2 := ssqStep B a b q1.1 f
        (q2.1, q1.2 ++ q2.2)
      else
        let q1 := ssqStep B a b te f
        let q2 := ssqStep A a b q1.1 f
        (q2.1, q1.2 ++ q2.2) := rfl

theorem ssqStep_le (C : BTree) (a b : QVec) (te : XQ) (f : ℕ → XQ) :
    xle (ssqStep C a b te f).1 te = true := by
  unfold ssqStep
  split
  · exact xmin_le_left te (ssq C a b te f).1
  · exact xle_refl te

theorem ssq_fold (a b : QVec) (f : ℕ → XQ) :
    ∀ (t : BTree) (te : XQ),
      xmin te (ssq t a b te f).1 = foldMin te f (ssq t a b te f).2 := by
  intro t
  induction t with
  | leaf L => intro te; rfl
  | node bb0 A B ihA ihB =>
    intro te
    have step : ∀ (C : BTree),
        (∀ te', xmin te' (ssq C a b te' f).1 = foldMin te' f (ssq C a b te' f).2) →
        ∀ te', (ssqStep C a b te' f).1 = foldMin te' f (ssqStep C a b te' f).2 := by
      intro C ih te'
      unfold ssqStep
      split
      · exact ih te'
      · rfl
    rw [ssq_node_eq]
    by_cases hor : xlt (nsq A.bb a b) (nsq B.bb a b) = true
    · simp only [hor, if_true]
      have h1 := step A ihA te
      have h2 := step B ihB (ssqStep A a b te f).1
      rw [foldMin_append, ← h1, ← h2]
      have hle : xle (ssqStep B a b (ssqStep A a b te f).1 f).1 te = true :=
        xle_trans (ssqStep_le B a b _ f) (ssqStep_le A a b te f)
      exact xmin_eq_right hle
    · simp only [hor, Bool.false_eq_true, if_false]
      have h1 := step B ihB te
      have h2 := step A ihA (ssqStep B a b te f).1
      rw [foldMin_append, ← h1, ← h2]
      have hle : xle (ssqStep A a b (ssqStep B a b te f).1 f).1 te = true :=
        xle_trans (ssqStep_le A a b _ f) (ssqStep_le B a b te f)
      exact xmin_eq_right hle

theorem leafIds_node (bb0 : Box) (A B : BTree) :
    leafIds (.node bb0 A B) = leafIds A ++ leafIds B := by
  simp [leafIds, leafList]

theorem ssq_trace_subset (a b : QVec) (f : ℕ → XQ) :
    ∀ (t : BTree) (te : XQ), ∀ e ∈ (ssq t a b te f).2, e.1 ∈ leafIds t := by
  intro t
  induction t with
  | leaf L =>
    intro te e he
    simp only [ssq, List.mem_singleton] at he
    simp [he, leafIds, leafList]
  | node bb0 A B ihA ihB =>
    have step : ∀ (C : BTree) (te' : XQ),
        (∀ te'' : XQ, ∀ e' ∈ (ssq C a b te'' f).2, e'.1 ∈ leafIds C) →
        ∀ e' ∈ (ssqStep C a b te' f).2, e'.1 ∈ leafIds C := by
      intro C te' ih e' he'
      unfold ssqStep at he'
      split at he'
      · exact ih te' e' he'
      · cases he'
    intro te e he
    rw [ssq_node_eq] at he
    rw [leafIds_node, List.mem_append]
    by_cases hor : xlt (nsq A.bb a b) (nsq B.bb a b) = true
    · simp only [hor, if_true, List.mem_append] at he
      rcases he with he | he
      · exact Or.inl (step A te ihA e he)
      · exact Or.inr (step B _ ihB e he)
    · simp only [hor, Bool.false_eq_true, if_false, List.mem_append] at he
      rcases he with he | he
      · exact Or.inr (step B te ihB e he)
      · exact Or.inl (step A _ ihA e he)

theorem ssq_prune_aux (a b : QVec) (f : ℕ → XQ) :
    ∀ (t : BTree) (te : XQ) (u : List (ℕ × Box)) (e : ℕ × Box) (v : List (ℕ × Box)),
      (∀ L : LeafR, t = .leaf L → xlt (nsq L.bb a b) te = true) →
      (ssq t a b te f).2 = u ++ e :: v →
      xlt (nsq e.2 a b) (foldMin te f u) = true := by
  intro t
  induction t with
  | leaf L =>
    intro te u e v hL htr
    have hg := hL L rfl
    simp only [ssq] at htr
    cases u with
    | nil =>
      simp only [List.nil_append] at htr
      cases htr
      simpa [foldMin_nil] using hg
    | cons x xs =>
      exfalso
      have hlen := congrArg List.length htr
      simp only [List.length_cons, List.length_append, List.length_nil] at hlen
      omega
  | node bb0 A B ihA ihB =>
    have step : ∀ (C : BTree) (te' : XQ) (u' : List (ℕ × Box)) e' v',
        (∀ (te'' : XQ) (u'' : List (ℕ × Box)) (e'' : ℕ × Box) v'',
          (∀ L : LeafR, C = .leaf L → xlt (nsq L.bb a b) te'' = true) →
          (ssq C a b te'' f).2 = u'' ++ e'' :: v'' →
          xlt (nsq e''.2 a b) (foldMin te'' f u'') = true) →
        (ssqStep C a b te' f).2 = u' ++ e' :: v' →
        xlt (nsq e'.2 a b) (foldMin te' f u') = true := by
      intro C te' u' e' v' ih htr
      unfold ssqStep at htr
      split at htr
      · next g =>
        refine ih te' u' e' v' (fun L hL => ?_) htr
        rw [hL] at g
        exact g
      · exfalso
        have hlen := congrArg List.length htr
        simp only [List.length_cons, List.length_append, List.length_nil] at hlen
        omega
    intro te u e v _ htr
    rw [ssq_node_eq] at htr
    by_cases hor : xlt (nsq A.bb a b) (nsq B.bb a b) = true
    · simp only [hor, if_true] at htr
      have hq1fold : (ssqStep A a b te f).1 = foldMin te f (ssqStep A a b te f).2 := by
        unfold ssqStep
        split
        · exact ssq_fold a b f A te
        · rfl
      rcases List.append_eq_append_iff.mp htr with ⟨a', hu, h2⟩ | ⟨c', h1, h2⟩
      · subst hu
        rw [foldMin_append, ← hq1fold]
        exact step B _ a' e v ihB h2
      · cases c' with
        | nil =>
          simp only [List.append_nil] at h1
          simp only [List.nil_append] at h2
          rw [← h1, ← hq1fold]
          exact step B _ [] e v ihB h2.symm
        | cons e0 c'' =>
          rw [List.cons_append, List.cons.injEq] at h2
          rw [h2.1]
          exact step A te u e0 c'' ihA h1
    · simp only [hor, Bool.false_eq_true, if_false] at htr
      have hq1fold : (ssqStep B a b te f).1 = foldMin te f (ssqStep B a b te f).2 := by
        unfold ssqStep
        split
        · exact ssq_fold a b f B te
        · rfl
      rcases List.append_eq_append_iff.mp htr with ⟨a', hu, h2⟩ | ⟨c', h1, h2⟩
      · subst hu
        rw [foldMin_append, ← hq1fold]
        exact step A _ a' e v ihA h2
      · cases c' with
        | nil =>
          simp only [List.append_nil] at h1
          simp only [List.nil_append] at h2
          rw [← h1, ← hq1fold]
          exact step A _ [] e v ihA h2.symm
        | cons e0 c'' =>
          rw [List.cons_append, List.cons.injEq] at h2
          rw [h2.1]
          exact step B te u e0 c'' ihB h1

/-- C6: `subtreeSegmentQuery` on an internal node computes the slab entry
fraction of each child (`nodeSegmentQuery`), visits the child with the
strictly smaller entry fraction first (ties visit B first), and tightens the
running exit bound with `Math.min` of the callback results, so the final
bound is the fold of `min` over all callback results starting from the
incoming `t_exit` — a nearer hit is reported over a farther one.  Pruning:
whenever the callback fires for a shape, that shape's subtree was entered
because its slab entry fraction was strictly below the exit bound already
accumulated from the earlier callbacks of the pass.  (A root that is a
single leaf receives the callback unconditionally — see the
counterexample — so the pruning guarantee is stated for node roots.) -/
theorem c6_segment_query_pruning (bb0 : Box) (A B : BTree) (a b : QVec)
    (te : XQ) (f : ℕ → XQ) :
    ((ssq (.node bb0 A B) a b te f).2 =
      if xlt (nsq A.bb a b) (nsq B.bb a b) then
        (ssqStep A a b te f).2 ++ (ssqStep B a b (ssqStep A a b te f).1 f).2
      else
        (ssqStep B a b te f).2 ++ (ssqStep A a b (ssqStep B a b te f).1 f).2)
    ∧ xmin te (ssq (.node bb0 A B) a b te f).1
        = foldMin te f (ssq (.node bb0 A B) a b te f).2
    ∧ (∀ (u : List (ℕ × Box)) (e : ℕ × Box) (v : List (ℕ × Box)),
        (ssq (.node bb0 A B) a b te f).2 = u ++ e :: v →
        xlt (nsq e.2 a b) (foldMin te f u) = true) := by
  refine ⟨?_, ssq_fold a b f (.node bb0 A B) te, ?_⟩
  · by_cases hor : xlt (nsq A.bb a b) (nsq B.bb a b) = true <;>
      simp only [ssq_node_eq, hor, Bool.false_eq_true, if_true, if_false]
  · intro u e v h
    exact ssq_prune_aux a b f (.node bb0 A B) te u e v (fun L hL => by cases hL) h

/-- C6 counterexample: when the root of the subtree passed to
`subtreeSegmentQuery` is a single leaf, the callback is invoked
unconditionally — here the ray from (2,0) to (3,0) points away from the box
[0,1]×[0,1], its slab entry fraction is +∞ (not below the exit bound 1), yet
the leaf's callback still fires. -/
theorem c6_counterexample :
    xlt (nsq (Box.mk 0 0 1 1) ⟨2, 0⟩ ⟨3, 0⟩) (XQ.fin 1) = false ∧
    (ssq (.leaf ⟨7, Box.mk 0 0 1 1, 0⟩) ⟨2, 0⟩ ⟨3, 0⟩ (XQ.fin 1)
        (fun _ => XQ.fin 1)).2 = [(7, Box.mk 0 0 1 1)] := by
  refine ⟨?_, rfl⟩
  with_unfolding_all decide

/-! ### Box containment, overlap monotonicity (groundwork for C3) -/

theorem containsObjB_iff {big small : Box} :
    containsObjB big small = true ↔
      big.l ≤ small.l ∧ small.r ≤ big.r ∧ big.b ≤ small.b ∧ small.t ≤ big.t := by
  simp [containsObjB, ge_iff_le, and_assoc]

theorem containsObjB_refl (x : Box) : containsObjB x x = true := by
  simp [containsObjB_iff]

theorem containsObjB_mergeBox_left (x y : Box) :
    containsObjB (mergeBox x y) x = true := by
  simp [containsObjB_iff, mergeBox, min_le_left, le_max_left]

theorem containsObjB_mergeBox_right (x y : Box) :
    containsObjB (mergeBox x y) y = true := by
  simp [containsObjB_iff, mergeBox, min_le_right, le_max_right]

theorem containsObjB_trans {x y z : Box} (h1 : containsObjB x y = true)
    (h2 : containsObjB y z = true) : containsObjB x z = true := by
  rw [containsObjB_iff] at h1 h2 ⊢
  obtain ⟨a1, a2, a3, a4⟩ := h1
  obtain ⟨b1, b2, b3, b4⟩ := h2
  exact ⟨a1.trans b1, b2.trans a2, a3.trans b3, b4.trans a4⟩

theorem inters_iff {x y : Box} :
    inters x y = true ↔ x.l ≤ y.r ∧ y.l ≤ x.r ∧ x.b ≤ y.t ∧ y.b ≤ x.t := by
  simp [inters, and_assoc]

theorem inters_true_comm {x y : Box} (h : inters x y = true) :
    inters y x = true := by
  rw [inters_iff] at h ⊢
  exact ⟨h.2.1, h.1, h.2.2.2, h.2.2.1⟩

theorem inters_comm (x y : Box) : inters x y = inters y x := by
  cases h1 : inters x y with
  | true => exact (inters_true_comm h1).symm
  | false =>
    cases h2 : inters y x with
    | false => rfl
    | true => rw [inters_true_comm h2] at h1; cases h1

theorem inters_mono {q big small : Box} (hc : containsObjB big small = true)
    (h : inters q small = true) : inters q big = true := by
  rw [containsObjB_iff] at hc
  rw [inters_iff] at h ⊢
  obtain ⟨c1, c2, c3, c4⟩ := hc
  obtain ⟨h1, h2, h3, h4⟩ := h
  exact ⟨h1.trans c2, c1.trans h2, h3.trans c4, c3.trans h4⟩

/-- With the exact-union invariant, every leaf's stored box is contained in
its subtree's box. -/
theorem bbOk_contains {t : BTree} (hbb : bbOkB t = true) {M : LeafR}
    (hM : M ∈ leafList t) : containsObjB t.bb M.bb = true := by
  induction t with
  | leaf L =>
    simp only [leafList, List.mem_singleton] at hM
    subst hM
    exact containsObjB_refl _
  | node bb A B ihA ihB =>
    rw [bbOkB_node_iff] at hbb
    obtain ⟨hbbe, hA, hB⟩ := hbb
    rw [leafList_node, List.mem_append] at hM
    have hbbv : (BTree.node bb A B).bb = mergeBox A.bb B.bb := hbbe
    rw [hbbv]
    rcases hM with hM | hM
    · exact containsObjB_trans (containsObjB_mergeBox_left A.bb B.bb) (ihA hA hM)
    · exact containsObjB_trans (containsObjB_mergeBox_right A.bb B.bb) (ihB hB hM)

/-! ### `markLeafQuery` characterisation -/

theorem ovLeaves_node {bb : Box} {A B : BTree} (Lbb : Box) :
    ovLeaves (.node bb A B) Lbb = ovLeaves A Lbb ++ ovLeaves B Lbb := by
  simp [ovLeaves, leafList, List.filter_append]

theorem ovLeaves_nil_of_no_inters {S : BTree} {Lbb : Box}
    (hbb : bbOkB S = true) (h : inters Lbb S.bb = false) :
    ovLeaves S Lbb = [] := by
  rw [ovLeaves, List.filter_eq_nil]
  intro M hM hc
  rw [inters_mono (bbOk_contains hbb hM) hc] at h
  cases h

theorem mlqIns_node {bb : Box} {A B : BTree} (Li : ℕ) (Lbb : Box) (Ls : ℕ)
    (left : Bool) :
    mlqIns (.node bb A B) Li Lbb Ls left =
      mlqIns A Li Lbb Ls left ++ mlqIns B Li Lbb Ls left := by
  cases left <;> simp [mlqIns, ovLeaves_node, List.filter_append]

theorem mlqEm_node {bb : Box} {A B : BTree} (Li : ℕ) (Lbb : Box) (Ls : ℕ)
    (left : Bool) :
    mlqEm (.node bb A B) Li Lbb Ls left =
      mlqEm A Li Lbb Ls left ++ mlqEm B Li Lbb Ls left := by
  cases left <;> simp [mlqEm, ovLeaves_node]

/-- `markLeafQuery` in closed form: under the box invariant the pruned
descent reaches exactly the overlapping leaves, appends `mlqIns` to the
global pair list and emits `mlqEm`. -/
theorem mlq_char (Li : ℕ) (Lbb : Box) (Ls : ℕ) (left : Bool) :
    ∀ S : BTree, bbOkB S = true → ∀ P : List (ℕ × ℕ),
      mlq S Li Lbb Ls left P =
        (P ++ mlqIns S Li Lbb Ls left, mlqEm S Li Lbb Ls left) := by
  intro S
  induction S with
  | leaf M =>
    intro _ P
    cases hov : inters Lbb M.bb with
    | false =>
      cases left <;> simp [mlq, mlqIns, mlqEm, ovLeaves, leafList, hov]
    | true =>
      cases left with
      | true => simp [mlq, mlqIns, mlqEm, ovLeaves, leafList, hov]
      | false =>
        by_cases hs : M.s < Ls <;>
          simp [mlq, mlqIns, mlqEm, ovLeaves, leafList, hov, hs]
  | node bb A B ihA ihB =>
    intro hbb P
    have hbb' := hbb
    rw [bbOkB_node_iff] at hbb'
    obtain ⟨hbbe, hA, hB⟩ := hbb'
    cases hov : inters Lbb bb with
    | false =>
      have hnil : ovLeaves (.node bb A B) Lbb = [] :=
        ovLeaves_nil_of_no_inters hbb hov
      cases left <;> simp [mlq, mlqIns, mlqEm, hnil, hov]
    | true =>
      simp only [mlq, hov, if_true]
      rw [ihA hA P, ihB hB (P ++ mlqIns A Li Lbb Ls left)]
      rw [mlqIns_node, mlqEm_node, List.append_assoc]

/-! ### Ancestor-walk and `markSubtree` characterisations -/

theorem walkIns_cons (Li : ℕ) (Lbb : Box) (Ls : ℕ) (S : BTree) (left : Bool)
    (rest : List (BTree × Bool)) :
    walkIns Li Lbb Ls ((S, left) :: rest) =
      mlqIns S Li Lbb Ls left ++ walkIns Li Lbb Ls rest := rfl

theorem walkEm_cons (Li : ℕ) (Lbb : Box) (Ls : ℕ) (S : BTree) (left : Bool)
    (rest : List (BTree × Bool)) :
    walkEm Li Lbb Ls ((S, left) :: rest) =
      mlqEm S Li Lbb Ls left ++ walkEm Li Lbb Ls rest := rfl

theorem walkIns_append (Li : ℕ) (Lbb : Box) (Ls : ℕ) :
    ∀ c1 c2 : List (BTree × Bool),
      walkIns Li Lbb Ls (c1 ++ c2) = walkIns Li Lbb Ls c1 ++ walkIns Li Lbb Ls c2 := by
  intro c1
  induction c1 with
  | nil => intro c2; simp [walkIns]
  | cons e rest ih =>
    intro c2
    obtain ⟨S, left⟩ := e
    simp [walkIns_cons, ih, List.append_assoc]

theorem walkEm_append (Li : ℕ) (Lbb : Box) (Ls : ℕ) :
    ∀ c1 c2 : List (BTree × Bool),
      walkEm Li Lbb Ls (c1 ++ c2) = walkEm Li Lbb Ls c1 ++ walkEm Li Lbb Ls c2 := by
  intro c1
  induction c1 with
  | nil => intro c2; simp [walkEm]
  | cons e rest ih =>
    intro c2
    obtain ⟨S, left⟩ := e
    simp [walkEm_cons, ih, List.append_assoc]

/-- The ancestor loop of `markSubtree` in closed form. -/
theorem leafWalk_char (Li : ℕ) (Lbb : Box) (Ls : ℕ) :
    ∀ ctx : List (BTree × Bool), (∀ e ∈ ctx, bbOkB e.1 = true) →
      ∀ P : List (ℕ × ℕ),
        leafWalk Li Lbb Ls ctx P =
          (P ++ walkIns Li Lbb Ls ctx, walkEm Li Lbb Ls ctx) := by
  intro ctx
  induction ctx with
  | nil => intro _ P; simp [leafWalk, walkIns, walkEm]
  | cons e rest ih =>
    intro h P
    obtain ⟨S, left⟩ := e
    have hS : bbOkB S = true := h (S, left) (List.mem_cons_self _ _)
    simp only [leafWalk]
    rw [mlq_char Li Lbb Ls left S hS P,
      ih (fun e he => h e (List.mem_cons_of_mem _ he)) _]
    simp [walkIns_cons, walkEm_cons, List.append_assoc]

theorem seqP_nil (cur : ℕ) (P : List (ℕ × ℕ)) : seqP cur P [] = P := rfl

theorem seqP_cons (cur : ℕ) (P : List (ℕ × ℕ)) (e : LeafR × List (BTree × Bool))
    (V : List (LeafR × List (BTree × Bool))) :
    seqP cur P (e :: V) = seqP cur (visitP cur P e) V := rfl

theorem seqP_append (cur : ℕ) (P : List (ℕ × ℕ))
    (V1 V2 : List (LeafR × List (BTree × Bool))) :
    seqP cur P (V1 ++ V2) = seqP cur (seqP cur P V1) V2 := by
  simp [seqP, List.foldl_append]

theorem seqE_append (cur : ℕ) :
    ∀ (V1 : List (LeafR × List (BTree × Bool))) (P : List (ℕ × ℕ))
      (V2 : List (LeafR × List (BTree × Bool))),
      seqE cur P (V1 ++ V2) = seqE cur P V1 ++ seqE cur (seqP cur P V1) V2 := by
  intro V1
  induction V1 with
  | nil => intro P V2; simp [seqE, seqP_nil]
  | cons e rest ih =>
    intro P V2
    simp only [List.cons_append, seqE, seqP_cons, List.append_eq]
    rw [ih (visitP cur P e) V2, List.append_assoc]

/-- The in-order leaves of `leafCtx` are exactly the subtree's leaves. -/
theorem leafCtx_fst (t : BTree) :
    ∀ ctx : List (BTree × Bool), (leafCtx t ctx).map Prod.fst = leafList t := by
  induction t with
  | leaf L => intro ctx; simp [leafCtx, leafList]
  | node bb A B ihA ihB =>
    intro ctx
    simp [leafCtx, leafList, ihA, ihB]

/-- `markSubtree` in closed form: the pair list and the emissions of the
in-order sequence of leaf visits, each fresh leaf contributing its ancestor
walk and each stale leaf serving its cached pairs. -/
theorem markSub_char :
    ∀ t : BTree, bbOkB t = true →
      ∀ ctx : List (BTree × Bool), (∀ e ∈ ctx, bbOkB e.1 = true) →
        ∀ (P : List (ℕ × ℕ)) (cur : ℕ),
          markSub t ctx P cur =
            (seqP cur P (leafCtx t ctx), seqE cur P (leafCtx t ctx)) := by
  intro t
  induction t with
  | leaf L =>
    intro _ ctx hctx P cur
    by_cases hs : L.s = cur
    · simp only [markSub, if_pos hs, leafCtx]
      rw [leafWalk_char L.i L.bb L.s ctx hctx P]
      simp [seqP, seqE, visitP, visitE, hs]
    · simp [markSub, hs, leafCtx, seqP, seqE, visitP, visitE]
  | node bb A B ihA ihB =>
    intro hbb ctx hctx P cur
    rw [bbOkB_node_iff] at hbb
    obtain ⟨hbbe, hA, hB⟩ := hbb
    have hctxA : ∀ e ∈ (B, true) :: ctx, bbOkB e.1 = true := by
      intro e he
      rcases List.mem_cons.mp he with rfl | he
      · exact hB
      · exact hctx e he
    have hctxB : ∀ e ∈ (A, false) :: ctx, bbOkB e.1 = true := by
      intro e he
      rcases List.mem_cons.mp he with rfl | he
      · exact hA
      · exact hctx e he
    simp only [markSub]
    rw [ihA hA ((B, true) :: ctx) hctxA P cur]
    rw [ihB hB ((A, false) :: ctx) hctxB (seqP cur P (leafCtx A ((B, true) :: ctx))) cur]
    show (_, _) = (seqP cur P (leafCtx (.node bb A B) ctx), seqE cur P (leafCtx (.node bb A B) ctx))
    rw [show leafCtx (.node bb A B) ctx =
      leafCtx A ((B, true) :: ctx) ++ leafCtx B ((A, false) :: ctx) from rfl]
    rw [seqP_append, seqE_append]

/-! ### Counting occurrences of one unordered pair -/

theorem unordEq_iff {p q : ℕ × ℕ} :
    unordEq p q = true ↔ p = q ∨ (p.1 = q.2 ∧ p.2 = q.1) := by
  simp [unordEq]

theorem unordEq_refl (p : ℕ × ℕ) : unordEq p p = true := by
  simp [unordEq_iff]

theorem unordEq_pair_iff {p : ℕ × ℕ} {x y : ℕ} :
    unordEq p (x, y) = true ↔ p = (x, y) ∨ p = (y, x) := by
  rw [unordEq_iff]
  constructor
  · rintro (h | h)
    · exact Or.inl h
    · exact Or.inr (Prod.ext_iff.mpr ⟨h.1, h.2⟩)
  · rintro (h | h)
    · exact Or.inl h
    · subst h
      exact Or.inr ⟨rfl, rfl⟩

theorem countP_unord {x y : ℕ} (hxy : x ≠ y) :
    ∀ l : List (ℕ × ℕ), l.countP (fun p => unordEq p (x, y)) =
      l.count (x, y) + l.count (y, x) := by
  intro l
  induction l with
  | nil => rfl
  | cons a t ih =>
    rw [List.count_eq_countP, List.count_eq_countP] at ih ⊢
    rw [List.countP_cons, List.countP_cons, List.countP_cons, ih]
    have hsplit : (if unordEq a (x, y) then 1 else 0) =
        (if a == (x, y) then 1 else 0) + (if a == (y, x) then (1 : ℕ) else 0) := by
      by_cases h1 : a = (x, y)
      · have h2 : a ≠ (y, x) := by
          rw [h1]
          intro hc
          exact hxy (congrArg Prod.fst hc)
        subst h1
        simp [unordEq_refl, h2, hxy]
      · by_cases h2 : a = (y, x)
        · subst h2
          simp [h1, hxy, unordEq]
        · have hu : unordEq a (x, y) = false := by
            rw [← Bool.not_eq_true]
            intro hc
            rcases unordEq_pair_iff.mp hc with hc | hc
            · exact h1 hc
            · exact h2 hc
          simp [h1, h2, hu]
    rw [hsplit]
    ring

theorem mem_mlqIns {S : BTree} {Li : ℕ} {Lbb : Box} {Ls : ℕ} {left : Bool}
    {p : ℕ × ℕ} (h : p ∈ mlqIns S Li Lbb Ls left) :
    (p.1 = Li ∧ p.2 ∈ leafIds S) ∨ (p.2 = Li ∧ p.1 ∈ leafIds S) := by
  cases left with
  | true =>
    simp only [mlqIns, if_true] at h
    obtain ⟨M, hM, rfl⟩ := List.mem_map.mp h
    exact Or.inl ⟨rfl, List.mem_map_of_mem LeafR.i (List.mem_filter.mp hM).1⟩
  | false =>
    simp only [mlqIns, Bool.false_eq_true, if_false] at h
    obtain ⟨M, hM, rfl⟩ := List.mem_map.mp h
    have hM1 := (List.mem_filter.mp hM).1
    exact Or.inr ⟨rfl, List.mem_map_of_mem LeafR.i (List.mem_filter.mp hM1).1⟩

theorem mem_mlqEm {S : BTree} {Li : ℕ} {Lbb : Box} {Ls : ℕ} {left : Bool}
    {p : ℕ × ℕ} (h : p ∈ mlqEm S Li Lbb Ls left) :
    p.1 = Li ∧ p.2 ∈ leafIds S := by
  cases left with
  | true => simp [mlqEm] at h
  | false =>
    simp only [mlqEm, Bool.false_eq_true, if_false] at h
    obtain ⟨M, hM, rfl⟩ := List.mem_map.mp h
    exact ⟨rfl, List.mem_map_of_mem LeafR.i (List.mem_filter.mp hM).1⟩

theorem mem_walkIns {Li : ℕ} {Lbb : Box} {Ls : ℕ} :
    ∀ {c : List (BTree × Bool)} {p : ℕ × ℕ}, p ∈ walkIns Li Lbb Ls c →
      (p.1 = Li ∧ ∃ e ∈ c, p.2 ∈ leafIds e.1) ∨
      (p.2 = Li ∧ ∃ e ∈ c, p.1 ∈ leafIds e.1) := by
  intro c
  induction c with
  | nil => intro p h; simp [walkIns] at h
  | cons e rest ih =>
    intro p h
    obtain ⟨S, left⟩ := e
    rw [walkIns_cons, List.mem_append] at h
    rcases h with h | h
    · rcases mem_mlqIns h with ⟨h1, h2⟩ | ⟨h1, h2⟩
      · exact Or.inl ⟨h1, (S, left), List.mem_cons_self _ _, h2⟩
      · exact Or.inr ⟨h1, (S, left), List.mem_cons_self _ _, h2⟩
    · rcases ih h with ⟨h1, e', he', h2⟩ | ⟨h1, e', he', h2⟩
      · exact Or.inl ⟨h1, e', List.mem_cons_of_mem _ he', h2⟩
      · exact Or.inr ⟨h1, e', List.mem_cons_of_mem _ he', h2⟩

theorem mem_walkEm {Li : ℕ} {Lbb : Box} {Ls : ℕ} :
    ∀ {c : List (BTree × Bool)} {p : ℕ × ℕ}, p ∈ walkEm Li Lbb Ls c →
      p.1 = Li ∧ ∃ e ∈ c, p.2 ∈ leafIds e.1 := by
  intro c
  induction c with
  | nil => intro p h; simp [walkEm] at h
  | cons e rest ih =>
    intro p h
    obtain ⟨S, left⟩ := e
    rw [walkEm_cons, List.mem_append] at h
    rcases h with h | h
    · obtain ⟨h1, h2⟩ := mem_mlqEm h
      exact ⟨h1, (S, left), List.mem_cons_self _ _, h2⟩
    · obtain ⟨h1, e', he', h2⟩ := ih h
      exact ⟨h1, e', List.mem_cons_of_mem _ he', h2⟩

theorem walkIns_count_notmine {Li : ℕ} {Lbb : Box} {Ls : ℕ}
    {c : List (BTree × Bool)} {x y : ℕ} (hx : Li ≠ x) (hy : Li ≠ y) :
    (walkIns Li Lbb Ls c).count (x, y) = 0 := by
  rw [List.count_eq_zero]
  intro hc
  rcases mem_walkIns hc with ⟨h1, -⟩ | ⟨h2, -⟩
  · exact hx h1.symm
  · exact hy h2.symm

theorem walkEm_countP_notmine {Li : ℕ} {Lbb : Box} {Ls : ℕ}
    {c : List (BTree × Bool)} {x y : ℕ} (hx : Li ≠ x) (hy : Li ≠ y) :
    (walkEm Li Lbb Ls c).countP (fun p => unordEq p (x, y)) = 0 := by
  rw [List.countP_eq_zero]
  intro p hp hrel
  obtain ⟨h1, -⟩ := mem_walkEm hp
  rcases unordEq_pair_iff.mp hrel with rfl | rfl
  · exact hx h1.symm
  · exact hy h1.symm

theorem walkIns_count_nopartner {w j : ℕ} (hne : w ≠ j) (Lbb : Box) (Ls : ℕ)
    {c : List (BTree × Bool)} (hc : ∀ e ∈ c, j ∉ leafIds e.1) :
    (walkIns w Lbb Ls c).count (w, j) = 0 ∧
    (walkIns w Lbb Ls c).count (j, w) = 0 := by
  constructor <;> rw [List.count_eq_zero] <;> intro hm
  · rcases mem_walkIns hm with ⟨-, e, he, h2⟩ | ⟨h2, -⟩
    · exact hc e he h2
    · exact Ne.symm hne h2
  · rcases mem_walkIns hm with ⟨h1, -⟩ | ⟨-, e, he, h2⟩
    · exact Ne.symm hne h1
    · exact hc e he h2

theorem walkEm_count_nopartner {w j : ℕ} (hne : w ≠ j) (Lbb : Box) (Ls : ℕ)
    {c : List (BTree × Bool)} (hc : ∀ e ∈ c, j ∉ leafIds e.1) :
    (walkEm w Lbb Ls c).count (w, j) = 0 ∧
    (walkEm w Lbb Ls c).count (j, w) = 0 := by
  constructor <;> rw [List.count_eq_zero] <;> intro hm
  · obtain ⟨-, e, he, h2⟩ := mem_walkEm hm
    exact hc e he h2
  · obtain ⟨h1, -⟩ := mem_walkEm hm
    exact Ne.symm hne h1

theorem ov_count_partner {S' : BTree} {Lbb : Box} {Y : LeafR}
    (hY : Y ∈ leafList S') (hnd : (leafIds S').Nodup)
    (hov : inters Lbb Y.bb = true) :
    ((ovLeaves S' Lbb).map LeafR.i).count Y.i = 1 := by
  have hnd' : ((leafList S').map LeafR.i).Nodup := hnd
  rw [List.count_eq_countP, List.countP_map, ovLeaves, List.countP_filter]
  have hcong : ∀ M ∈ leafList S',
      (((fun n => n == Y.i) ∘ LeafR.i) M && inters Lbb M.bb) = true ↔
        ((fun n => n == Y.i) ∘ LeafR.i) M = true := by
    intro M hM
    constructor
    · intro h
      simp only [Bool.and_eq_true] at h
      exact h.1
    · intro h
      have hMY : M = Y :=
        List.inj_on_of_nodup_map hnd' hM hY (by simpa using h)
      subst hMY
      simp [h, hov]
  rw [List.countP_congr hcong, ← List.countP_map, ← List.count_eq_countP]
  exact List.count_eq_one_of_mem hnd' (List.mem_map_of_mem LeafR.i hY)

theorem ov_stamp_count_partner {S' : BTree} {Lbb : Box} {Y : LeafR} {Ls : ℕ}
    (hY : Y ∈ leafList S') (hnd : (leafIds S').Nodup)
    (hov : inters Lbb Y.bb = true) :
    (((ovLeaves S' Lbb).filter (fun M => decide (M.s < Ls))).map LeafR.i).count Y.i
      = if Y.s < Ls then 1 else 0 := by
  have hnd' : ((leafList S').map LeafR.i).Nodup := hnd
  by_cases hs : Y.s < Ls
  · rw [if_pos hs, List.count_eq_countP, List.countP_map, List.countP_filter,
      ovLeaves, List.countP_filter]
    have hcong : ∀ M ∈ leafList S',
        ((((fun n => n == Y.i) ∘ LeafR.i) M && decide (M.s < Ls)) &&
          inters Lbb M.bb) = true ↔
          ((fun n => n == Y.i) ∘ LeafR.i) M = true := by
      intro M hM
      constructor
      · intro h
        simp only [Bool.and_eq_true] at h
        exact h.1.1
      · intro h
        have hMY : M = Y :=
          List.inj_on_of_nodup_map hnd' hM hY (by simpa using h)
        subst hMY
        simp [h, hov, hs]
    rw [List.countP_congr hcong, ← List.countP_map, ← List.count_eq_countP]
    exact List.count_eq_one_of_mem hnd' (List.mem_map_of_mem LeafR.i hY)
  · rw [if_neg hs, List.count_eq_zero]
    intro hm
    obtain ⟨M, hM, hMi⟩ := List.mem_map.mp hm
    obtain ⟨hMov, hMs⟩ := List.mem_filter.mp hM
    have hMY : M = Y :=
      List.inj_on_of_nodup_map hnd' (List.mem_filter.mp hMov).1 hY hMi
    subst hMY
    exact hs (by simpa using hMs)

theorem count_pair_mk_left (w j : ℕ) (l : List ℕ) :
    (l.map (fun m => (w, m))).count (w, j) = l.count j := by
  rw [List.count_eq_countP, List.countP_map, List.count_eq_countP]
  refine List.countP_congr ?_
  intro m _
  constructor
  · intro h
    have : (w, m) = (w, j) := by simpa using h
    simpa using (Prod.ext_iff.mp this).2
  · intro h
    have : m = j := by simpa using h
    simp [this]

theorem count_pair_mk_left_ne {w x y : ℕ} (hx : x ≠ w) (l : List ℕ) :
    (l.map (fun m => (w, m))).count (x, y) = 0 := by
  rw [List.count_eq_zero]
  intro hm
  obtain ⟨m, -, hme⟩ := List.mem_map.mp hm
  exact hx (congrArg Prod.fst hme).symm

theorem count_pair_mk_right (w j : ℕ) (l : List ℕ) :
    (l.map (fun m => (m, w))).count (j, w) = l.count j := by
  rw [List.count_eq_countP, List.countP_map, List.count_eq_countP]
  refine List.countP_congr ?_
  intro m _
  constructor
  · intro h
    have : (m, w) = (j, w) := by simpa using h
    simpa using (Prod.ext_iff.mp this).1
  · intro h
    have : m = j := by simpa using h
    simp [this]

theorem count_pair_mk_right_ne {w x y : ℕ} (hy : y ≠ w) (l : List ℕ) :
    (l.map (fun m => (m, w))).count (x, y) = 0 := by
  rw [List.count_eq_zero]
  intro hm
  obtain ⟨m, -, hme⟩ := List.mem_map.mp hm
  exact hy (congrArg Prod.snd hme).symm

/-- Walk counts of a fresh walker `w` whose partner `j` sits in the `B`
child of the joining ancestor (`left = true` there): the pair `(w, j)` is
inserted exactly once and nothing about the pair is emitted. -/
theorem walk_counts_join_true {w j : ℕ} (hne : w ≠ j) (Lbb : Box) (Ls : ℕ)
    {c1 c2 : List (BTree × Bool)} {SJ : BTree} {Y : LeafR}
    (h1 : ∀ e ∈ c1, j ∉ leafIds e.1) (h2 : ∀ e ∈ c2, j ∉ leafIds e.1)
    (hY : Y ∈ leafList SJ) (hYi : Y.i = j) (hnd : (leafIds SJ).Nodup)
    (hov : inters Lbb Y.bb = true) :
    (walkIns w Lbb Ls (c1 ++ (SJ, true) :: c2)).count (w, j) = 1 ∧
    (walkIns w Lbb Ls (c1 ++ (SJ, true) :: c2)).count (j, w) = 0 ∧
    (walkEm w Lbb Ls (c1 ++ (SJ, true) :: c2)).count (w, j) = 0 ∧
    (walkEm w Lbb Ls (c1 ++ (SJ, true) :: c2)).count (j, w) = 0 := by
  obtain ⟨hz1a, hz1b⟩ := walkIns_count_nopartner hne Lbb Ls h1
  obtain ⟨hz2a, hz2b⟩ := walkIns_count_nopartner hne Lbb Ls h2
  obtain ⟨he1a, he1b⟩ := walkEm_count_nopartner hne Lbb Ls h1
  obtain ⟨he2a, he2b⟩ := walkEm_count_nopartner hne Lbb Ls h2
  have hinsJ : mlqIns SJ w Lbb Ls true = (ovLeaves SJ Lbb).map (fun M => (w, M.i)) := by
    simp [mlqIns]
  have hemJ : mlqEm SJ w Lbb Ls true = [] := by simp [mlqEm]
  have hmapc : (ovLeaves SJ Lbb).map (fun M => (w, M.i)) =
      ((ovLeaves SJ Lbb).map LeafR.i).map (fun m => (w, m)) := by
    rw [List.map_map]
    rfl
  refine ⟨?_, ?_, ?_, ?_⟩
  · rw [walkIns_append, walkIns_cons, List.count_append, List.count_append,
      hz1a, hz2a, hinsJ, hmapc, count_pair_mk_left]
    rw [← hYi]
    rw [ov_count_partner hY hnd hov]
  · rw [walkIns_append, walkIns_cons, List.count_append, List.count_append,
      hz1b, hz2b, hinsJ, hmapc, count_pair_mk_left_ne (Ne.symm hne)]
  · rw [walkEm_append, walkEm_cons, List.count_append, List.count_append,
      he1a, he2a, hemJ]
    rfl
  · rw [walkEm_append, walkEm_cons, List.count_append, List.count_append,
      he1b, he2b, hemJ]
    rfl

/-- Walk counts of a fresh walker `w` whose partner `j` sits in the `A`
child of the joining ancestor (`left = false` there): the pair `(w, j)` is
emitted exactly once, in that orientation only. -/
theorem walk_counts_join_false {w j : ℕ} (hne : w ≠ j) (Lbb : Box) (Ls : ℕ)
    {c1 c2 : List (BTree × Bool)} {SJ : BTree} {Y : LeafR}
    (h1 : ∀ e ∈ c1, j ∉ leafIds e.1) (h2 : ∀ e ∈ c2, j ∉ leafIds e.1)
    (hY : Y ∈ leafList SJ) (hYi : Y.i = j) (hnd : (leafIds SJ).Nodup)
    (hov : inters Lbb Y.bb = true) :
    (walkEm w Lbb Ls (c1 ++ (SJ, false) :: c2)).count (w, j) = 1 ∧
    (walkEm w Lbb Ls (c1 ++ (SJ, false) :: c2)).count (j, w) = 0 := by
  obtain ⟨he1a, he1b⟩ := walkEm_count_nopartner hne Lbb Ls h1
  obtain ⟨he2a, he2b⟩ := walkEm_count_nopartner hne Lbb Ls h2
  have hemJ : mlqEm SJ w Lbb Ls false = (ovLeaves SJ Lbb).map (fun M => (w, M.i)) := by
    simp [mlqEm]
  have hmapc : (ovLeaves SJ Lbb).map (fun M => (w, M.i)) =
      ((ovLeaves SJ Lbb).map LeafR.i).map (fun m => (w, m)) := by
    rw [List.map_map]
    rfl
  constructor
  · rw [walkEm_append, walkEm_cons, List.count_append, List.count_append,
      he1a, he2a, hemJ, hmapc, count_pair_mk_left]
    rw [← hYi]
    rw [ov_count_partner hY hnd hov]
  · rw [walkEm_append, walkEm_cons, List.count_append, List.count_append,
      he1b, he2b, hemJ, hmapc, count_pair_mk_left_ne (Ne.symm hne)]

/-! ### Positioning a leaf, and a pair of leaves, in the visit order -/

/-- A leaf's visit entry in `leafCtx`: its context is its in-tree ancestor
chain continued into `ctx0`, and when `j` names no leaf of `t` none of the
in-tree context subtrees holds `j`. -/
theorem leafCtx_decomp {X : LeafR} {j : ℕ} :
    ∀ t : BTree, X ∈ leafList t → j ∉ leafIds t →
      ∀ ctx0 : List (BTree × Bool),
        ∃ (W1 : List (LeafR × List (BTree × Bool)))
          (inner : List (BTree × Bool))
          (W2 : List (LeafR × List (BTree × Bool))),
          leafCtx t ctx0 = W1 ++ (X, inner ++ ctx0) :: W2 ∧
          (∀ e ∈ inner, j ∉ leafIds e.1) := by
  intro t
  induction t with
  | leaf L =>
    intro hX _ ctx0
    simp only [leafList, List.mem_singleton] at hX
    subst hX
    exact ⟨[], [], [], by simp [leafCtx], by simp⟩
  | node bb A B ihA ihB =>
    intro hX hj ctx0
    have hjA : j ∉ leafIds A := by
      intro hc
      refine hj ?_
      simp only [leafIds, leafList, List.map_append, List.mem_append]
      exact Or.inl hc
    have hjB : j ∉ leafIds B := by
      intro hc
      refine hj ?_
      simp only [leafIds, leafList, List.map_append, List.mem_append]
      exact Or.inr hc
    rw [leafList_node, List.mem_append] at hX
    rcases hX with hX | hX
    · obtain ⟨W1, inner, W2, heq, hinner⟩ := ihA hX hjA ((B, true) :: ctx0)
      refine ⟨W1, inner ++ [(B, true)], W2 ++ leafCtx B ((A, false) :: ctx0), ?_, ?_⟩
      · show leafCtx A ((B, true) :: ctx0) ++ leafCtx B ((A, false) :: ctx0) = _
        rw [heq]
        simp [List.append_assoc]
      · intro e he
        rcases List.mem_append.mp he with he | he
        · exact hinner e he
        · rw [List.mem_singleton] at he
          subst he
          exact hjB
    · obtain ⟨W1, inner, W2, heq, hinner⟩ := ihB hX hjB ((A, false) :: ctx0)
      refine ⟨leafCtx A ((B, true) :: ctx0) ++ W1, inner ++ [(A, false)], W2, ?_, ?_⟩
      · show leafCtx A ((B, true) :: ctx0) ++ leafCtx B ((A, false) :: ctx0) = _
        rw [heq]
        simp [List.append_assoc]
      · intro e he
        rcases List.mem_append.mp he with he | he
        · exact hinner e he
        · rw [List.mem_singleton] at he
          subst he
          exact hjA

/-- Positioning two distinct leaves in the visit order: the earlier-visited
leaf `F` reaches the later one `S` through a `left = true` context entry at
their lowest common ancestor, `S` reaches `F` through a `left = false`
entry there, and neither partner occurs in any other context subtree of
either walk. -/
theorem leafCtx_pair :
    ∀ t : BTree, (leafIds t).Nodup →
      ∀ {X Y : LeafR}, X ∈ leafList t → Y ∈ leafList t → X.i ≠ Y.i →
      ∀ ctx0 : List (BTree × Bool),
        (∀ e ∈ ctx0, X.i ∉ leafIds e.1 ∧ Y.i ∉ leafIds e.1) →
        ∃ (F S : LeafR) (V1 V2 V3 : List (LeafR × List (BTree × Bool)))
          (cF1 cF2 cS1 cS2 : List (BTree × Bool)) (SJF SJS : BTree),
          ((F, S) = (X, Y) ∨ (F, S) = (Y, X)) ∧
          leafCtx t ctx0 =
            V1 ++ ((F, cF1 ++ (SJF, true) :: cF2) ::
              (V2 ++ ((S, cS1 ++ (SJS, false) :: cS2) :: V3))) ∧
          (∀ e ∈ cF1, S.i ∉ leafIds e.1) ∧ (∀ e ∈ cF2, S.i ∉ leafIds e.1) ∧
          S ∈ leafList SJF ∧ (leafIds SJF).Nodup ∧
          (∀ e ∈ cS1, F.i ∉ leafIds e.1) ∧ (∀ e ∈ cS2, F.i ∉ leafIds e.1) ∧
          F ∈ leafList SJS ∧ (leafIds SJS).Nodup := by
  intro t
  induction t with
  | leaf L =>
    intro _ X Y hX hY hne _ _
    simp only [leafList, List.mem_singleton] at hX hY
    rw [hX, hY] at hne
    exact absurd rfl hne
  | node bb A B ihA ihB =>
    intro hnd X Y hX hY hne ctx0 hctx0
    have hndAB : (leafIds A ++ leafIds B).Nodup := by
      simpa [leafIds, leafList] using hnd
    obtain ⟨hndA, hndB, hdisj⟩ := List.nodup_append.mp hndAB
    rw [leafList_node, List.mem_append] at hX hY
    have hmemid : ∀ {Z : LeafR} {C : BTree}, Z ∈ leafList C → Z.i ∈ leafIds C :=
      fun hZ => List.mem_map_of_mem LeafR.i hZ
    rcases hX with hXA | hXB
    · rcases hY with hYA | hYB
      · -- both in A
        have hXB' : X.i ∉ leafIds B := hdisj (hmemid hXA)
        have hYB' : Y.i ∉ leafIds B := hdisj (hmemid hYA)
        have hctx0' : ∀ e ∈ (B, true) :: ctx0, X.i ∉ leafIds e.1 ∧ Y.i ∉ leafIds e.1 := by
          intro e he
          rcases List.mem_cons.mp he with rfl | he
          · exact ⟨hXB', hYB'⟩
          · exact hctx0 e he
        obtain ⟨F, S, V1, V2, V3, cF1, cF2, cS1, cS2, SJF, SJS, hor, heq, hrest⟩ :=
          ihA hndA hXA hYA hne ((B, true) :: ctx0) hctx0'
        refine ⟨F, S, V1, V2, V3 ++ leafCtx B ((A, false) :: ctx0),
          cF1, cF2, cS1, cS2, SJF, SJS, hor, ?_, hrest⟩
        show leafCtx A ((B, true) :: ctx0) ++ leafCtx B ((A, false) :: ctx0) = _
        rw [heq]
        simp [List.append_assoc]
      · -- X in A, Y in B: F = X, S = Y
        have hYA' : Y.i ∉ leafIds A := fun hc => hdisj hc (hmemid hYB)
        have hXB' : X.i ∉ leafIds B := hdisj (hmemid hXA)
        obtain ⟨W1, innerX, W2, heqA, hinnerX⟩ :=
          leafCtx_decomp A hXA hYA' ((B, true) :: ctx0)
        obtain ⟨W1', innerY, W2', heqB, hinnerY⟩ :=
          leafCtx_decomp B hYB hXB' ((A, false) :: ctx0)
        refine ⟨X, Y, W1, W2 ++ W1', W2', innerX, ctx0, innerY, ctx0, B, A,
          Or.inl rfl, ?_, hinnerX, fun e he => (hctx0 e he).2, hYB, hndB,
          hinnerY, fun e he => (hctx0 e he).1, hXA, hndA⟩
        show leafCtx A ((B, true) :: ctx0) ++ leafCtx B ((A, false) :: ctx0) = _
        rw [heqA, heqB]
        simp [List.append_assoc]
    · rcases hY with hYA | hYB
      · -- X in B, Y in A: F = Y, S = X
        have hXA' : X.i ∉ leafIds A := fun hc => hdisj hc (hmemid hXB)
        have hYB' : Y.i ∉ leafIds B := hdisj (hmemid hYA)
        obtain ⟨W1, innerY, W2, heqA, hinnerY⟩ :=
          leafCtx_decomp A hYA hXA' ((B, true) :: ctx0)
        obtain ⟨W1', innerX, W2', heqB, hinnerX⟩ :=
          leafCtx_decomp B hXB hYB' ((A, false) :: ctx0)
        refine ⟨Y, X, W1, W2 ++ W1', W2', innerY, ctx0, innerX, ctx0, B, A,
          Or.inr rfl, ?_, hinnerY, fun e he => (hctx0 e he).1, hXB, hndB,
          hinnerX, fun e he => (hctx0 e he).2, hYA, hndA⟩
        show leafCtx A ((B, true) :: ctx0) ++ leafCtx B ((A, false) :: ctx0) = _
        rw [heqA, heqB]
        simp [List.append_assoc]
      · -- both in B
        have hXA' : X.i ∉ leafIds A := fun hc => hdisj hc (hmemid hXB)
        have hYA' : Y.i ∉ leafIds A := fun hc => hdisj hc (hmemid hYB)
        have hctx0' : ∀ e ∈ (A, false) :: ctx0, X.i ∉ leafIds e.1 ∧ Y.i ∉ leafIds e.1 := by
          intro e he
          rcases List.mem_cons.mp he with rfl | he
          · exact ⟨hXA', hYA'⟩
          · exact hctx0 e he
        obtain ⟨F, S, V1, V2, V3, cF1, cF2, cS1, cS2, SJF, SJS, hor, heq, hrest⟩ :=
          ihB hndB hXB hYB hne ((A, false) :: ctx0) hctx0'
        refine ⟨F, S, leafCtx A ((B, true) :: ctx0) ++ V1, V2, V3,
          cF1, cF2, cS1, cS2, SJF, SJS, hor, ?_, hrest⟩
        show leafCtx A ((B, true) :: ctx0) ++ leafCtx B ((A, false) :: ctx0) = _
        rw [heq]
        simp [List.append_assoc]

/-! ### The scan: exactly one emission per overlapping pair -/

theorem seqE_cons (cur : ℕ) (P : List (ℕ × ℕ)) (e : LeafR × List (BTree × Bool))
    (V : List (LeafR × List (BTree × Bool))) :
    seqE cur P (e :: V) = visitE cur P e ++ seqE cur (visitP cur P e) V := rfl

theorem visitP_fresh {cur : ℕ} {P : List (ℕ × ℕ)} {L : LeafR}
    {c : List (BTree × Bool)} (hfresh : L.s = cur) :
    visitP cur P (L, c) = P ++ walkIns L.i L.bb L.s c := by
  unfold visitP
  rw [if_pos hfresh]

theorem visitP_stale {cur : ℕ} {P : List (ℕ × ℕ)} {L : LeafR}
    {c : List (BTree × Bool)} (hstale : ¬(L.s = cur)) :
    visitP cur P (L, c) = P := by
  unfold visitP
  rw [if_neg hstale]

theorem visitP_count_other (cur : ℕ) (P : List (ℕ × ℕ))
    {e : LeafR × List (BTree × Bool)} {x y : ℕ}
    (hx : e.1.i ≠ x) (hy : e.1.i ≠ y) :
    (visitP cur P e).count (x, y) = P.count (x, y) ∧
    (visitP cur P e).count (y, x) = P.count (y, x) := by
  unfold visitP
  split
  · constructor
    · rw [List.count_append, walkIns_count_notmine hx hy]
      exact Nat.add_zero _
    · rw [List.count_append, walkIns_count_notmine hy hx]
      exact Nat.add_zero _
  · exact ⟨rfl, rfl⟩

theorem visitE_countP_other {cur : ℕ} {P : List (ℕ × ℕ)}
    {e : LeafR × List (BTree × Bool)} {x y : ℕ}
    (hx : e.1.i ≠ x) (hy : e.1.i ≠ y) :
    (visitE cur P e).countP (fun p => unordEq p (x, y)) = 0 := by
  unfold visitE
  split
  · exact walkEm_countP_notmine hx hy
  · rw [List.countP_eq_zero]
    intro p hp hrel
    obtain ⟨q, hq, rfl⟩ := List.mem_map.mp hp
    rcases unordEq_pair_iff.mp hrel with he | he
    · exact hy (congrArg Prod.snd he)
    · exact hx (congrArg Prod.snd he)

theorem seqP_count_others (cur : ℕ) {x y : ℕ} :
    ∀ {V : List (LeafR × List (BTree × Bool))},
      (∀ e ∈ V, e.1.i ≠ x ∧ e.1.i ≠ y) → ∀ P : List (ℕ × ℕ),
      (seqP cur P V).count (x, y) = P.count (x, y) ∧
      (seqP cur P V).count (y, x) = P.count (y, x) := by
  intro V
  induction V with
  | nil => intro _ P; exact ⟨rfl, rfl⟩
  | cons e rest ih =>
    intro h P
    obtain ⟨hx, hy⟩ := h e (List.mem_cons_self _ _)
    obtain ⟨h1, h2⟩ := visitP_count_other cur P hx hy
    obtain ⟨h3, h4⟩ := ih (fun e' he' => h e' (List.mem_cons_of_mem _ he')) (visitP cur P e)
    rw [seqP_cons]
    exact ⟨h3.trans h1, h4.trans h2⟩

theorem seqE_countP_others (cur : ℕ) {x y : ℕ} :
    ∀ {V : List (LeafR × List (BTree × Bool))},
      (∀ e ∈ V, e.1.i ≠ x ∧ e.1.i ≠ y) → ∀ P : List (ℕ × ℕ),
      (seqE cur P V).countP (fun p => unordEq p (x, y)) = 0 := by
  intro V
  induction V with
  | nil => intro _ P; rfl
  | cons e rest ih =>
    intro h P
    obtain ⟨hx, hy⟩ := h e (List.mem_cons_self _ _)
    rw [seqE_cons, List.countP_append, visitE_countP_other hx hy,
      ih (fun e' he' => h e' (List.mem_cons_of_mem _ he')) (visitP cur P e)]

theorem visitE_fresh_countP {cur : ℕ} {P : List (ℕ × ℕ)} {L : LeafR}
    {c : List (BTree × Bool)} {x y : ℕ} (hxy : x ≠ y) (hfresh : L.s = cur) :
    (visitE cur P (L, c)).countP (fun p => unordEq p (x, y)) =
      (walkEm L.i L.bb L.s c).count (x, y) +
      (walkEm L.i L.bb L.s c).count (y, x) := by
  unfold visitE
  rw [if_pos hfresh]
  exact countP_unord hxy _

theorem visitE_stale_second {cur : ℕ} {P : List (ℕ × ℕ)} {L : LeafR}
    {c : List (BTree × Bool)} {x y : ℕ} (hxy : x ≠ y)
    (hstale : ¬(L.s = cur)) (hey : L.i = y) :
    (visitE cur P (L, c)).countP (fun p => unordEq p (x, y)) =
      P.count (x, y) := by
  unfold visitE
  rw [if_neg hstale]
  show ((P.filter (fun p => decide (p.2 = L.i))).map
    (fun p => (p.1, L.i))).countP (fun p => unordEq p (x, y)) = _
  rw [hey, List.countP_map, List.countP_filter, List.count_eq_countP]
  refine List.countP_congr ?_
  intro p _
  constructor
  · intro h
    simp only [Function.comp, Bool.and_eq_true, decide_eq_true_eq] at h
    obtain ⟨h1, h2⟩ := h
    rcases unordEq_pair_iff.mp h1 with he | he
    · have hp1 : p.1 = x := (Prod.ext_iff.mp he).1
      have hp : p = (x, y) := Prod.ext_iff.mpr ⟨hp1, h2⟩
      simpa using hp
    · exact absurd (congrArg Prod.snd he).symm hxy
  · intro h
    have hp : p = (x, y) := by simpa using h
    subst hp
    simp [unordEq_refl]

theorem visitE_stale_first {cur : ℕ} {P : List (ℕ × ℕ)} {L : LeafR}
    {c : List (BTree × Bool)} {x y : ℕ} (hxy : x ≠ y)
    (hstale : ¬(L.s = cur)) (hex : L.i = x) :
    (visitE cur P (L, c)).countP (fun p => unordEq p (x, y)) =
      P.count (y, x) := by
  unfold visitE
  rw [if_neg hstale]
  show ((P.filter (fun p => decide (p.2 = L.i))).map
    (fun p => (p.1, L.i))).countP (fun p => unordEq p (x, y)) = _
  rw [hex, List.countP_map, List.countP_filter, List.count_eq_countP]
  refine List.countP_congr ?_
  intro p _
  constructor
  · intro h
    simp only [Function.comp, Bool.and_eq_true, decide_eq_true_eq] at h
    obtain ⟨h1, h2⟩ := h
    rcases unordEq_pair_iff.mp h1 with he | he
    · exact absurd (congrArg Prod.snd he) hxy
    · have hp1 : p.1 = y := (Prod.ext_iff.mp he).1
      have hp : p = (y, x) := Prod.ext_iff.mpr ⟨hp1, h2⟩
      simpa using hp
  · intro h
    have hp : p = (y, x) := by simpa using h
    subst hp
    have : unordEq ((y, x) : ℕ × ℕ) (x, y) = true :=
      unordEq_pair_iff.mpr (Or.inr rfl)
    simp [this]

/-- Exactly-once core: the in-order visit scan emits the unordered pair
`{x, y}` exactly once, in every freshness combination of the two leaves. -/
theorem seqE_pair_once {cur x y : ℕ} (hxy : x ≠ y)
    {F S : LeafR} {ctxF ctxS : List (BTree × Bool)}
    {V1 V2 V3 : List (LeafR × List (BTree × Bool))} {P0 : List (ℕ × ℕ)}
    (hFi : F.i = x) (hSi : S.i = y)
    (ho1 : ∀ e ∈ V1, e.1.i ≠ x ∧ e.1.i ≠ y)
    (ho2 : ∀ e ∈ V2, e.1.i ≠ x ∧ e.1.i ≠ y)
    (ho3 : ∀ e ∈ V3, e.1.i ≠ x ∧ e.1.i ≠ y)
    (hWF : F.s = cur →
      (walkIns x F.bb F.s ctxF).count (x, y) = 1 ∧
      (walkIns x F.bb F.s ctxF).count (y, x) = 0 ∧
      (walkEm x F.bb F.s ctxF).count (x, y) = 0 ∧
      (walkEm x F.bb F.s ctxF).count (y, x) = 0)
    (hWS : S.s = cur →
      (walkEm y S.bb S.s ctxS).count (y, x) = 1 ∧
      (walkEm y S.bb S.s ctxS).count (x, y) = 0)
    (hP1 : F.s ≠ cur → S.s ≠ cur → P0.count (x, y) + P0.count (y, x) = 1)
    (hP2 : F.s = cur ∨ S.s = cur → P0.count (x, y) = 0 ∧ P0.count (y, x) = 0) :
    (seqE cur P0 (V1 ++ ((F, ctxF) :: (V2 ++ ((S, ctxS) :: V3))))).countP
      (fun p => unordEq p (x, y)) = 1 := by
  rw [seqE_append, List.countP_append]
  rw [seqE_countP_others cur ho1 P0]
  set P1 := seqP cur P0 V1 with hP1def
  have hA1 : P1.count (x, y) = P0.count (x, y) := (seqP_count_others cur ho1 P0).1
  have hB1 : P1.count (y, x) = P0.count (y, x) := (seqP_count_others cur ho1 P0).2
  rw [seqE_cons, List.countP_append]
  set P2 := visitP cur P1 (F, ctxF) with hP2def
  rw [seqE_append, List.countP_append, seqE_countP_others cur ho2 P2]
  set P3 := seqP cur P2 V2 with hP3def
  have hA3 : P3.count (x, y) = P2.count (x, y) := (seqP_count_others cur ho2 P2).1
  have hB3 : P3.count (y, x) = P2.count (y, x) := (seqP_count_others cur ho2 P2).2
  rw [seqE_cons, List.countP_append]
  rw [seqE_countP_others cur ho3 (visitP cur P3 (S, ctxS))]
  by_cases hf : F.s = cur
  · obtain ⟨hI1, hI2, hE1, hE2⟩ := hWF hf
    obtain ⟨hz1, hz2⟩ := hP2 (Or.inl hf)
    have hEF : (visitE cur P1 (F, ctxF)).countP (fun p => unordEq p (x, y)) = 0 := by
      rw [visitE_fresh_countP hxy hf, hFi, hE1, hE2]
    have hA2 : P2.count (x, y) = 1 := by
      rw [hP2def, visitP_fresh hf, List.count_append, hFi, hI1, hA1, hz1]
    have hB2 : P2.count (y, x) = 0 := by
      rw [hP2def, visitP_fresh hf, List.count_append, hFi, hI2, hB1, hz2]
    by_cases hs : S.s = cur
    · obtain ⟨hS1, hS2⟩ := hWS hs
      have hES : (visitE cur P3 (S, ctxS)).countP (fun p => unordEq p (x, y)) = 1 := by
        rw [visitE_fresh_countP hxy hs, hSi, hS2, hS1]
      rw [hEF, hES]
    · have hES : (visitE cur P3 (S, ctxS)).countP (fun p => unordEq p (x, y)) = 1 := by
        rw [visitE_stale_second hxy hs hSi, hA3, hA2]
      rw [hEF, hES]
  · have hEF : (visitE cur P1 (F, ctxF)).countP (fun p => unordEq p (x, y)) =
        P0.count (y, x) := by
      rw [visitE_stale_first hxy hf hFi, hB1]
    have hP2eq : P2 = P1 := by rw [hP2def, visitP_stale hf]
    by_cases hs : S.s = cur
    · obtain ⟨hz1, hz2⟩ := hP2 (Or.inr hs)
      obtain ⟨hS1, hS2⟩ := hWS hs
      have hES : (visitE cur P3 (S, ctxS)).countP (fun p => unordEq p (x, y)) = 1 := by
        rw [visitE_fresh_countP hxy hs, hSi, hS2, hS1]
      rw [hEF, hES, hz2]
    · have hES : (visitE cur P3 (S, ctxS)).countP (fun p => unordEq p (x, y)) =
          P0.count (x, y) := by
        rw [visitE_stale_second hxy hs hSi, hA3, hP2eq, hA1]
      rw [hEF, hES]
      have := hP1 hf hs
      omega

/-! ### The update loop of `reindexQuery` -/

theorem wfStB_parts {st : TreeSt} (h : wfStB st = true) :
    wfB st = true ∧ stampsOkB st = true ∧ pairWfB st = true ∧
    pairNodupB st.pairs = true ∧ pairCompleteB st = true := by
  simp only [wfStB, Bool.and_eq_true] at h
  exact ⟨h.1.1.1.1, h.1.1.1.2, h.1.1.2, h.1.2, h.2⟩

theorem phase1Inv_refl {st0 : TreeSt} (objBB : ℕ → Box) (h : wfStB st0 = true) :
    phase1Inv st0 st0 objBB := by
  obtain ⟨hwf, hst, -, -, -⟩ := wfStB_parts h
  have hstamps : ∀ L ∈ rootLeafList st0.root, L.s < st0.stamp := by
    simpa [stampsOkB] using hst
  refine ⟨rfl, rfl, hwf, fun t ht => ⟨t, ht⟩, ?_, List.Sublist.refl _, ?_, ?_⟩
  · intro L hL
    exact Or.inr ⟨hstamps L hL, hL⟩
  · intro p _
    exact ⟨fun L hL _ => hstamps L hL, fun L hL _ => hstamps L hL⟩
  · intro p hp _ _
    exact hp

theorem phase1Inv_step {st0 st1 : TreeSt} {objBB : ℕ → Box} (i : ℕ)
    (h : phase1Inv st0 st1 objBB) : phase1Inv st0 (updateLeaf st1 objBB i) objBB := by
  obtain ⟨hstamp, hids, hwf, hroot, hleaves, hsub, hstale, hsurv⟩ := h
  have hnoop : updateLeaf st1 objBB i = st1 →
      phase1Inv st0 (updateLeaf st1 objBB i) objBB := by
    intro heq
    rw [heq]
    exact ⟨hstamp, hids, hwf, hroot, hleaves, hsub, hstale, hsurv⟩
  cases hr : st1.root with
  | none => exact hnoop (by simp [updateLeaf, hr])
  | some t =>
    cases hf : findLeaf t i with
    | none => exact hnoop (by simp [updateLeaf, hr, hf])
    | some L =>
      by_cases hcont : containsObjB L.bb (objBB i) = true
      · exact hnoop (by simp [updateLeaf, hr, hf, hcont])
      · obtain ⟨hLi, hLmem⟩ := findLeaf_sound hf
        have hhas : hasId t i = true :=
          hasId_iff_mem.mpr (hLi ▸ List.mem_map_of_mem LeafR.i hLmem)
        have hids2 : (updateLeaf st1 objBB i).ids = st1.ids := by
          simp [updateLeaf, hr, hf, hcont]
        have hstamp2 : (updateLeaf st1 objBB i).stamp = st1.stamp := by
          simp [updateLeaf, hr, hf, hcont]
        have hpairs2 : (updateLeaf st1 objBB i).pairs =
            st1.pairs.filter (fun p => !(decide (p.1 = i) || decide (p.2 = i))) := by
          simp [updateLeaf, hr, hf, hcont]
        have hroot2 : (updateLeaf st1 objBB i).root = some (match remT t i with
            | none => BTree.leaf ⟨i, objBB i, st1.stamp⟩
            | some t1 => insT t1 ⟨i, objBB i, st1.stamp⟩) := by
          simp [updateLeaf, hr, hf, hcont]
        obtain ⟨L0, hL0i, rest, hpermOld, hpermNew⟩ :
            ∃ L0 : LeafR, L0.i = i ∧ ∃ rest : List LeafR,
              (leafList t).Perm (L0 :: rest) ∧
              (rootLeafList (updateLeaf st1 objBB i).root).Perm
                ((⟨i, objBB i, st1.stamp⟩ : LeafR) :: rest) := by
          cases hrem : remT t i with
          | none =>
            obtain ⟨L0, ht, hL0⟩ := remT_none_iff.mp hrem
            refine ⟨L0, hL0, [], ?_, ?_⟩
            · rw [ht]
              exact List.Perm.refl _
            · rw [hroot2, hrem]
              exact List.Perm.refl _
          | some t1 =>
            obtain ⟨L0, hL0, hp⟩ := remT_perm hrem hhas
            refine ⟨L0, hL0, leafList t1, hp, ?_⟩
            rw [hroot2, hrem]
            exact leafList_insT t1 ⟨i, objBB i, st1.stamp⟩
        have hmemNew : ∀ {L' : LeafR},
            L' ∈ rootLeafList (updateLeaf st1 objBB i).root ↔
              L' = (⟨i, objBB i, st1.stamp⟩ : LeafR) ∨ L' ∈ rest := by
          intro L'
          rw [hpermNew.mem_iff, List.mem_cons]
        have hmemOld : ∀ {L' : LeafR}, L' ∈ leafList t ↔ L' = L0 ∨ L' ∈ rest := by
          intro L'
          rw [hpermOld.mem_iff, List.mem_cons]
        have hrestOld : ∀ {L' : LeafR}, L' ∈ rest → L' ∈ rootLeafList st1.root := by
          intro L' hL'
          rw [hr]
          exact hmemOld.mpr (Or.inr hL')
        refine ⟨hstamp2.trans hstamp, hids2.trans hids, wfB_updateLeaf hwf,
          fun t0 _ => ⟨_, hroot2⟩, ?_, ?_, ?_, ?_⟩
        · intro L' hL'
          rcases hmemNew.mp hL' with rfl | hL'
          · exact Or.inl ⟨hstamp, rfl⟩
          · exact hleaves L' (hrestOld hL')
        · rw [hpairs2]
          exact (List.filter_sublist _).trans hsub
        · intro p hp
          rw [hpairs2, List.mem_filter] at hp
          obtain ⟨hp1, hp2⟩ := hp
          have hne1 : p.1 ≠ i := by
            intro hc
            simp [hc] at hp2
          have hne2 : p.2 ≠ i := by
            intro hc
            simp [hc] at hp2
          have hst1 := hstale p hp1
          constructor <;> intro L' hL' hL'i <;> rw [hstamp2]
          · rcases hmemNew.mp hL' with rfl | hL'
            · exact absurd hL'i.symm hne1
            · exact hst1.1 L' (hrestOld hL') hL'i
          · rcases hmemNew.mp hL' with rfl | hL'
            · exact absurd hL'i.symm hne2
            · exact hst1.2 L' (hrestOld hL') hL'i
        · intro p hp hstA hstB
          have hnlmem : (⟨i, objBB i, st1.stamp⟩ : LeafR) ∈
              rootLeafList (updateLeaf st1 objBB i).root := hmemNew.mpr (Or.inl rfl)
          have hne1 : p.1 ≠ i := by
            intro hc
            have := hstA _ hnlmem hc.symm
            rw [hstamp2] at this
            exact absurd this (lt_irrefl _)
          have hne2 : p.2 ≠ i := by
            intro hc
            have := hstB _ hnlmem hc.symm
            rw [hstamp2] at this
            exact absurd this (lt_irrefl _)
          have hstA1 : staleIn st1 p.1 := by
            intro L' hL' hL'i
            have hL't : L' ∈ leafList t := by rwa [hr] at hL'
            rcases hmemOld.mp hL't with rfl | hrest
            · rw [hL0i] at hL'i
              exact absurd hL'i.symm hne1
            · have := hstA L' (hmemNew.mpr (Or.inr hrest)) hL'i
              rwa [hstamp2] at this
          have hstB1 : staleIn st1 p.2 := by
            intro L' hL' hL'i
            have hL't : L' ∈ leafList t := by rwa [hr] at hL'
            rcases hmemOld.mp hL't with rfl | hrest
            · rw [hL0i] at hL'i
              exact absurd hL'i.symm hne2
            · have := hstB L' (hmemNew.mpr (Or.inr hrest)) hL'i
              rwa [hstamp2] at this
          rw [hpairs2, List.mem_filter]
          refine ⟨hsurv p hp hstA1 hstB1, ?_⟩
          simp [hne1, hne2]

theorem phase1Inv_foldl {st0 : TreeSt} {objBB : ℕ → Box} :
    ∀ (ids : List ℕ) (st1 : TreeSt), phase1Inv st0 st1 objBB →
      phase1Inv st0 (ids.foldl (fun acc j => updateLeaf acc objBB j) st1) objBB := by
  intro ids
  induction ids with
  | nil =>
    intro st1 h
    exact h
  | cons j rest ih =>
    intro st1 h
    exact ih _ (phase1Inv_step j h)

/-! ### Final glue for the reindex pass -/

theorem unordEq_comm (p q : ℕ × ℕ) : unordEq p q = unordEq q p := by
  cases h1 : unordEq p q with
  | true =>
    rcases unordEq_iff.mp h1 with rfl | hcr
    · exact (unordEq_refl p).symm
    · exact (unordEq_iff.mpr (Or.inr ⟨hcr.2.symm, hcr.1.symm⟩)).symm
  | false =>
    cases h2 : unordEq q p with
    | false => rfl
    | true =>
      rcases unordEq_iff.mp h2 with rfl | hcr
      · rw [unordEq_refl] at h1
        cases h1
      · rw [unordEq_iff.mpr (Or.inr ⟨hcr.2.symm, hcr.1.symm⟩)] at h1
        cases h1

theorem unordEq_pair_swap (p : ℕ × ℕ) (x y : ℕ) :
    unordEq p (x, y) = unordEq p (y, x) := by
  cases h1 : unordEq p (x, y) with
  | true => exact (unordEq_pair_iff.mpr (Or.symm (unordEq_pair_iff.mp h1))).symm
  | false =>
    cases h2 : unordEq p (y, x) with
    | false => rfl
    | true =>
      rw [unordEq_pair_iff.mpr (Or.symm (unordEq_pair_iff.mp h2))] at h1
      cases h1

theorem nodup_decomp_ne {A B C : List ℕ} {x y : ℕ}
    (h : (A ++ x :: (B ++ y :: C)).Nodup) :
    x ≠ y ∧ (∀ a ∈ A, a ≠ x ∧ a ≠ y) ∧ (∀ a ∈ B, a ≠ x ∧ a ≠ y) ∧
      (∀ a ∈ C, a ≠ x ∧ a ≠ y) := by
  obtain ⟨hA, hrest, hdisjA⟩ := List.nodup_append.mp h
  obtain ⟨hxnot, hrest2⟩ := List.nodup_cons.mp hrest
  obtain ⟨hB, hyC, hdisjB⟩ := List.nodup_append.mp hrest2
  obtain ⟨hynot, hC⟩ := List.nodup_cons.mp hyC
  have hxy : x ≠ y := by
    intro hc
    exact hxnot (by rw [hc]; exact List.mem_append_right _ (List.mem_cons_self _ _))
  refine ⟨hxy, ?_, ?_, ?_⟩
  · intro a ha
    have hnot := hdisjA ha
    rw [List.mem_cons, List.mem_append, List.mem_cons] at hnot
    exact ⟨fun hc => hnot (Or.inl hc), fun hc => hnot (Or.inr (Or.inr (Or.inl hc)))⟩
  · intro a ha
    constructor
    · intro hc
      exact hxnot (List.mem_append_left _ (hc ▸ ha))
    · intro hc
      exact hdisjB ha (by rw [hc]; exact List.mem_cons_self _ _)
  · intro a ha
    constructor
    · intro hc
      exact hxnot (List.mem_append_right _ (List.mem_cons_of_mem _ (hc ▸ ha)))
    · intro hc
      exact hynot (hc ▸ ha)

theorem count_pair_eq_one_of_mem :
    ∀ {P : List (ℕ × ℕ)}, P.Nodup → ∀ {a : ℕ × ℕ}, a ∈ P → P.count a = 1 := by
  intro P
  induction P with
  | nil =>
    intro _ a ha
    cases ha
  | cons b t ih =>
    intro hnd a ha
    obtain ⟨hbn, hnd2⟩ := List.nodup_cons.mp hnd
    rcases List.mem_cons.mp ha with rfl | hat
    · rw [List.count_cons_self, List.count_eq_zero.mpr hbn]
    · have hne : a ≠ b := by
        intro hc
        rw [hc] at hat
        exact hbn hat
      rw [List.count_cons_of_ne hne t]
      exact ih hnd2 hat

/-- In a `Pairwise`-deduplicated cache containing one orientation of the
pair, the occurrence counts are exactly one and zero. -/
theorem pair_cache_counts {P : List (ℕ × ℕ)} (hnd : pairNodupB P = true)
    {x y : ℕ} (hxy : x ≠ y) (hmem : (x, y) ∈ P ∨ (y, x) ∈ P) :
    P.count (x, y) + P.count (y, x) = 1 := by
  have hpw : P.Pairwise (fun p q => unordEq p q = false) := by
    simpa [pairNodupB] using hnd
  have hnodup : P.Nodup := by
    refine hpw.imp ?_
    intro a b hab heq
    rw [heq, unordEq_refl] at hab
    cases hab
  have hsym : Symmetric (fun p q : ℕ × ℕ => unordEq p q = false) := by
    intro a b hab
    rw [unordEq_comm]
    exact hab
  have hnotboth : ¬((x, y) ∈ P ∧ (y, x) ∈ P) := by
    rintro ⟨h1, h2⟩
    have hne : ((x, y) : ℕ × ℕ) ≠ (y, x) := fun hc => hxy (congrArg Prod.fst hc)
    have hfalse := List.Pairwise.forall hsym hpw h1 h2 hne
    rw [unordEq_pair_iff.mpr (Or.inr rfl)] at hfalse
    cases hfalse
  rcases hmem with hm | hm
  · have h1 : P.count (x, y) = 1 := count_pair_eq_one_of_mem hnodup hm
    have h2 : P.count (y, x) = 0 := by
      rw [List.count_eq_zero]
      intro hc
      exact hnotboth ⟨hm, hc⟩
    rw [h1, h2]
  · have h1 : P.count (y, x) = 1 := count_pair_eq_one_of_mem hnodup hm
    have h2 : P.count (x, y) = 0 := by
      rw [List.count_eq_zero]
      intro hc
      exact hnotboth ⟨hc, hm⟩
    rw [h1, h2]

/-- C3: after a `reindexQuery` pass from a well-formed between-passes state
(`wfStB`: exact union boxes, unique positions, every leaf stale, and a
deduplicated, well-formed, complete pair cache), every unordered pair of
distinct tree leaves whose stored (fattened) boxes overlap receives the
collision callback exactly once — in one orientation only — counting fresh
walk emissions and stale cached-pair service alike.  The second conjunct
is the stamp-comparison dedup gate of `markLeafQuery`: at a reached leaf
with `left = false` the pair is inserted into the cache only when the
reached leaf's stamp is lower than the walking leaf's. -/
theorem c3_reindex_pair_once (st : TreeSt) (objBB : ℕ → Box)
    (h : wfStB st = true) :
    (∀ X Y : LeafR, X ∈ rootLeafList (reindexQueryM st objBB).1.root →
      Y ∈ rootLeafList (reindexQueryM st objBB).1.root →
      X.i ≠ Y.i → inters X.bb Y.bb = true →
      ((reindexQueryM st objBB).2).countP (fun p => unordEq p (X.i, Y.i)) = 1) ∧
    (∀ (M : LeafR) (Li : ℕ) (Lbb : Box) (Ls : ℕ) (P : List (ℕ × ℕ)),
      inters Lbb M.bb = true →
      (mlq (.leaf M) Li Lbb Ls false P).1 =
        if M.s < Ls then P ++ [(M.i, Li)] else P) := by
  constructor
  · intro X Y hX hY hne hov
    cases hr0 : st.root with
    | none =>
      simp [reindexQueryM, hr0, rootLeafList] at hX
    | some t0 =>
      have hinv := phase1Inv_foldl st.ids st (phase1Inv_refl objBB h)
      set st1 := st.ids.foldl (fun acc j => updateLeaf acc objBB j) st with hst1
      obtain ⟨hstamp, hids, hwf1, hroot1, hleaves, hsub, hstale, hsurv⟩ := hinv
      obtain ⟨t1, hr1⟩ := hroot1 t0 hr0
      have hbbt1 : bbOkB t1 = true := by
        have hb := (wfB_iff.mp hwf1).1
        rw [hr1] at hb
        simpa [rootBbOk] using hb
      have hpos := (wfB_iff.mp hwf1).2
      rw [posOk_iff] at hpos
      obtain ⟨hnd1, -, -⟩ := hpos
      have hndt1 : (leafIds t1).Nodup := by
        rw [hr1] at hnd1
        simpa [rootLeafList, leafIds] using hnd1
      have hchar := markSub_char t1 hbbt1 [] (by intro e he; cases he)
        st1.pairs st1.stamp
      have hred : reindexQueryM st objBB =
          (TreeSt.mk st1.root st1.ids (markSub t1 [] st1.pairs st1.stamp).1
            (st1.stamp + 1), (markSub t1 [] st1.pairs st1.stamp).2) := by
        simp only [reindexQueryM, hr0]
        rw [← hst1, hr1]
      have hX1 : X ∈ leafList t1 := by
        rw [hred] at hX
        simpa [rootLeafList, hr1] using hX
      have hY1 : Y ∈ leafList t1 := by
        rw [hred] at hY
        simpa [rootLeafList, hr1] using hY
      obtain ⟨F, S, V1, V2, V3, cF1, cF2, cS1, cS2, SJF, SJS, hor, heq,
        hcF1, hcF2, hSJF, hndF, hcS1, hcS2, hSJS, hndS⟩ :=
        leafCtx_pair t1 hndt1 hX1 hY1 hne [] (by intro e he; cases he)
      have hF1 : F ∈ leafList t1 := by
        rw [← leafCtx_fst t1 [], heq]
        simp
      have hS1 : S ∈ leafList t1 := by
        rw [← leafCtx_fst t1 [], heq]
        simp
      have hFst : F ∈ rootLeafList st1.root := by
        rw [hr1]
        exact hF1
      have hSst : S ∈ rootLeafList st1.root := by
        rw [hr1]
        exact hS1
      have hovFS : inters F.bb S.bb = true := by
        rcases hor with hFS | hFS
        · have hFe : F = X := congrArg Prod.fst hFS
          have hSe : S = Y := congrArg Prod.snd hFS
          rw [hFe, hSe]
          exact hov
        · have hFe : F = Y := congrArg Prod.fst hFS
          have hSe : S = X := congrArg Prod.snd hFS
          rw [hFe, hSe]
          exact inters_true_comm hov
      have hidseq : leafIds t1 =
          V1.map (fun e => e.1.i) ++ F.i ::
            (V2.map (fun e => e.1.i) ++ S.i :: V3.map (fun e => e.1.i)) := by
        rw [leafIds, ← leafCtx_fst t1 [], heq]
        simp only [List.map_append, List.map_map, List.map_cons]
        rfl
      have hndall := hndt1
      rw [hidseq] at hndall
      obtain ⟨hxy, hA, hB, hC⟩ := nodup_decomp_ne hndall
      have ho1 : ∀ e ∈ V1, e.1.i ≠ F.i ∧ e.1.i ≠ S.i := by
        intro e he
        exact hA _ (List.mem_map_of_mem _ he)
      have ho2 : ∀ e ∈ V2, e.1.i ≠ F.i ∧ e.1.i ≠ S.i := by
        intro e he
        exact hB _ (List.mem_map_of_mem _ he)
      have ho3 : ∀ e ∈ V3, e.1.i ≠ F.i ∧ e.1.i ≠ S.i := by
        intro e he
        exact hC _ (List.mem_map_of_mem _ he)
      have hWFc := walk_counts_join_true hxy F.bb F.s hcF1 hcF2 hSJF rfl hndF hovFS
      have hWSc := walk_counts_join_false (Ne.symm hxy) S.bb S.s hcS1 hcS2 hSJS
        rfl hndS (inters_true_comm hovFS)
      have hstaleF : F.s ≠ st1.stamp →
          staleIn st1 F.i ∧ F.s < st.stamp ∧ F ∈ rootLeafList st.root := by
        intro hFs
        rcases hleaves F hFst with ⟨heqs, -⟩ | ⟨hlt, hmem0⟩
        · exact absurd (heqs.trans hstamp.symm) hFs
        · refine ⟨?_, hlt, hmem0⟩
          intro L hL hLi
          have hLF : L = F := List.inj_on_of_nodup_map hnd1 hL hFst hLi
          rw [hLF, hstamp]
          exact hlt
      have hstaleS : S.s ≠ st1.stamp →
          staleIn st1 S.i ∧ S.s < st.stamp ∧ S ∈ rootLeafList st.root := by
        intro hSs
        rcases hleaves S hSst with ⟨heqs, -⟩ | ⟨hlt, hmem0⟩
        · exact absurd (heqs.trans hstamp.symm) hSs
        · refine ⟨?_, hlt, hmem0⟩
          intro L hL hLi
          have hLS : L = S := List.inj_on_of_nodup_map hnd1 hL hSst hLi
          rw [hLS, hstamp]
          exact hlt
      have hP2 : F.s = st1.stamp ∨ S.s = st1.stamp →
          st1.pairs.count (F.i, S.i) = 0 ∧ st1.pairs.count (S.i, F.i) = 0 := by
        intro hfresh
        rcases hfresh with hf | hf
        · constructor <;> rw [List.count_eq_zero] <;> intro hc
          · have hlt := (hstale _ hc).1 F hFst rfl
            rw [hf] at hlt
            exact absurd hlt (lt_irrefl _)
          · have hlt := (hstale _ hc).2 F hFst rfl
            rw [hf] at hlt
            exact absurd hlt (lt_irrefl _)
        · constructor <;> rw [List.count_eq_zero] <;> intro hc
          · have hlt := (hstale _ hc).2 S hSst rfl
            rw [hf] at hlt
            exact absurd hlt (lt_irrefl _)
          · have hlt := (hstale _ hc).1 S hSst rfl
            rw [hf] at hlt
            exact absurd hlt (lt_irrefl _)
      have hP1f : F.s ≠ st1.stamp → S.s ≠ st1.stamp →
          st1.pairs.count (F.i, S.i) + st1.pairs.count (S.i, F.i) = 1 := by
        intro hfs hss
        obtain ⟨hstF, hltF, hmemF0⟩ := hstaleF hfs
        obtain ⟨hstS, hltS, hmemS0⟩ := hstaleS hss
        have hcomp : (F.i, S.i) ∈ st.pairs ∨ (S.i, F.i) ∈ st.pairs := by
          have hc := (wfStB_parts h).2.2.2.2
          simp only [pairCompleteB, decide_eq_true_eq] at hc
          exact hc F hmemF0 S hmemS0 hxy hovFS
        have hsum0 : st.pairs.count (F.i, S.i) + st.pairs.count (S.i, F.i) = 1 :=
          pair_cache_counts (wfStB_parts h).2.2.2.1 hxy hcomp
        have hle1 : st1.pairs.count (F.i, S.i) ≤ st.pairs.count (F.i, S.i) :=
          hsub.count_le _
        have hle2 : st1.pairs.count (S.i, F.i) ≤ st.pairs.count (S.i, F.i) :=
          hsub.count_le _
        rcases hcomp with hm | hm
        · have hmem1 : (F.i, S.i) ∈ st1.pairs := hsurv _ hm hstF hstS
          have h1n : st1.pairs.count (F.i, S.i) ≠ 0 :=
            fun hc => (List.count_eq_zero.mp hc) hmem1
          omega
        · have hmem1 : (S.i, F.i) ∈ st1.pairs := hsurv _ hm hstS hstF
          have h1n : st1.pairs.count (S.i, F.i) ≠ 0 :=
            fun hc => (List.count_eq_zero.mp hc) hmem1
          omega
      rw [hred]
      show (markSub t1 [] st1.pairs st1.stamp).2.countP
        (fun p => unordEq p (X.i, Y.i)) = 1
      rw [hchar, heq]
      rcases hor with hFS | hFS
      · have hFe : F = X := congrArg Prod.fst hFS
        have hSe : S = Y := congrArg Prod.snd hFS
        rw [← hFe, ← hSe]
        exact seqE_pair_once hxy rfl rfl ho1 ho2 ho3 (fun _ => hWFc)
          (fun _ => hWSc) hP1f hP2
      · have hFe : F = Y := congrArg Prod.fst hFS
        have hSe : S = X := congrArg Prod.snd hFS
        rw [← hFe, ← hSe]
        have hsw : (fun p : ℕ × ℕ => unordEq p (S.i, F.i)) =
            (fun p => unordEq p (F.i, S.i)) :=
          funext fun p => unordEq_pair_swap p S.i F.i
        rw [hsw]
        exact seqE_pair_once hxy rfl rfl ho1 ho2 ho3 (fun _ => hWFc)
          (fun _ => hWSc) hP1f hP2
  · intro M Li Lbb Ls P hov
    by_cases hs : M.s < Ls <;> simp [mlq, hov, hs]

/-- Concrete reindex pass for C3: two stale overlapping leaves whose boxes
did not move — the pass serves the cached pair exactly once. -/
theorem c3_witness :
    wfStB stW = true ∧
    (⟨1, boxW1, 0⟩ : LeafR) ∈ rootLeafList (reindexQueryM stW objW).1.root ∧
    (⟨2, boxW2, 0⟩ : LeafR) ∈ rootLeafList (reindexQueryM stW objW).1.root ∧
    inters boxW1 boxW2 = true ∧
    ((reindexQueryM stW objW).2).countP (fun p => unordEq p (1, 2)) = 1 :=
  have hw : wfStB stW = true := by with_unfolding_all decide
  have hm1 : (⟨1, boxW1, 0⟩ : LeafR) ∈
      rootLeafList (reindexQueryM stW objW).1.root := by
    with_unfolding_all decide
  have hm2 : (⟨2, boxW2, 0⟩ : LeafR) ∈
      rootLeafList (reindexQueryM stW objW).1.root := by
    with_unfolding_all decide
  have hov : inters boxW1 boxW2 = true := by with_unfolding_all decide
  ⟨hw, hm1, hm2, hov,
    (c3_reindex_pair_once stW objW hw).1 ⟨1, boxW1, 0⟩ ⟨2, boxW2, 0⟩ hm1 hm2
      (by with_unfolding_all decide) hov⟩

end Chipmunk
